import Mathlib

/-!
Verification of the obsidian-notion-import synchronization engine against its
specification.  The TypeScript sources are shallowly embedded: pure string and
list manipulation is translated to executable Lean functions over `List Char`
and `String`, stateful loops become explicit state passing folds, and the
effectful sync flows are modelled as functions that emit the list of remote
calls they would issue.
-/

namespace NotionSync

/- ### JavaScript string primitives -/

/-- Whitespace as matched by the JavaScript regex class `\s` and by
`String.prototype.trim`: ASCII whitespace plus the Unicode space characters. -/
def isJsSpace (c : Char) : Bool :=
  c = ' ' || c = '\t' || c = '\n' || c = '\r' || c = '\x0b' || c = '\x0c' ||
  c = ' ' || c = ' ' || (' ' ≤ c && c ≤ ' ') ||
  c = ' ' || c = ' ' || c = ' ' || c = ' ' ||
  c = '　' || c = '﻿'

/-- Model of `String.prototype.trim` on character lists. -/
def jsTrimList (l : List Char) : List Char :=
  ((l.dropWhile isJsSpace).reverse.dropWhile isJsSpace).reverse

/-- Model of `str.split('\n')`: splitting on every newline, keeping empty
pieces, with the empty string splitting to one empty piece. -/
def splitNl : List Char → List (List Char)
  | [] => [[]]
  | c :: rest =>
    if c = '\n' then [] :: splitNl rest
    else
      match splitNl rest with
      | [] => [[c]]
      | l :: ls => (c :: l) :: ls

/-- Model of `String.prototype.includes`: `pat` occurs as a contiguous
substring of `l`. -/
def containsSub (pat : List Char) : List Char → Bool
  | [] => pat == []
  | c :: rest => pat.isPrefixOf (c :: rest) || containsSub pat rest

/-- Split at the first occurrence of `pat`, returning the part before the
occurrence and the part after it; `none` when `pat` does not occur. -/
def splitFirst (pat : List Char) : List Char → Option (List Char × List Char)
  | [] => if pat == ([] : List Char) then some ([], []) else none
  | c :: rest =>
    if pat.isPrefixOf (c :: rest) then some ([], (c :: rest).drop pat.length)
    else
      match splitFirst pat rest with
      | some (a, b) => some (c :: a, b)
      | none => none

/- ### Block model (content-diff.ts, utils.ts) -/

/-- A Notion block as the differ and the codec see it: the kind tag together
with the plain text of each rich text run and the kind specific attributes.
Children are not modelled because the differ compares only the direct child
sequence.  The `unsupported` constructor stands for every remote kind outside
the supported set. -/
inductive Block where
  | paragraph (richText : List String)
  | heading_1 (richText : List String)
  | heading_2 (richText : List String)
  | heading_3 (richText : List String)
  | bulleted_list_item (richText : List String)
  | numbered_list_item (richText : List String)
  | to_do (checked : Bool) (richText : List String)
  | toggle (richText : List String)
  | quote (richText : List String)
  | code (language : String) (richText : List String)
  | divider
  | unsupported (tag : String)
  deriving DecidableEq, Repr

/-- A block fetched from the remote store: content plus the opaque remote
identity. -/
structure RemoteBlock where
  id : String
  content : Block
  deriving DecidableEq, Repr

/-- ContentDiffer.richTextEqual (content-diff.ts 166-180): same run count and
pairwise equal text.  The remote plain text and the candidate text content
are both modelled as the entries of the lists. -/
def richTextEqual (current newRichText : List String) : Bool :=
  current.length == newRichText.length &&
    (List.zip current newRichText).all fun p => p.1 == p.2

/-- ContentDiffer.blocksEqual (content-diff.ts 114-164): kinds must match,
then the per kind comparison.  A toggle, like every kind absent from the
switch, falls to the default branch and compares unequal even to itself,
exactly as in the source. -/
def blocksEqual : Block → Block → Bool
  | .paragraph a, .paragraph b => richTextEqual a b
  | .heading_1 a, .heading_1 b => richTextEqual a b
  | .heading_2 a, .heading_2 b => richTextEqual a b
  | .heading_3 a, .heading_3 b => richTextEqual a b
  | .bulleted_list_item a, .bulleted_list_item b => richTextEqual a b
  | .numbered_list_item a, .numbered_list_item b => richTextEqual a b
  | .to_do ca a, .to_do cb b => ca == cb && richTextEqual a b
  | .code la a, .code lb b => la == lb && richTextEqual a b
  | .quote a, .quote b => richTextEqual a b
  | .divider, .divider => true
  | _, _ => false

/-- Diff entry classification (content-diff.ts 5-10). -/
inductive DiffType where
  | create
  | update
  | delete
  | unchanged
  deriving DecidableEq, Repr

/-- One entry of the positional diff (content-diff.ts 5-10). -/
structure BlockDiff where
  type : DiffType
  blockId : Option String
  content : Option Block
  position : Nat
  deriving DecidableEq, Repr

/-- ContentDiffer.compareBlocks (content-diff.ts 68-112): walk position
indices up to the longer length; only the new side present yields `create`,
only the current side present yields `delete` carrying the remote id, both
present compare with `blocksEqual`. -/
def compareBlocks (currentBlocks : List RemoteBlock) (newBlocks : List Block) :
    List BlockDiff :=
  (List.range (max currentBlocks.length newBlocks.length)).filterMap fun i =>
    match currentBlocks[i]?, newBlocks[i]? with
    | none, some nb =>
      some { type := .create, blockId := none, content := some nb, position := i }
    | some cb, none =>
      some { type := .delete, blockId := some cb.id, content := none, position := i }
    | some cb, some nb =>
      if blocksEqual cb.content nb then
        some { type := .unchanged, blockId := some cb.id, content := some nb, position := i }
      else
        some { type := .update, blockId := some cb.id, content := some nb, position := i }
    | none, none => none

/- ### Markdown decoding (ContentDiffer.markdownToBlocks) -/

/-- Parser state of the line scan: the blocks emitted so far and the pending
paragraph text (empty list meaning no pending paragraph). -/
structure MdState where
  blocks : List Block
  currentParagraph : List Char
  deriving Repr

/-- The flushParagraph closure (content-diff.ts 187-198). -/
def flushParagraph (st : MdState) : MdState :=
  if st.currentParagraph = [] then st
  else { blocks := st.blocks ++ [Block.paragraph [String.mk st.currentParagraph]],
         currentParagraph := [] }

/-- The regex `^- \[[x ]\]` of content-diff.ts 236/246. -/
def isToDoLine (l : List Char) : Bool :=
  List.isPrefixOf "- [x]".data l || List.isPrefixOf "- [ ]".data l

/-- The regex `^\d+\. ` of content-diff.ts 261: on success, the line with the
leading digits, dot and space removed (the source removes the first match). -/
def numberedSplit (l : List Char) : Option (List Char) :=
  let ds := l.takeWhile Char.isDigit
  if ds.length != 0 && List.isPrefixOf ['.', ' '] (l.drop ds.length) then
    some ((l.drop ds.length).drop 2)
  else none

/-- One iteration of the line loop of ContentDiffer.markdownToBlocks
(content-diff.ts 200-310), in the branch order of the source. -/
def processLine (st : MdState) (line : List Char) : MdState :=
  if jsTrimList line = [] then flushParagraph st
  else if List.isPrefixOf "# ".data line then
    let st := flushParagraph st
    { st with blocks := st.blocks ++ [Block.heading_1 [String.mk (line.drop 2)]] }
  else if List.isPrefixOf "## ".data line then
    let st := flushParagraph st
    { st with blocks := st.blocks ++ [Block.heading_2 [String.mk (line.drop 3)]] }
  else if List.isPrefixOf "### ".data line then
    let st := flushParagraph st
    { st with blocks := st.blocks ++ [Block.heading_3 [String.mk (line.drop 4)]] }
  else if List.isPrefixOf "- ".data line && !isToDoLine line then
    let st := flushParagraph st
    { st with blocks := st.blocks ++ [Block.bulleted_list_item [String.mk (line.drop 2)]] }
  else if isToDoLine line then
    let st := flushParagraph st
    let checked := containsSub "[x]".data line
    let content := (line.drop 5).dropWhile isJsSpace
    { st with blocks := st.blocks ++ [Block.to_do checked [String.mk content]] }
  else
    match numberedSplit line with
    | some rest =>
      let st := flushParagraph st
      { st with blocks := st.blocks ++ [Block.numbered_list_item [String.mk rest]] }
    | none =>
      if List.isPrefixOf "> ".data line then
        let st := flushParagraph st
        { st with blocks := st.blocks ++ [Block.quote [String.mk (line.drop 2)]] }
      else if jsTrimList line = "---".data then
        let st := flushParagraph st
        { st with blocks := st.blocks ++ [Block.divider] }
      else if List.isPrefixOf "```".data line then
        let st := flushParagraph st
        let language := if line.drop 3 = [] then "text".data else line.drop 3
        { st with blocks := st.blocks ++ [Block.code (String.mk language) [""]] }
      else
        { st with currentParagraph :=
            if st.currentParagraph = [] then line
            else st.currentParagraph ++ '\n' :: line }

/-- ContentDiffer.markdownToBlocks (content-diff.ts 182-314): trim, split on
newline, classify each line accumulating paragraph text, final flush. -/
def markdownToBlocks (markdown : String) : List Block :=
  let lines := splitNl (jsTrimList markdown.data)
  (flushParagraph (lines.foldl processLine { blocks := [], currentParagraph := [] })).blocks

/-- Result record of ContentDiffer.diffPageContent (content-diff.ts 12-17). -/
structure ContentDiffResult where
  hasChanges : Bool
  diffs : List BlockDiff
  titleChanged : Bool
  newTitle : Option String
  deriving DecidableEq, Repr

/-- Success path of ContentDiffer.diffPageContent (content-diff.ts 41-55),
after the remote state has been fetched: title comparison, markdown decode,
positional diff, and the hasChanges aggregate. -/
def diffPageContent (currentBlocks : List RemoteBlock) (currentTitle : String)
    (newMarkdown newTitle : String) : ContentDiffResult :=
  let titleChanged := currentTitle != newTitle
  let newBlocks := markdownToBlocks newMarkdown
  let diffs := compareBlocks currentBlocks newBlocks
  { hasChanges := diffs.any (fun d => d.type != DiffType.unchanged) || titleChanged,
    diffs := diffs,
    titleChanged := titleChanged,
    newTitle := if titleChanged then some newTitle else none }

/- ### Claim C1: positional classification of the diff -/

/-- The entry that compareBlocks emits for position `i` (the body of the loop
in content-diff.ts 72-109). -/
def diffEntryAt (R : List RemoteBlock) (L : List Block) (i : Nat) : Option BlockDiff :=
  match R[i]?, L[i]? with
  | none, some nb => some ⟨.create, none, some nb, i⟩
  | some cb, none => some ⟨.delete, some cb.id, none, i⟩
  | some cb, some nb =>
    if blocksEqual cb.content nb then some ⟨.unchanged, some cb.id, some nb, i⟩
    else some ⟨.update, some cb.id, some nb, i⟩
  | none, none => none

theorem compareBlocks_eq_filterMap (R : List RemoteBlock) (L : List Block) :
    compareBlocks R L =
      (List.range (max R.length L.length)).filterMap (diffEntryAt R L) := rfl

theorem filterMap_eq_map_getD {α β : Type} (l : List α) (f : α → Option β) (j : β)
    (h : ∀ a ∈ l, (f a).isSome) :
    l.filterMap f = l.map fun a => (f a).getD j := by
  induction l with
  | nil => rfl
  | cons a t ih =>
    obtain ⟨b, hb⟩ := Option.isSome_iff_exists.mp (h a (by simp))
    rw [List.map_cons, List.filterMap_cons, hb]
    simp only [Option.getD_some]
    exact congrArg _ (ih fun x hx => h x (by simp [hx]))

theorem diffEntryAt_isSome (R : List RemoteBlock) (L : List Block) (i : Nat)
    (h : i < max R.length L.length) : (diffEntryAt R L i).isSome := by
  unfold diffEntryAt
  rcases lt_max_iff.mp h with hi | hi
  · rw [List.getElem?_eq_getElem hi]
    cases L[i]? with
    | none => simp
    | some nb => by_cases hbe : blocksEqual (R[i]).content nb <;> simp [hbe]
  · rw [List.getElem?_eq_getElem hi]
    cases R[i]? with
    | none => simp
    | some cb => by_cases hbe : blocksEqual cb.content L[i] <;> simp [hbe]

theorem compareBlocks_getElem? (R : List RemoteBlock) (L : List Block) (i : Nat)
    (h : i < max R.length L.length) :
    (compareBlocks R L)[i]? = diffEntryAt R L i := by
  rw [compareBlocks_eq_filterMap,
    filterMap_eq_map_getD _ _ ⟨.create, none, none, 0⟩
      (fun a ha => diffEntryAt_isSome R L a (List.mem_range.mp ha)),
    List.getElem?_map, List.getElem?_range h]
  obtain ⟨d, hd⟩ := Option.isSome_iff_exists.mp (diffEntryAt_isSome R L i h)
  simp [hd]

/-- Claim C1: for every remote block list R and local markdown M, the diff
classifies position i as create when i is past the end of R but within the
decoded local list, as delete carrying the remote id when i is within R but
past the end of the local list, and when both are present as unchanged
exactly when blocksEqual succeeds and update otherwise; hasChanges holds iff
some diff entry is not unchanged or the titles differ. -/
theorem claim_C1 (R : List RemoteBlock) (M tCur tNew : String) (i : Nat) :
    (R.length ≤ i → ∀ h : i < (markdownToBlocks M).length,
      (compareBlocks R (markdownToBlocks M))[i]? =
        some ⟨.create, none, some ((markdownToBlocks M)[i]), i⟩) ∧
    (∀ h : i < R.length, (markdownToBlocks M).length ≤ i →
      (compareBlocks R (markdownToBlocks M))[i]? =
        some ⟨.delete, some (R[i]).id, none, i⟩) ∧
    (∀ hR : i < R.length, ∀ hL : i < (markdownToBlocks M).length,
      (compareBlocks R (markdownToBlocks M))[i]? =
        some ⟨if blocksEqual (R[i]).content ((markdownToBlocks M)[i])
                then .unchanged else .update,
              some (R[i]).id, some ((markdownToBlocks M)[i]), i⟩) ∧
    ((diffPageContent R tCur M tNew).hasChanges = true ↔
      ((∃ d ∈ compareBlocks R (markdownToBlocks M), d.type ≠ DiffType.unchanged) ∨
        tCur ≠ tNew)) := by
  refine ⟨fun h1 h => ?_, fun h h1 => ?_, fun hR hL => ?_, ?_⟩
  · rw [compareBlocks_getElem? _ _ _ (lt_max_iff.mpr (Or.inr h))]
    unfold diffEntryAt
    rw [List.getElem?_eq_none h1, List.getElem?_eq_getElem h]
  · rw [compareBlocks_getElem? _ _ _ (lt_max_iff.mpr (Or.inl h))]
    unfold diffEntryAt
    rw [List.getElem?_eq_none h1, List.getElem?_eq_getElem h]
  · rw [compareBlocks_getElem? _ _ _ (lt_max_iff.mpr (Or.inl hR))]
    unfold diffEntryAt
    rw [List.getElem?_eq_getElem hR, List.getElem?_eq_getElem hL]
    by_cases hbe : blocksEqual (R[i]).content ((markdownToBlocks M)[i]) <;>
      simp [hbe]
  · simp [diffPageContent, List.any_eq_true, bne_iff_ne]

/-- Witness for claim C1 at concrete inputs, one per classification case. -/
theorem claim_C1_witness :
    (compareBlocks [] (markdownToBlocks "y"))[0]? =
      some ⟨.create, none, some (Block.paragraph ["y"]), 0⟩ ∧
    (compareBlocks [⟨"a", Block.paragraph ["p"]⟩] (markdownToBlocks ""))[0]? =
      some ⟨.delete, some "a", none, 0⟩ ∧
    (compareBlocks [⟨"a", Block.paragraph ["p"]⟩] (markdownToBlocks "p"))[0]? =
      some ⟨.unchanged, some "a", some (Block.paragraph ["p"]), 0⟩ := by
  refine ⟨?_, ?_, ?_⟩
  · have h := (claim_C1 [] "y" "t" "t" 0).1 (by decide) (by decide)
    rw [h]; decide
  · have h := (claim_C1 [⟨"a", Block.paragraph ["p"]⟩] "" "t" "t" 0).2.1 (by decide) (by decide)
    rw [h]; decide
  · have h := (claim_C1 [⟨"a", Block.paragraph ["p"]⟩] "p" "t" "t" 0).2.2.1 (by decide) (by decide)
    rw [h]; decide

/- ### Token bucket of NotionRateLimiter (rate-limiter.ts) -/

/-- The two configuration numbers that the token arithmetic uses
(rate-limiter.ts 3-7); JS numbers are modelled as rationals. -/
structure RateLimitConfig where
  requestsPerSecond : ℚ
  burstSize : ℚ
  deriving DecidableEq, Repr

/-- NotionRateLimiter.refillTokens (rate-limiter.ts 109-116) with the elapsed
wall clock time since the last refill passed explicitly: add
`timePassed / 1000 * requestsPerSecond` tokens, capped at the burst size. -/
def refillTokens (cfg : RateLimitConfig) (timePassed tokens : ℚ) : ℚ :=
  min cfg.burstSize (tokens + timePassed / 1000 * cfg.requestsPerSecond)

/-- Events that change the token count: a refill with some elapsed time, or a
dispatch (the decrement at rate-limiter.ts 72). -/
inductive BucketEv where
  | refill (timePassed : ℚ)
  | dispatch
  deriving DecidableEq, Repr

/-- Effect of one event on the token count. -/
def bucketStep (cfg : RateLimitConfig) (tokens : ℚ) : BucketEv → ℚ
  | .refill dt => refillTokens cfg dt tokens
  | .dispatch => tokens - 1

/-- Token count after a sequence of events. -/
def bucketRun (cfg : RateLimitConfig) (tokens : ℚ) : List BucketEv → ℚ
  | [] => tokens
  | e :: evs => bucketRun cfg (bucketStep cfg tokens e) evs

/-- The traces the drain loop can actually produce: elapsed times are
nonnegative (the clock is monotone) and a dispatch happens only when at least
one token is available (the `tokens < 1` wait at rate-limiter.ts 64-69). -/
def ValidTrace (cfg : RateLimitConfig) : ℚ → List BucketEv → Prop
  | _, [] => True
  | t, .refill dt :: evs => 0 ≤ dt ∧ ValidTrace cfg (bucketStep cfg t (.refill dt)) evs
  | t, .dispatch :: evs => 1 ≤ t ∧ ValidTrace cfg (bucketStep cfg t .dispatch) evs

/-- Number of dispatch events in a trace. -/
def countDispatches : List BucketEv → ℕ
  | [] => 0
  | .dispatch :: evs => countDispatches evs + 1
  | .refill _ :: evs => countDispatches evs

/-- Total elapsed refill time of a trace. -/
def totalRefillTime : List BucketEv → ℚ
  | [] => 0
  | .dispatch :: evs => totalRefillTime evs
  | .refill dt :: evs => dt + totalRefillTime evs

theorem validTrace_append {cfg : RateLimitConfig} {t : ℚ} {a b : List BucketEv}
    (h : ValidTrace cfg t (a ++ b)) :
    ValidTrace cfg t a ∧ ValidTrace cfg (bucketRun cfg t a) b := by
  induction a generalizing t with
  | nil => exact ⟨trivial, h⟩
  | cons e evs ih =>
    cases e with
    | refill dt =>
      obtain ⟨h1, h2⟩ := h
      obtain ⟨ha, hb⟩ := ih h2
      exact ⟨⟨h1, ha⟩, hb⟩
    | dispatch =>
      obtain ⟨h1, h2⟩ := h
      obtain ⟨ha, hb⟩ := ih h2
      exact ⟨⟨h1, ha⟩, hb⟩

theorem bucketRun_bounds {cfg : RateLimitConfig} (hr : 0 ≤ cfg.requestsPerSecond)
    (hB : 0 ≤ cfg.burstSize) {t : ℚ} {evs : List BucketEv}
    (ht0 : 0 ≤ t) (ht1 : t ≤ cfg.burstSize) (hv : ValidTrace cfg t evs) :
    0 ≤ bucketRun cfg t evs ∧ bucketRun cfg t evs ≤ cfg.burstSize := by
  induction evs generalizing t with
  | nil => exact ⟨ht0, ht1⟩
  | cons e evs ih =>
    cases e with
    | refill dt =>
      obtain ⟨hdt, hv'⟩ := hv
      refine ih ?_ ?_ hv'
      · have : 0 ≤ dt / 1000 * cfg.requestsPerSecond := by positivity
        simp only [bucketStep, refillTokens]
        exact le_min hB (by linarith)
      · exact min_le_left _ _
    | dispatch =>
      obtain ⟨hdt, hv'⟩ := hv
      refine ih (by simp only [bucketStep]; linarith) (by simp only [bucketStep]; linarith) hv'

theorem bucketRun_upper {cfg : RateLimitConfig} {t : ℚ} (evs : List BucketEv) :
    bucketRun cfg t evs ≤
      t - countDispatches evs + totalRefillTime evs / 1000 * cfg.requestsPerSecond := by
  induction evs generalizing t with
  | nil => simp [bucketRun, countDispatches, totalRefillTime]
  | cons e evs ih =>
    cases e with
    | refill dt =>
      refine le_trans (ih) ?_
      simp only [bucketStep, refillTokens, countDispatches, totalRefillTime]
      have : min cfg.burstSize (t + dt / 1000 * cfg.requestsPerSecond) ≤
          t + dt / 1000 * cfg.requestsPerSecond := min_le_right _ _
      have hd : (dt + totalRefillTime evs) / 1000 * cfg.requestsPerSecond =
          dt / 1000 * cfg.requestsPerSecond +
            totalRefillTime evs / 1000 * cfg.requestsPerSecond := by ring
      rw [hd]
      linarith
    | dispatch =>
      refine le_trans (ih) ?_
      simp only [bucketStep, countDispatches, totalRefillTime]
      push_cast
      linarith

/-- Claim C3: starting at the burst ceiling B, the token count stays within
[0, B] along every execution, a dispatch consumes one token and happens only
with at least one token available (the validity condition of the traces), and
any (B+1)th dispatch is preceded by at least one refill interval
(1000 / requestsPerSecond milliseconds) of elapsed time. -/
theorem claim_C3 (B : ℕ) (cfg : RateLimitConfig) (hB : cfg.burstSize = (B : ℚ))
    (hr : 0 < cfg.requestsPerSecond) (evs : List BucketEv)
    (hv : ValidTrace cfg (B : ℚ) evs) :
    (0 ≤ bucketRun cfg (B : ℚ) evs ∧ bucketRun cfg (B : ℚ) evs ≤ (B : ℚ)) ∧
    (∀ pre post, evs = pre ++ BucketEv.dispatch :: post → countDispatches pre = B →
      1000 / cfg.requestsPerSecond ≤ totalRefillTime pre) := by
  constructor
  · have := @bucketRun_bounds cfg (le_of_lt hr) (by rw [hB]; positivity)
      ((B : ℚ)) evs (by positivity) (le_of_eq hB.symm) hv
    rwa [hB] at this
  · intro pre post hsplit hcount
    subst hsplit
    obtain ⟨hpre, hrest⟩ := validTrace_append hv
    obtain ⟨h1, -⟩ := hrest
    have hup := @bucketRun_upper cfg ((B : ℚ)) pre
    rw [hcount] at hup
    have h2 : 1 ≤ totalRefillTime pre / 1000 * cfg.requestsPerSecond := by linarith
    rw [div_le_iff₀ hr]
    have h3 : totalRefillTime pre / 1000 * cfg.requestsPerSecond * 1000 =
        totalRefillTime pre * cfg.requestsPerSecond := by ring
    nlinarith

/-- Witness for claim C3: burst ceiling 1, two dispatches separated by a
500 ms refill at 2 requests per second. -/
theorem claim_C3_witness :
    (0 ≤ bucketRun ⟨2, 1⟩ ((1 : ℕ) : ℚ) [.dispatch, .refill 500, .dispatch] ∧
      bucketRun ⟨2, 1⟩ ((1 : ℕ) : ℚ) [.dispatch, .refill 500, .dispatch] ≤ ((1 : ℕ) : ℚ)) ∧
    1000 / (2 : ℚ) ≤ totalRefillTime [BucketEv.dispatch, .refill 500] := by
  have h := claim_C3 1 ⟨2, 1⟩ (by norm_num) (by norm_num)
    [.dispatch, .refill 500, .dispatch]
    (by norm_num [ValidTrace, bucketStep, refillTokens])
  exact ⟨h.1, h.2 [.dispatch, .refill 500] [] rfl (by norm_num [countDispatches])⟩

/- ### Scheduler queue of NotionRateLimiter (rate-limiter.ts 35-107) -/

/-- A queued request (rate-limiter.ts 9-15); the promise callbacks are
replaced by `rid`, the submission index identifying the operation. -/
structure QueuedRequest where
  rid : ℕ
  priority : ℤ
  retryCount : ℕ
  deriving DecidableEq, Repr

/-- Insert into a list sorted by descending priority, after every entry of
greater or equal priority. -/
def insertDesc (r : QueuedRequest) : List QueuedRequest → List QueuedRequest
  | [] => [r]
  | x :: xs => if r.priority ≤ x.priority then x :: insertDesc r xs else r :: x :: xs

/-- Stable sort by descending priority: the model of
`queue.sort((a, b) => b.priority - a.priority)` (rate-limiter.ts 46);
Array.prototype.sort is stable, and a stable descending sort is extensionally
the insertion sort that places each element after its equals. -/
def sortDesc (l : List QueuedRequest) : List QueuedRequest :=
  l.foldl (fun acc x => insertDesc x acc) []

/-- Scheduler events: a submission with a priority, or one iteration of the
drain loop dispatching the front entry with the given outcome (`throttled`
true models a 429 failure, false models success or a non retriable error;
both remove the entry, the former may requeue it). -/
inductive SchedEv where
  | submit (priority : ℤ)
  | dispatch (throttled : Bool)
  deriving DecidableEq, Repr

/-- Queue state plus the next submission index. -/
structure SchedState where
  queue : List QueuedRequest
  nextId : ℕ
  deriving DecidableEq, Repr

def schedInit : SchedState := ⟨[], 0⟩

/-- One scheduler event: `execute` pushes and sorts (rate-limiter.ts 37-48);
the drain loop shifts the front entry, and on a throttled failure with
retryCount + 1 < 6 unshifts a copy with decremented priority and incremented
retry count (rate-limiter.ts 71-96).  The dispatched entry, if any, is
returned alongside the new state. -/
def schedStep (st : SchedState) : SchedEv → SchedState × Option QueuedRequest
  | .submit p =>
    ({ queue := sortDesc (st.queue ++ [⟨st.nextId, p, 0⟩]), nextId := st.nextId + 1 }, none)
  | .dispatch throttled =>
    match st.queue with
    | [] => (st, none)
    | r :: rest =>
      if throttled && decide (r.retryCount + 1 < 6) then
        ({ st with queue := ⟨r.rid, r.priority - 1, r.retryCount + 1⟩ :: rest }, some r)
      else
        ({ st with queue := rest }, some r)

/-- State after a sequence of scheduler events. -/
def schedExec (st : SchedState) : List SchedEv → SchedState
  | [] => st
  | e :: evs => schedExec (schedStep st e).1 evs

/-- Dispatched entries, in dispatch order, over a sequence of events. -/
def schedDispatches (st : SchedState) : List SchedEv → List QueuedRequest
  | [] => []
  | e :: evs => ((schedStep st e).2).toList ++ schedDispatches (schedStep st e).1 evs

/-- Strict lexicographic order of the queue: higher priority first, equal
priorities ordered by submission index. -/
def lexBefore (a b : QueuedRequest) : Prop :=
  b.priority < a.priority ∨ (a.priority = b.priority ∧ a.rid < b.rid)

/-- Invariant: the queue is lexicographically sorted and every queued id is
below the next submission index. -/
def SchedInv (st : SchedState) : Prop :=
  st.queue.Pairwise lexBefore ∧ ∀ r ∈ st.queue, r.rid < st.nextId

theorem mem_insertDesc {r x : QueuedRequest} {l : List QueuedRequest} :
    x ∈ insertDesc r l ↔ x = r ∨ x ∈ l := by
  induction l with
  | nil => simp [insertDesc]
  | cons a t ih =>
    by_cases h : r.priority ≤ a.priority
    · simp [insertDesc, h, ih]
      tauto
    · simp [insertDesc, h]

theorem insertDesc_pairwise {r : QueuedRequest} {l : List QueuedRequest}
    (hl : l.Pairwise lexBefore) (hid : ∀ x ∈ l, x.rid < r.rid) :
    (insertDesc r l).Pairwise lexBefore := by
  induction l with
  | nil => simp [insertDesc]
  | cons a t ih =>
    rw [List.pairwise_cons] at hl
    by_cases h : r.priority ≤ a.priority
    · rw [insertDesc, if_pos h, List.pairwise_cons]
      refine ⟨fun x hx => ?_, ih hl.2 fun x hx => hid x (by simp [hx])⟩
      rcases mem_insertDesc.mp hx with rfl | hx
      · rcases lt_or_eq_of_le h with h' | h'
        · exact Or.inl h'
        · exact Or.inr ⟨h'.symm, hid a (by simp)⟩
      · exact hl.1 x hx
    · rw [insertDesc, if_neg h, List.pairwise_cons]
      push_neg at h
      refine ⟨fun x hx => ?_, List.pairwise_cons.mpr hl⟩
      rcases List.mem_cons.mp hx with rfl | hx
      · exact Or.inl h
      · rcases hl.1 x hx with h' | h'
        · exact Or.inl (lt_trans h' h)
        · exact Or.inl (h'.1 ▸ h)

theorem insertDesc_of_le {r : QueuedRequest} {l : List QueuedRequest}
    (h : ∀ x ∈ l, r.priority ≤ x.priority) : insertDesc r l = l ++ [r] := by
  induction l with
  | nil => rfl
  | cons a t ih =>
    rw [insertDesc, if_pos (h a (by simp)), ih fun x hx => h x (by simp [hx])]
    rfl

theorem sortDesc_of_sorted {l : List QueuedRequest}
    (h : l.Pairwise fun a b => b.priority ≤ a.priority) : sortDesc l = l := by
  suffices hgen : ∀ t acc : List QueuedRequest,
      List.Pairwise (fun a b : QueuedRequest => b.priority ≤ a.priority) (acc ++ t) →
      t.foldl (fun acc x => insertDesc x acc) acc = acc ++ t by
    simpa [sortDesc] using hgen l [] (by simpa using h)
  intro t
  induction t with
  | nil =>
    intro acc _
    simp
  | cons x t ih =>
    intro acc hacc
    have hx : ∀ a ∈ acc, x.priority ≤ a.priority := by
      intro a ha
      exact (List.pairwise_append.mp hacc).2.2 a ha x (by simp)
    rw [List.foldl_cons, insertDesc_of_le hx, ih (acc ++ [x]) (by simpa using hacc)]
    simp

theorem sortDesc_append_single (l : List QueuedRequest) (r : QueuedRequest) :
    sortDesc (l ++ [r]) = insertDesc r (sortDesc l) := by
  simp [sortDesc, List.foldl_append]

theorem schedInv_step {st : SchedState} {e : SchedEv} (he : e ≠ .dispatch true)
    (h : SchedInv st) : SchedInv (schedStep st e).1 := by
  obtain ⟨hp, hid⟩ := h
  have hple : List.Pairwise (fun a b : QueuedRequest => b.priority ≤ a.priority) st.queue :=
    hp.imp fun hab => by
      rcases hab with h' | h'
      · exact le_of_lt h'
      · exact le_of_eq h'.1.symm
  cases e with
  | submit p =>
    constructor
    · simp only [schedStep, sortDesc_append_single, sortDesc_of_sorted hple]
      exact insertDesc_pairwise hp fun x hx => hid x hx
    · intro r hr
      simp only [schedStep, sortDesc_append_single, sortDesc_of_sorted hple] at hr ⊢
      rcases mem_insertDesc.mp hr with rfl | hr
      · exact Nat.lt_succ_self _
      · exact Nat.lt_succ_of_lt (hid r hr)
  | dispatch b =>
    have hb : b = false := by
      cases b with
      | false => rfl
      | true => exact absurd rfl he
    subst hb
    cases hq : st.queue with
    | nil =>
      constructor
      · simp only [schedStep, hq]
        exact hq ▸ hp
      · intro x hx
        simp only [schedStep, hq] at hx ⊢
        exact hid x (hq ▸ hx)
    | cons r rest =>
      rw [hq, List.pairwise_cons] at hp
      constructor
      · simp only [schedStep, hq, Bool.false_and]
        simpa using hp.2
      · intro x hx
        simp only [schedStep, hq, Bool.false_and] at hx ⊢
        simp only [Bool.false_eq_true, if_false] at hx
        exact hid x (by rw [hq]; exact List.mem_cons_of_mem _ hx)

theorem schedInv_exec {evs : List SchedEv} (hnt : SchedEv.dispatch true ∉ evs)
    {st : SchedState} (h : SchedInv st) : SchedInv (schedExec st evs) := by
  induction evs generalizing st with
  | nil => exact h
  | cons e evs ih =>
    exact ih (fun hmem => hnt (by simp [hmem]))
      (schedInv_step (fun he => hnt (by simp [he])) h)

/-- Claim C2 (amended): as long as the drain loop never requeues a throttled
entry, every dispatch pops an entry whose priority dominates the remaining
queue and which, among queued entries of equal priority, was submitted first;
and submitting priorities [1, 5, 3] dispatches priorities [5, 3, 1].  The
amendment restricts the first part to throttle free executions: a throttled
failure requeues the entry at the front of the queue with decremented
priority, which can put it ahead of a strictly higher priority entry. -/
theorem claim_C2 (evs : List SchedEv) (hnt : SchedEv.dispatch true ∉ evs) :
    (∀ pre b post, evs = pre ++ SchedEv.dispatch b :: post →
      ∀ r rest, (schedExec schedInit pre).queue = r :: rest →
        ∀ q ∈ rest, q.priority ≤ r.priority ∧ (q.priority = r.priority → r.rid < q.rid)) ∧
    (schedDispatches schedInit [.submit 1, .submit 5, .submit 3,
        .dispatch false, .dispatch false, .dispatch false]).map QueuedRequest.priority =
      [5, 3, 1] := by
  constructor
  · intro pre b post hsplit r rest hq q hmem
    have hpre : SchedEv.dispatch true ∉ pre := fun hm => hnt (hsplit ▸ by simp [hm])
    have hinv := @schedInv_exec pre hpre schedInit
      ⟨by simp [schedInit], by simp [schedInit]⟩
    obtain ⟨hpair, -⟩ := hinv
    rw [hq, List.pairwise_cons] at hpair
    rcases hpair.1 q hmem with h' | h'
    · exact ⟨le_of_lt h', fun heq => absurd heq (ne_of_lt h')⟩
    · exact ⟨le_of_eq h'.1.symm, fun _ => h'.2⟩
  · decide

/-- Witness for claim C2: in the [1, 5, 3] run, the first dispatch pops the
priority 5 entry while priorities 3 and 1 wait. -/
theorem claim_C2_witness :
    ((⟨2, 3, 0⟩ : QueuedRequest).priority ≤ (⟨1, 5, 0⟩ : QueuedRequest).priority ∧
      ((⟨2, 3, 0⟩ : QueuedRequest).priority = (⟨1, 5, 0⟩ : QueuedRequest).priority →
        (⟨1, 5, 0⟩ : QueuedRequest).rid < (⟨2, 3, 0⟩ : QueuedRequest).rid)) ∧
    (schedDispatches schedInit [.submit 1, .submit 5, .submit 3,
        .dispatch false, .dispatch false, .dispatch false]).map QueuedRequest.priority =
      [5, 3, 1] := by
  have h := claim_C2 [.submit 1, .submit 5, .submit 3,
    .dispatch false, .dispatch false, .dispatch false] (by decide)
  refine ⟨?_, h.2⟩
  exact h.1 [.submit 1, .submit 5, .submit 3] false
    [.dispatch false, .dispatch false] rfl ⟨1, 5, 0⟩ [⟨2, 3, 0⟩, ⟨0, 1, 0⟩]
    (by decide) ⟨2, 3, 0⟩ (by decide)

/-- Counterexample for claim C2 as stated: with throttled requeues included,
after submissions with priorities 5 and 4 and two throttled dispatches of the
first entry, the queue holds the requeued entry at priority 3 in front of the
waiting priority 4 entry, and the next dispatch pops the priority 3 entry. -/
theorem claim_C2_counterexample :
    (schedExec schedInit [.submit 5, .submit 4, .dispatch true, .dispatch true]).queue =
      [⟨0, 3, 2⟩, ⟨1, 4, 0⟩] ∧
    (schedStep (schedExec schedInit
        [.submit 5, .submit 4, .dispatch true, .dispatch true]) (.dispatch false)).2 =
      some ⟨0, 3, 2⟩ ∧
    ((⟨0, 3, 2⟩ : QueuedRequest).priority < (⟨1, 4, 0⟩ : QueuedRequest).priority) := by
  refine ⟨by decide, by decide, by decide⟩

/- ### Applying a diff (OptimizedSyncManager.applyBlockChanges, notion.ts 231-271) -/

/-- The remote mutations that applying a diff issues through the rate
limiter. -/
inductive NotionCall where
  | deleteBlock (blockId : String)
  | appendChildren (children : List (Option Block))
  deriving DecidableEq, Repr

/-- Insert into a list sorted by ascending position, after every entry of
smaller or equal position. -/
def insertAsc (d : BlockDiff) : List BlockDiff → List BlockDiff
  | [] => [d]
  | x :: xs => if x.position ≤ d.position then x :: insertAsc d xs else d :: x :: xs

/-- Stable ascending sort by position: the model of
`.sort((a, b) => a.position - b.position)` (notion.ts 256);
Array.prototype.sort is stable. -/
def sortByPosition (l : List BlockDiff) : List BlockDiff :=
  l.foldl (fun acc x => insertAsc x acc) []

/-- Fuel driven slicing; the fuel only makes the recursion structural and is
instantiated with the list length, which the slicing never exhausts. -/
def chunksOfFuel {α : Type} (n : ℕ) : ℕ → List α → List (List α)
  | _, [] => []
  | 0, l => [l]
  | fuel + 1, a :: l => (a :: l.take (n - 1)) :: chunksOfFuel n fuel (l.drop (n - 1))

/-- Slices of at most `n` elements, the model of the
`for (i = 0; i < length; i += batchSize) slice(i, i + batchSize)` loops. -/
def chunksOf {α : Type} (n : ℕ) (l : List α) : List (List α) :=
  chunksOfFuel n l.length l

/-- OptimizedSyncManager.applyBlockChanges (notion.ts 231-271): delete the
delete entries first, then the blocks of the update entries, then append the
contents of updates and creations sorted ascending by position, sliced into
batches of 10, one remote call per batch.  `if (diff.blockId)` skips entries
whose id is absent or the empty string (a falsy value in the source). -/
def applyBlockChanges (diffs : List BlockDiff) : List NotionCall :=
  let deletions := diffs.filter fun d => d.type == DiffType.delete
  let updates := diffs.filter fun d => d.type == DiffType.update
  let creations := diffs.filter fun d => d.type == DiffType.create
  let blocksToCreate := (sortByPosition (updates ++ creations)).map fun d => d.content
  (deletions.filterMap fun d =>
    match d.blockId with
    | some b => if b = "" then none else some (NotionCall.deleteBlock b)
    | none => none) ++
  (updates.filterMap fun d =>
    match d.blockId with
    | some b => if b = "" then none else some (NotionCall.deleteBlock b)
    | none => none) ++
  (chunksOf 10 blocksToCreate).map NotionCall.appendChildren

/-- Delete calls issued for a list of diff entries, skipping falsy ids. -/
def deleteCalls (l : List BlockDiff) : List NotionCall :=
  l.filterMap fun d =>
    match d.blockId with
    | some b => if b = "" then none else some (NotionCall.deleteBlock b)
    | none => none

/-- The update and create entries, sorted ascending by position. -/
def updateAndCreateSorted (diffs : List BlockDiff) : List BlockDiff :=
  sortByPosition ((diffs.filter fun d => d.type == DiffType.update) ++
    (diffs.filter fun d => d.type == DiffType.create))

/-- The batches handed to the append calls. -/
def appendBatches (diffs : List BlockDiff) : List (List (Option Block)) :=
  chunksOf 10 ((updateAndCreateSorted diffs).map fun d => d.content)

theorem chunksOfFuel_congr {α : Type} (n : ℕ) :
    ∀ fuel₁ fuel₂ (l : List α), l.length ≤ fuel₁ → l.length ≤ fuel₂ →
      chunksOfFuel n fuel₁ l = chunksOfFuel n fuel₂ l := by
  intro fuel₁
  induction fuel₁ with
  | zero =>
    intro fuel₂ l hl _
    rw [List.length_eq_zero.mp (Nat.le_zero.mp hl)]
    cases fuel₂ <;> rfl
  | succ fuel ih =>
    intro fuel₂ l hl hl₂
    cases l with
    | nil => cases fuel₂ <;> rfl
    | cons a t =>
      simp only [List.length_cons] at hl hl₂
      cases fuel₂ with
      | zero => omega
      | succ fuel₂ =>
        rw [chunksOfFuel, chunksOfFuel,
          ih fuel₂ (t.drop (n - 1)) (by simp; omega) (by simp; omega)]

theorem chunksOf_cons {α : Type} (n : ℕ) (a : α) (l : List α) :
    chunksOf n (a :: l) = (a :: l.take (n - 1)) :: chunksOf n (l.drop (n - 1)) := by
  rw [chunksOf, List.length_cons, chunksOfFuel, chunksOf,
    chunksOfFuel_congr n l.length (l.drop (n - 1)).length (l.drop (n - 1))
      (by simp) (le_refl _)]

theorem chunksOf_join {α : Type} (n : ℕ) (l : List α) : (chunksOf n l).flatten = l := by
  generalize hk : l.length = k
  induction k using Nat.strong_induction_on generalizing l with
  | _ k ih =>
    cases l with
    | nil => rfl
    | cons a t =>
      subst hk
      rw [chunksOf_cons, List.flatten_cons,
        ih (t.drop (n - 1)).length (by simp; omega) _ rfl]
      simp [List.take_append_drop]

theorem chunksOf_size {α : Type} (n : ℕ) (hn : 1 ≤ n) (l : List α) :
    ∀ ch ∈ chunksOf n l, ch ≠ [] ∧ ch.length ≤ n := by
  generalize hk : l.length = k
  induction k using Nat.strong_induction_on generalizing l with
  | _ k ih =>
    cases l with
    | nil =>
      intro ch hch
      simp [chunksOf, chunksOfFuel] at hch
    | cons a t =>
      subst hk
      intro ch hch
      rw [chunksOf_cons] at hch
      rcases List.mem_cons.mp hch with rfl | hch
      · refine ⟨by simp, ?_⟩
        simp only [List.length_cons, List.length_take]
        omega
      · exact ih (t.drop (n - 1)).length (by simp; omega) _ rfl ch hch

theorem chunksOf_full {α : Type} (n : ℕ) (hn : 1 ≤ n) (l : List α) :
    ∀ i, i + 1 < (chunksOf n l).length → ∀ ch, (chunksOf n l)[i]? = some ch →
      ch.length = n := by
  generalize hk : l.length = k
  induction k using Nat.strong_induction_on generalizing l with
  | _ k ih =>
    cases l with
    | nil =>
      intro i hi ch hch
      simp [chunksOf, chunksOfFuel] at hch
    | cons a t =>
      subst hk
      intro i hi ch hch
      rw [chunksOf_cons] at hi hch
      cases i with
      | zero =>
        simp only [List.length_cons] at hi
        have hrest : chunksOf n (t.drop (n - 1)) ≠ [] := by
          intro hnil
          rw [hnil] at hi
          simp at hi
        have hdrop : t.drop (n - 1) ≠ [] := by
          intro hnil
          rw [hnil] at hrest
          exact hrest rfl
        have hlen : n - 1 < t.length := by
          by_contra hle
          exact hdrop (List.drop_eq_nil_of_le (by omega))
        simp only [List.getElem?_cons_zero, Option.some.injEq] at hch
        subst hch
        simp only [List.length_cons, List.length_take]
        omega
      | succ i =>
        simp only [List.getElem?_cons_succ] at hch
        simp only [List.length_cons, Nat.add_lt_add_iff_right] at hi
        exact ih (t.drop (n - 1)).length (by simp; omega) _ rfl i hi ch hch

theorem insertAsc_perm (d : BlockDiff) (l : List BlockDiff) :
    List.Perm (insertAsc d l) (d :: l) := by
  induction l with
  | nil => rfl
  | cons x xs ih =>
    rw [insertAsc]
    by_cases h : x.position ≤ d.position
    · rw [if_pos h]
      exact (ih.cons x).trans (List.Perm.swap d x xs)
    · rw [if_neg h]

theorem mem_insertAsc {d x : BlockDiff} {l : List BlockDiff} :
    x ∈ insertAsc d l ↔ x = d ∨ x ∈ l := by
  constructor
  · intro h
    have := (insertAsc_perm d l).mem_iff.mp h
    simpa using this
  · intro h
    refine (insertAsc_perm d l).mem_iff.mpr ?_
    simpa using h

theorem insertAsc_pairwise {d : BlockDiff} {l : List BlockDiff}
    (hl : l.Pairwise fun a b => a.position ≤ b.position) :
    (insertAsc d l).Pairwise fun a b => a.position ≤ b.position := by
  induction l with
  | nil => simp [insertAsc]
  | cons x xs ih =>
    rw [List.pairwise_cons] at hl
    rw [insertAsc]
    by_cases h : x.position ≤ d.position
    · rw [if_pos h, List.pairwise_cons]
      refine ⟨fun y hy => ?_, ih hl.2⟩
      rcases mem_insertAsc.mp hy with rfl | hy
      · exact h
      · exact hl.1 y hy
    · rw [if_neg h, List.pairwise_cons]
      push_neg at h
      refine ⟨fun y hy => ?_, List.pairwise_cons.mpr hl⟩
      rcases List.mem_cons.mp hy with rfl | hy
      · exact le_of_lt h
      · exact le_trans (le_of_lt h) (hl.1 y hy)

theorem sortByPosition_perm (l : List BlockDiff) : List.Perm (sortByPosition l) l := by
  suffices hgen : ∀ t acc : List BlockDiff,
      List.Perm (t.foldl (fun acc x => insertAsc x acc) acc) (acc ++ t) by
    simpa [sortByPosition] using hgen l []
  intro t
  induction t with
  | nil =>
    intro acc
    simp
  | cons x t ih =>
    intro acc
    rw [List.foldl_cons]
    refine (ih (insertAsc x acc)).trans ?_
    refine (List.Perm.append_right t (insertAsc_perm x acc)).trans ?_
    exact List.perm_middle.symm

theorem sortByPosition_pairwise (l : List BlockDiff) :
    (sortByPosition l).Pairwise fun a b => a.position ≤ b.position := by
  suffices hgen : ∀ t acc : List BlockDiff,
      (acc.Pairwise fun a b => a.position ≤ b.position) →
      (t.foldl (fun acc x => insertAsc x acc) acc).Pairwise
        fun a b => a.position ≤ b.position by
    exact hgen l [] (by simp)
  intro t
  induction t with
  | nil =>
    intro acc hacc
    exact hacc
  | cons x t ih =>
    intro acc hacc
    rw [List.foldl_cons]
    exact ih (insertAsc x acc) (insertAsc_pairwise hacc)

/-- Claim C6 (amended): applying a diff issues the delete calls of the delete
entries first, then the delete calls of the update entries, then the append
calls; the appended batches concatenate, in order, to the contents of the
update and create entries sorted ascending by position (a stable permutation
of those entries); every batch is nonempty with at most 10 blocks, and every
batch except the last carries exactly 10.  The amendment replaces the claimed
"exactly 10 blocks per remote append call" by "at most 10, exactly 10 for
every call but the last": a final remainder batch is smaller. -/
theorem claim_C6 (diffs : List BlockDiff) :
    applyBlockChanges diffs =
      deleteCalls (diffs.filter fun d => d.type == DiffType.delete) ++
        deleteCalls (diffs.filter fun d => d.type == DiffType.update) ++
        (appendBatches diffs).map NotionCall.appendChildren ∧
    (appendBatches diffs).flatten = (updateAndCreateSorted diffs).map (fun d => d.content) ∧
    ((updateAndCreateSorted diffs).Pairwise fun a b => a.position ≤ b.position) ∧
    List.Perm (updateAndCreateSorted diffs)
      ((diffs.filter fun d => d.type == DiffType.update) ++
        (diffs.filter fun d => d.type == DiffType.create)) ∧
    (∀ ch ∈ appendBatches diffs, ch ≠ [] ∧ ch.length ≤ 10) ∧
    (∀ i, i + 1 < (appendBatches diffs).length →
      ∀ ch, (appendBatches diffs)[i]? = some ch → ch.length = 10) := by
  refine ⟨rfl, chunksOf_join 10 _, sortByPosition_pairwise _, sortByPosition_perm _,
    chunksOf_size 10 (by norm_num) _, chunksOf_full 10 (by norm_num) _⟩

/-- Witness for claim C6 at a concrete diff list with one delete, one update
and one create entry. -/
theorem claim_C6_witness :
    ([some (Block.paragraph ["b"]), some (Block.paragraph ["c"])] : List (Option Block)) ≠ [] ∧
    ([some (Block.paragraph ["b"]), some (Block.paragraph ["c"])] : List (Option Block)).length
      ≤ 10 := by
  have h := claim_C6 [⟨.delete, some "d", none, 0⟩,
    ⟨.update, some "u", some (.paragraph ["b"]), 1⟩,
    ⟨.create, none, some (.paragraph ["c"]), 2⟩]
  exact h.2.2.2.2.1 [some (Block.paragraph ["b"]), some (Block.paragraph ["c"])] (by decide)

/-- Counterexample for claim C6 as stated: with 11 create entries, the batch
loop issues an append call carrying a single block, not exactly 10. -/
theorem claim_C6_counterexample :
    NotionCall.appendChildren [some Block.divider] ∈
      applyBlockChanges ((List.range 11).map fun i =>
        (⟨DiffType.create, none, some Block.divider, i⟩ : BlockDiff)) ∧
    ([some Block.divider] : List (Option Block)).length ≠ 10 := by decide

/- ### Retry wrapper (utils.ts withRetry, lines 16-48) -/

/-- JS Math.round: half integers round up. -/
def jsRound (q : ℚ) : ℤ := ⌊q + 1 / 2⌋

/-- An error as the retry wrapper inspects it: `error.status` and
`error.response.status`, each possibly absent. -/
structure RetryError where
  status : Option ℕ
  responseStatus : Option ℕ
  deriving DecidableEq, Repr

/-- The default retryOn of utils.ts 21-24: take `error.status` falling back to
`error.response.status`, and classify as retriable on 429 or on a 5xx. -/
def defaultRetryOn (e : RetryError) : Bool :=
  match e.status.orElse (fun _ => e.responseStatus) with
  | some s => s == 429 || (decide (500 ≤ s) && decide (s < 600))
  | none => false

/-- RetryOptions of utils.ts 5-10. -/
structure RetryOptions where
  retries : ℕ
  baseDelayMs : ℚ
  maxDelayMs : ℚ
  retryOn : RetryError → Bool

/-- The defaults of utils.ts 17-25. -/
def defaultRetryOptions : RetryOptions := ⟨6, 1000, 15000, defaultRetryOn⟩

/-- The delay computed at utils.ts 37-43 for a failed attempt:
`min(maxDelayMs, round(baseDelayMs * 2^(attempt-1) * jitter))`, raised to a
floor of 5000 when `error.status === 429`. -/
def retryDelay (baseDelayMs maxDelayMs jitter : ℚ) (attempt : ℕ)
    (isRateLimited : Bool) : ℚ :=
  let d := min maxDelayMs ((jsRound (baseDelayMs * 2 ^ (attempt - 1) * jitter) : ℚ))
  if isRateLimited then max d 5000 else d

/-- The retry loop of utils.ts 29-47.  `fn k` is the outcome of the
(k+1)-th invocation of the operation, `jitter a` the sampled jitter of
attempt `a` (the source draws `Math.random() * 0.25 + 0.75`, a value in
[0.75, 1)).  `rem` counts the attempts left before `attempt > retries`; the
run returns the final outcome and the list of sleep durations. -/
def withRetryGo {α : Type} (fn : ℕ → Except RetryError α) (opts : RetryOptions)
    (jitter : ℕ → ℚ) : ℕ → ℕ → Except RetryError α × List ℚ
  | i, rem =>
    match fn i with
    | .ok a => (.ok a, [])
    | .error e =>
      match rem with
      | 0 => (.error e, [])
      | rem' + 1 =>
        if opts.retryOn e then
          let p := withRetryGo fn opts jitter (i + 1) rem'
          (p.1, retryDelay opts.baseDelayMs opts.maxDelayMs (jitter (i + 1)) (i + 1)
            (e.status == some 429) :: p.2)
        else (.error e, [])

/-- withRetry (utils.ts 16): run the loop from attempt 0 with the configured
retry budget. -/
def withRetry {α : Type} (fn : ℕ → Except RetryError α) (opts : RetryOptions)
    (jitter : ℕ → ℚ) : Except RetryError α × List ℚ :=
  withRetryGo fn opts jitter 0 opts.retries

theorem withRetryGo_spec {α : Type} (fn : ℕ → Except RetryError α) (opts : RetryOptions)
    (jitter : ℕ → ℚ) : ∀ rem i,
    (withRetryGo fn opts jitter i rem).2.length ≤ rem ∧
    (withRetryGo fn opts jitter i rem).1 =
      fn (i + (withRetryGo fn opts jitter i rem).2.length) ∧
    (∀ e, (withRetryGo fn opts jitter i rem).1 = .error e →
      opts.retryOn e = false ∨ (withRetryGo fn opts jitter i rem).2.length = rem) ∧
    (∀ k, k < (withRetryGo fn opts jitter i rem).2.length →
      ∃ e, fn (i + k) = .error e ∧ opts.retryOn e = true ∧
        (withRetryGo fn opts jitter i rem).2[k]? =
          some (retryDelay opts.baseDelayMs opts.maxDelayMs (jitter (i + k + 1)) (i + k + 1)
            (e.status == some 429))) := by
  intro rem
  induction rem with
  | zero =>
    intro i
    cases hf : fn i with
    | ok a =>
      simp [withRetryGo, hf]
    | error e =>
      simp [withRetryGo, hf]
  | succ rem' ih =>
    intro i
    cases hf : fn i with
    | ok a =>
      simp [withRetryGo, hf]
    | error e =>
      by_cases hr : opts.retryOn e = true
      · obtain ⟨ih1, ih2, ih3, ih4⟩ := ih (i + 1)
        have hgo : withRetryGo fn opts jitter i (rem' + 1) =
            ((withRetryGo fn opts jitter (i + 1) rem').1,
              retryDelay opts.baseDelayMs opts.maxDelayMs (jitter (i + 1)) (i + 1)
                (e.status == some 429) :: (withRetryGo fn opts jitter (i + 1) rem').2) := by
          rw [withRetryGo, hf]
          simp [hr]
        rw [hgo]
        refine ⟨by simpa using Nat.add_le_add_right ih1 1, ?_, ?_, ?_⟩
        · simp only [List.length_cons]
          rw [ih2]
          exact congrArg fn (by omega)
        · intro e' he'
          rcases ih3 e' he' with h' | h'
          · exact Or.inl h'
          · exact Or.inr (by simp [h'])
        · intro k hk
          cases k with
          | zero =>
            exact ⟨e, by simpa using hf, hr, by simp⟩
          | succ k =>
            simp only [List.length_cons, Nat.add_lt_add_iff_right] at hk
            obtain ⟨e', h1, h2, h3⟩ := ih4 k hk
            refine ⟨e', ?_, h2, ?_⟩
            · rw [← h1]
              exact congrArg fn (by omega)
            · simp only [List.getElem?_cons_succ]
              rw [h3]
              have : i + 1 + k + 1 = i + (k + 1) + 1 := by omega
              rw [this]
      · have hgo : withRetryGo fn opts jitter i (rem' + 1) = (.error e, []) := by
          rw [withRetryGo, hf]
          simp [hr]
        rw [hgo]
        simp only [List.length_cons, List.length_nil, Nat.zero_le, Nat.add_zero, true_and]
        refine ⟨by simpa using hf.symm, ?_, by simp⟩
        intro e' he'
        cases he'
        exact Or.inl (by simpa using hr)

/-- Claim C7: the retry wrapper returns the outcome of the call after its
sleeps; it rethrows exactly when the last error is classified non retriable
or the attempt count has exceeded the retry ceiling; every sleep belongs to a
retriable failed attempt and equals
`min(maxDelay, round(baseDelay * 2^(attempt-1) * jitter))` raised to a floor
of 5000 when the error status is 429; and the defaults are 6 retries, base
1000 ms, cap 15000 ms, with the default classifier accepting exactly 429 and
the 5xx statuses.  The jitter samples are an arbitrary oracle, covering in
particular the range [0.75, 1) that `Math.random() * 0.25 + 0.75` produces. -/
theorem claim_C7 {α : Type} (fn : ℕ → Except RetryError α) (opts : RetryOptions)
    (jitter : ℕ → ℚ) :
    (withRetry fn opts jitter).2.length ≤ opts.retries ∧
    (withRetry fn opts jitter).1 = fn ((withRetry fn opts jitter).2.length) ∧
    (∀ e, (withRetry fn opts jitter).1 = .error e →
      opts.retryOn e = false ∨ (withRetry fn opts jitter).2.length = opts.retries) ∧
    (∀ k, k < (withRetry fn opts jitter).2.length →
      ∃ e, fn k = .error e ∧ opts.retryOn e = true ∧
        (withRetry fn opts jitter).2[k]? =
          some (if e.status == some 429 then
              max (min opts.maxDelayMs
                ((jsRound (opts.baseDelayMs * 2 ^ (k + 1 - 1) * jitter (k + 1)) : ℚ))) 5000
            else min opts.maxDelayMs
              ((jsRound (opts.baseDelayMs * 2 ^ (k + 1 - 1) * jitter (k + 1)) : ℚ)))) ∧
    (defaultRetryOptions.retries = 6 ∧ defaultRetryOptions.baseDelayMs = 1000 ∧
      defaultRetryOptions.maxDelayMs = 15000) ∧
    (∀ e s, e.status = some s ∨ (e.status = none ∧ e.responseStatus = some s) →
      (defaultRetryOn e = true ↔ (s = 429 ∨ (500 ≤ s ∧ s < 600)))) := by
  obtain ⟨h1, h2, h3, h4⟩ := withRetryGo_spec fn opts jitter opts.retries 0
  refine ⟨h1, by simpa using h2, h3, ?_, ⟨rfl, rfl, rfl⟩, ?_⟩
  · intro k hk
    obtain ⟨e, he1, he2, he3⟩ := h4 k hk
    refine ⟨e, by simpa using he1, he2, ?_⟩
    unfold withRetry
    rw [he3]
    simp [retryDelay]
  · intro e s hs
    rcases hs with hs | ⟨hs1, hs2⟩
    · simp [defaultRetryOn, hs, Option.orElse]
    · simp [defaultRetryOn, hs1, hs2, Option.orElse]

/-- Witness for claim C7: a single 429 failure followed by success, with
jitter 3/4, sleeps once for max(min(15000, round(750)), 5000) = 5000 ms. -/
theorem claim_C7_witness :
    ∃ e, (fun n => if n = 0 then (.error ⟨some 429, none⟩ : Except RetryError ℕ)
        else .ok 42) 0 = .error e ∧
      defaultRetryOptions.retryOn e = true ∧
      (withRetry (fun n => if n = 0 then (.error ⟨some 429, none⟩ : Except RetryError ℕ)
          else .ok 42) defaultRetryOptions (fun _ => 3 / 4)).2[0]? =
        some (if e.status == some 429 then
            max (min defaultRetryOptions.maxDelayMs
              ((jsRound (defaultRetryOptions.baseDelayMs * 2 ^ (0 + 1 - 1) *
                (fun _ : ℕ => (3 : ℚ) / 4) (0 + 1)) : ℚ))) 5000
          else min defaultRetryOptions.maxDelayMs
            ((jsRound (defaultRetryOptions.baseDelayMs * 2 ^ (0 + 1 - 1) *
              (fun _ : ℕ => (3 : ℚ) / 4) (0 + 1)) : ℚ))) := by
  refine (claim_C7 (fun n => if n = 0 then (.error ⟨some 429, none⟩ : Except RetryError ℕ)
    else .ok 42) defaultRetryOptions (fun _ => 3 / 4)).2.2.2.1 0 ?_
  norm_num [withRetry, withRetryGo, defaultRetryOptions, defaultRetryOn, retryDelay]

/- ### File name normalization (utils.ts normalizeFileStem 138-144 and
NotionImporterPlugin.generateFileName, unnamed/part_000 1010-1029) -/

/-- The character class `[a-zA-Z0-9]`. -/
def isAsciiAlphanum (c : Char) : Bool :=
  ('a' ≤ c && c ≤ 'z') || ('A' ≤ c && c ≤ 'Z') || ('0' ≤ c && c ≤ '9')

/-- The global regex replace of `[^a-zA-Z0-9\s]` by a space. -/
def replaceSpecialChars (l : List Char) : List Char :=
  l.map fun c => if isAsciiAlphanum c || isJsSpace c then c else ' '

/-- The global regex replace of `\s+` by one space: every maximal whitespace
run becomes a single space. -/
def collapseSpaces : List Char → List Char
  | [] => []
  | [c] => if isJsSpace c then [' '] else [c]
  | c :: d :: rest =>
    if isJsSpace c && isJsSpace d then collapseSpaces (d :: rest)
    else (if isJsSpace c then ' ' else c) :: collapseSpaces (d :: rest)

/-- normalizeFileStem (utils.ts 138-144): replace the special characters,
collapse whitespace, trim, lower case. -/
def normalizeFileStem (stem : String) : String :=
  String.mk ((jsTrimList (collapseSpaces (replaceSpecialChars stem.data))).map Char.toLower)

/-- Expansion of the JS replacement-string dollar patterns: `$$`, `$&`
(the matched text), dollar-backquote (the preceding text), dollar-quote (the
following text) and `$1` when a first capture group exists; everything else
stays literal. -/
def expandDollar (matched before after : List Char) (g1 : Option (List Char)) :
    List Char → List Char
  | [] => []
  | c :: rest =>
    if c = '$' then
      match rest with
      | [] => [c]
      | d :: rest2 =>
        if d = '$' then '$' :: expandDollar matched before after g1 rest2
        else if d = '&' then matched ++ expandDollar matched before after g1 rest2
        else if d = Char.ofNat 96 then before ++ expandDollar matched before after g1 rest2
        else if d = Char.ofNat 39 then after ++ expandDollar matched before after g1 rest2
        else if d = '1' then
          match g1 with
          | some g => g ++ expandDollar matched before after g1 rest2
          | none => '$' :: expandDollar matched before after g1 (d :: rest2)
        else '$' :: expandDollar matched before after g1 (d :: rest2)
    else c :: expandDollar matched before after g1 rest

/-- JS `String.prototype.replace` with a plain string pattern: replace the
first occurrence, expanding dollar patterns in the replacement. -/
def replaceFirstStr (s pat repl : List Char) : List Char :=
  match splitFirst pat s with
  | some (a, b) => a ++ expandDollar pat a b none repl ++ b
  | none => s

/-- The title derived stem of NotionImporterPlugin.generateFileName
(unnamed/part_000 1011-1016): substitute the title for the first
`{{title}}` placeholder of the naming pattern, then apply the
normalization chain. -/
def generateFileNameStem (fileNamingPattern title : String) : String :=
  normalizeFileStem
    (String.mk (replaceFirstStr fileNamingPattern.data "\x7b\x7btitle\x7d\x7d".data title.data))

theorem charToNat_ofNat {n : ℕ} (h : n.isValidChar) : (Char.ofNat n).toNat = n := by
  rw [Char.ofNat, dif_pos h]
  simp [Char.ofNatAux, Char.toNat, UInt32.toNat]

theorem char_le_iff_toNat {a b : Char} : a ≤ b ↔ a.toNat ≤ b.toNat := by
  rw [Char.le_def]
  rfl

theorem toLower_alnum {c : Char} (h : isAsciiAlphanum c = true) :
    ('a' ≤ c.toLower ∧ c.toLower ≤ 'z') ∨ ('0' ≤ c.toLower ∧ c.toLower ≤ '9') := by
  have ha : ('a' : Char).toNat = 97 := rfl
  have hz : ('z' : Char).toNat = 122 := rfl
  have hA : ('A' : Char).toNat = 65 := rfl
  have hZ : ('Z' : Char).toNat = 90 := rfl
  have h0 : ('0' : Char).toNat = 48 := rfl
  have h9 : ('9' : Char).toNat = 57 := rfl
  simp only [isAsciiAlphanum, Bool.or_eq_true, Bool.and_eq_true, decide_eq_true_eq,
    char_le_iff_toNat, ha, hz, hA, hZ, h0, h9] at h
  rcases h with (h | h) | h
  · have hl : c.toLower = c := by
      unfold Char.toLower
      rw [if_neg (by omega)]
    left
    rw [hl, char_le_iff_toNat, char_le_iff_toNat, ha, hz]
    omega
  · have hv : (c.toNat + 32).isValidChar := Or.inl (by omega)
    left
    unfold Char.toLower
    rw [if_pos (by omega : c.toNat ≥ 65 ∧ c.toNat ≤ 90), char_le_iff_toNat,
      char_le_iff_toNat, charToNat_ofNat hv, ha, hz]
    omega
  · have hl : c.toLower = c := by
      unfold Char.toLower
      rw [if_neg (by omega)]
    right
    rw [hl, char_le_iff_toNat, char_le_iff_toNat, h0, h9]
    omega

theorem toLower_eq_space {c : Char} : c.toLower = ' ' ↔ c = ' ' := by
  constructor
  · intro h
    unfold Char.toLower at h
    by_cases hc : c.toNat ≥ 65 ∧ c.toNat ≤ 90
    · rw [if_pos hc] at h
      have h2 := congrArg Char.toNat h
      rw [charToNat_ofNat (Or.inl (by omega))] at h2
      have hsp : (' ' : Char).toNat = 32 := rfl
      omega
    · rwa [if_neg hc] at h
  · intro h
    rw [h]
    rfl

theorem mem_replaceSpecialChars {c : Char} {l : List Char}
    (h : c ∈ replaceSpecialChars l) : isAsciiAlphanum c = true ∨ isJsSpace c = true := by
  unfold replaceSpecialChars at h
  rw [List.mem_map] at h
  obtain ⟨a, -, ha⟩ := h
  by_cases hc : isAsciiAlphanum a || isJsSpace a
  · rw [if_pos hc] at ha
    subst ha
    simpa using hc
  · rw [if_neg hc] at ha
    subst ha
    right
    rfl

theorem mem_collapseSpaces {c : Char} :
    ∀ {l : List Char}, c ∈ collapseSpaces l →
      c = ' ' ∨ (c ∈ l ∧ isJsSpace c = false) := by
  intro l
  induction l with
  | nil => simp [collapseSpaces]
  | cons a t ih =>
    cases t with
    | nil =>
      intro h
      by_cases ha : isJsSpace a
      · rw [collapseSpaces, if_pos ha] at h
        left
        simpa using h
      · rw [collapseSpaces, if_neg ha] at h
        right
        refine ⟨by simpa using h, ?_⟩
        simp only [List.mem_singleton] at h
        subst h
        simpa using ha
    | cons d rest =>
      intro h
      rw [collapseSpaces] at h
      by_cases had : isJsSpace a && isJsSpace d
      · rw [if_pos had] at h
        rcases ih h with h' | ⟨h1, h2⟩
        · exact Or.inl h'
        · exact Or.inr ⟨by simp [h1], h2⟩
      · rw [if_neg had] at h
        rcases List.mem_cons.mp h with rfl | h
        · by_cases ha : isJsSpace a
          · rw [if_pos ha]
            exact Or.inl rfl
          · rw [if_neg ha]
            exact Or.inr ⟨by simp, by simpa using ha⟩
        · rcases ih h with h' | ⟨h1, h2⟩
          · exact Or.inl h'
          · exact Or.inr ⟨by simp [h1], h2⟩

theorem collapseSpaces_cons_head (a : Char) (t : List Char) :
    ∃ c' t', collapseSpaces (a :: t) = c' :: t' ∧ isJsSpace c' = isJsSpace a ∧
      (c' = ' ' ↔ isJsSpace a = true) := by
  induction t generalizing a with
  | nil =>
    by_cases ha : isJsSpace a
    · refine ⟨' ', [], by rw [collapseSpaces, if_pos ha], ?_, by simp [ha]⟩
      rw [ha]
      decide
    · refine ⟨a, [], by rw [collapseSpaces, if_neg ha], rfl, ?_⟩
      constructor
      · intro h
        subst h
        exact absurd (by decide : isJsSpace ' ' = true) ha
      · intro h
        exact absurd h ha
  | cons d rest ih =>
    by_cases had : (isJsSpace a && isJsSpace d) = true
    · obtain ⟨c', t', h1, h2, h3⟩ := ih d
      rw [Bool.and_eq_true] at had
      refine ⟨c', t', ?_, ?_, ?_⟩
      · rw [collapseSpaces, if_pos (by rw [Bool.and_eq_true]; exact had)]
        exact h1
      · rw [h2, had.1, had.2]
      · rw [h3, had.1, had.2]
    · refine ⟨if isJsSpace a then ' ' else a, collapseSpaces (d :: rest),
        by rw [collapseSpaces, if_neg had], ?_, ?_⟩
      · by_cases ha : isJsSpace a
        · rw [if_pos ha, ha]
          decide
        · rw [if_neg ha]
      · by_cases ha : isJsSpace a
        · simp [ha]
        · rw [if_neg ha]
          constructor
          · intro h
            subst h
            exact absurd (by decide : isJsSpace ' ' = true) ha
          · intro h
            exact absurd h ha

theorem collapseSpaces_chain : ∀ l : List Char,
    List.Chain' (fun a b => ¬(isJsSpace a = true ∧ isJsSpace b = true))
      (collapseSpaces l) := by
  intro l
  induction l with
  | nil => simp [collapseSpaces]
  | cons a t ih =>
    cases t with
    | nil =>
      by_cases ha : isJsSpace a
      · rw [collapseSpaces, if_pos ha]
        simp
      · rw [collapseSpaces, if_neg ha]
        simp
    | cons d rest =>
      rw [collapseSpaces]
      by_cases had : (isJsSpace a && isJsSpace d) = true
      · rw [if_pos had]
        exact ih
      · rw [if_neg had]
        obtain ⟨c', t', h1, h2, h3⟩ := collapseSpaces_cons_head d rest
        rw [h1]
        rw [h1] at ih
        rw [List.chain'_cons']
        refine ⟨?_, ih⟩
        intro y hy
        simp only [List.head?_cons, Option.mem_def, Option.some.injEq] at hy
        subst hy
        rintro ⟨hws1, hws2⟩
        rw [h2] at hws2
        have hwa : isJsSpace a = true := by
          by_cases ha : isJsSpace a
          · exact ha
          · rw [if_neg ha] at hws1
            exact absurd hws1 ha
        exact had (by rw [Bool.and_eq_true]; exact ⟨hwa, hws2⟩)

theorem containsSub_of_append_left {pat a b : List Char}
    (h : containsSub pat a = true) : containsSub pat (a ++ b) = true := by
  induction a with
  | nil =>
    simp only [containsSub] at h
    rw [List.nil_append]
    have hp : pat = [] := by simpa using h
    subst hp
    cases b with
    | nil => rfl
    | cons x xs => simp [containsSub, List.isPrefixOf]
  | cons x xs ih =>
    simp only [containsSub, Bool.or_eq_true] at h ⊢
    rcases h with h | h
    · left
      obtain ⟨t, ht⟩ := List.isPrefixOf_iff_prefix.mp h
      refine List.isPrefixOf_iff_prefix.mpr ?_
      exact ⟨t ++ b, by rw [← List.append_assoc, ht]; rfl⟩
    · exact Or.inr (ih h)

theorem containsSub_of_prefix {pat a : List Char} {l : List Char}
    (hp : a <+: l) (h : containsSub pat a = true) : containsSub pat l = true := by
  obtain ⟨b, rfl⟩ := hp
  exact containsSub_of_append_left h

theorem containsSub_of_suffix {pat a : List Char} {l : List Char}
    (hs : a <:+ l) (h : containsSub pat a = true) : containsSub pat l = true := by
  obtain ⟨b, rfl⟩ := hs
  induction b with
  | nil => exact h
  | cons x xs ih =>
    simp only [containsSub, Bool.or_eq_true]
    exact Or.inr ih

theorem jsTrimList_prefix_dropWhile (l : List Char) :
    jsTrimList l <+: (l.dropWhile isJsSpace) := by
  unfold jsTrimList
  rw [← List.reverse_reverse (l.dropWhile isJsSpace)]
  refine List.reverse_prefix.mpr ?_
  rw [List.reverse_reverse]
  exact List.dropWhile_suffix _

theorem head_dropWhile_not_space (l : List Char) :
    (l.dropWhile isJsSpace).head? ≠ some ' ' := by
  induction l with
  | nil => simp
  | cons a t ih =>
    by_cases ha : isJsSpace a
    · rw [List.dropWhile_cons_of_pos ha]
      exact ih
    · rw [List.dropWhile_cons_of_neg ha]
      intro h
      simp only [List.head?_cons, Option.some.injEq] at h
      subst h
      exact ha rfl

theorem jsTrimList_head_not_space (l : List Char) :
    (jsTrimList l).head? ≠ some ' ' := by
  intro h
  have hne : jsTrimList l ≠ [] := by
    intro hnil
    rw [hnil] at h
    cases h
  obtain ⟨t, ht⟩ := jsTrimList_prefix_dropWhile l
  have hh : (l.dropWhile isJsSpace).head? = some ' ' := by
    rw [← ht]
    cases hc : jsTrimList l with
    | nil => exact absurd hc hne
    | cons x xs =>
      rw [hc] at h
      simp only [List.head?_cons, Option.some.injEq] at h
      subst h
      simp [hc]
  exact head_dropWhile_not_space l hh

theorem jsTrimList_getLast_not_space (l : List Char) :
    (jsTrimList l).getLast? ≠ some ' ' := by
  intro h
  unfold jsTrimList at h
  rw [List.getLast?_reverse] at h
  exact head_dropWhile_not_space _ h

theorem mem_jsTrimList {c : Char} {l : List Char} (h : c ∈ jsTrimList l) : c ∈ l := by
  unfold jsTrimList at h
  rw [List.mem_reverse] at h
  have h1 := (List.dropWhile_sublist isJsSpace).subset h
  rw [List.mem_reverse] at h1
  exact (List.dropWhile_sublist isJsSpace).subset h1

/-- Claim C10: for every naming pattern and title, the normalized stem of the
generated file name contains only lowercase letters, digits and spaces, has
no two adjacent spaces, and neither starts nor ends with a space. -/
theorem claim_C10 (fileNamingPattern title : String) :
    (∀ c ∈ (generateFileNameStem fileNamingPattern title).data,
      ('a' ≤ c ∧ c ≤ 'z') ∨ ('0' ≤ c ∧ c ≤ '9') ∨ c = ' ') ∧
    List.Chain' (fun a b => ¬(a = ' ' ∧ b = ' '))
      (generateFileNameStem fileNamingPattern title).data ∧
    (generateFileNameStem fileNamingPattern title).data.head? ≠ some ' ' ∧
    (generateFileNameStem fileNamingPattern title).data.getLast? ≠ some ' ' := by
  set raw : List Char :=
    replaceFirstStr fileNamingPattern.data "\x7b\x7btitle\x7d\x7d".data title.data with hraw
  have hdata : (generateFileNameStem fileNamingPattern title).data =
      (jsTrimList (collapseSpaces (replaceSpecialChars raw))).map Char.toLower := rfl
  refine ⟨?_, ?_, ?_, ?_⟩
  · intro c hc
    rw [hdata, List.mem_map] at hc
    obtain ⟨x, hx, rfl⟩ := hc
    rcases mem_collapseSpaces (mem_jsTrimList hx) with h' | ⟨h1, h2⟩
    · subst h'
      right
      right
      rfl
    · rcases mem_replaceSpecialChars h1 with h' | h'
      · rcases toLower_alnum h' with hh | hh
        · exact Or.inl hh
        · exact Or.inr (Or.inl hh)
      · rw [h'] at h2
        cases h2
  · rw [hdata, List.chain'_map]
    have htr : List.Chain' (fun a b => ¬(isJsSpace a = true ∧ isJsSpace b = true))
        (jsTrimList (collapseSpaces (replaceSpecialChars raw))) := by
      refine List.Chain'.prefix ?_ (jsTrimList_prefix_dropWhile _)
      exact List.Chain'.suffix (collapseSpaces_chain (replaceSpecialChars raw))
        (List.dropWhile_suffix _)
    refine htr.imp ?_
    intro a b hab
    rintro ⟨h1, h2⟩
    rw [toLower_eq_space] at h1 h2
    exact hab ⟨by rw [h1]; decide, by rw [h2]; decide⟩
  · rw [hdata]
    intro h
    rw [List.head?_map] at h
    cases hL : (jsTrimList (collapseSpaces (replaceSpecialChars raw))).head? with
    | none =>
      rw [hL] at h
      cases h
    | some a =>
      rw [hL] at h
      have ha : a.toLower = ' ' := by simpa using h
      rw [toLower_eq_space] at ha
      subst ha
      exact jsTrimList_head_not_space _ hL
  · rw [hdata]
    intro h
    rw [List.getLast?_map] at h
    cases hL : (jsTrimList (collapseSpaces (replaceSpecialChars raw))).getLast? with
    | none =>
      rw [hL] at h
      cases h
    | some a =>
      rw [hL] at h
      have ha : a.toLower = ' ' := by simpa using h
      rw [toLower_eq_space] at ha
      subst ha
      exact jsTrimList_getLast_not_space _ hL

/-- Witness for claim C10 at a concrete pattern and title. -/
theorem claim_C10_witness :
    (generateFileNameStem "\x7b\x7btitle\x7d\x7d" "My  Note!?").data.head? ≠ some ' ' ∧
    List.Chain' (fun a b => ¬(a = ' ' ∧ b = ' '))
      (generateFileNameStem "\x7b\x7btitle\x7d\x7d" "My  Note!?").data := by
  have h := claim_C10 "\x7b\x7btitle\x7d\x7d" "My  Note!?"
  exact ⟨h.2.2.1, h.2.1⟩

/- ### The frontmatter field regexes KEY:\s*["]?([^"'\n]+)["']? (utils.ts
116-136, sync/import.ts 74, unnamed/part_000 259-283) -/

/-- The character class `[^"'\n]` of the capture group. -/
def isFieldBodyChar (c : Char) : Bool :=
  !(c = '"' || c = Char.ofNat 39 || c = '\n')

/-- The tail of a field regex match after the whitespace run and the optional
opening quote: the greedy nonempty body `([^"'\n]+)` on `r2`, then the greedy
optional closing quote.  `keyLen`, `wn` and `q` are the lengths already
consumed by the key, the whitespace run and the opening quote. -/
def fieldTryQuote (keyLen wn q : ℕ) (r2 : List Char) : Option (ℕ × List Char) :=
  if (r2.takeWhile isFieldBodyChar).length = 0 then none
  else
    some (keyLen + wn + q + (r2.takeWhile isFieldBodyChar).length +
      (if (r2.drop (r2.takeWhile isFieldBodyChar).length).head? = some '"' ∨
          (r2.drop (r2.takeWhile isFieldBodyChar).length).head? = some (Char.ofNat 39)
        then 1 else 0),
      r2.take (r2.takeWhile isFieldBodyChar).length)

/-- One backtracking attempt with a whitespace run of length `wn`: prefer
consuming an opening quote drawn from `leads` when one is present. -/
def fieldAtWs (leads : List Char) (keyLen wn : ℕ) (r : List Char) :
    Option (ℕ × List Char) :=
  match (r.drop wn).head? with
  | some c =>
    if c ∈ leads then
      (fieldTryQuote keyLen wn 1 ((r.drop wn).drop 1)).orElse
        fun _ => fieldTryQuote keyLen wn 0 (r.drop wn)
    else fieldTryQuote keyLen wn 0 (r.drop wn)
  | none => fieldTryQuote keyLen wn 0 (r.drop wn)

/-- Match the regex `KEY\s*[q]?([^"'\n]+)["']?` at the head of `cs`, with JS
backtracking semantics: the whitespace run is greedy and backtracks, the
optional leading quote (drawn from `leads`) is preferred when present, the
body is greedy and must be nonempty, the optional trailing quote is greedy.
Returns the match length and the captured group. -/
def fieldMatchAt (leads : List Char) (key : List Char) (cs : List Char) :
    Option (ℕ × List Char) :=
  if key.isPrefixOf cs then
    (List.range (((cs.drop key.length).takeWhile isJsSpace).length + 1)).findSome?
      fun k => fieldAtWs leads key.length
        (((cs.drop key.length).takeWhile isJsSpace).length - k) (cs.drop key.length)
  else none

/-- Leftmost match of the field regex: the text before the match, the match
length and the captured group. -/
def fieldFind (leads key : List Char) : List Char → Option (List Char × ℕ × List Char)
  | [] => (fieldMatchAt leads key []).map fun p => (([] : List Char), p.1, p.2)
  | c :: rest =>
    match fieldMatchAt leads key (c :: rest) with
    | some (len, g) => some ([], len, g)
    | none =>
      match fieldFind leads key rest with
      | some (pre, len, g) => some (c :: pre, len, g)
      | none => none

/-- getLastEditedTimeFromContent (utils.ts 121-124): first match of
`last_edited_time:\s*["]?([^"'\n]+)["']?` anywhere in the content. -/
def getLastEditedTimeFromContent (content : String) : Option String :=
  (fieldFind ['"'] "last_edited_time:".data content.data).map fun p => String.mk p.2.2

/-- getNotionPageIdFromContent (utils.ts 116-119). -/
def getNotionPageIdFromContent (content : String) : Option String :=
  (fieldFind ['"'] "notion_page_id:".data content.data).map fun p => String.mk p.2.2

/-- parseTitleFromFrontmatter (utils.ts 133-136): first match of
`title:\s*["]?([^"'\n]+)["']?` anywhere, else the fallback. -/
def parseTitleFromFrontmatter (content fallback : String) : String :=
  match fieldFind ['"'] "title:".data content.data with
  | some p => String.mk p.2.2
  | none => fallback

/- ### Per-file export flow (NotionImporterPlugin.syncFileToNotion,
unnamed/part_000 294-368 and syncFileToNotionImpl 370-582) -/

/-- The calls the export flow issues, in order: remote reads, the conflict
prompt, remote mutations, and local file writes. -/
inductive SyncAction where
  | retrievePage
  | listChildren
  | openConflictModal
  | fetchPageContent
  | modifyLocalFile (content : String)
  | updateTitle (title : String)
  | deleteBlockCall (blockId : String)
  | appendBlocksCall (children : List Block)
  | updateWatermark (time : String)
  | notice (msg : String)
  deriving DecidableEq, Repr

/-- The three resolutions of the ConflictResolutionModal (utils.ts 172-206). -/
inductive Resolution where
  | keepLocal
  | keepNotion
  | cancel
  deriving DecidableEq, Repr

/-- The comparison `new Date(a) > new Date(b)`; date parsing is an oracle
`pd` returning the epoch value, `none` standing for an invalid date (NaN,
which compares false). -/
def dateGt (pd : String → Option ℤ) (a b : String) : Bool :=
  match pd a, pd b with
  | some x, some y => decide (y < x)
  | _, _ => false

/-- The body split `content.split(/^---\n([\s\S]*?)\n---\n/)` of
unnamed/part_000 378-387: with a leading frontmatter fence the markdown is
the text after the first closing fence line, otherwise the whole content. -/
def bodyMarkdown (content : String) : String :=
  if List.isPrefixOf "---\n".data content.data then
    match splitFirst "\n---\n".data (content.data.drop 4) with
    | some (_, rest) => String.mk rest
    | none => content
  else content

/-- One line of the simplified markdown converter inlined in
syncFileToNotionImpl (unnamed/part_000 451-532): headings one to three,
bulleted items, paragraph accumulation; nothing else. -/
def processLineImpl (st : MdState) (line : List Char) : MdState :=
  if jsTrimList line = [] then flushParagraph st
  else if List.isPrefixOf "# ".data line then
    { st with blocks := st.blocks ++ [Block.heading_1 [String.mk (line.drop 2)]] }
  else if List.isPrefixOf "## ".data line then
    { st with blocks := st.blocks ++ [Block.heading_2 [String.mk (line.drop 3)]] }
  else if List.isPrefixOf "### ".data line then
    { st with blocks := st.blocks ++ [Block.heading_3 [String.mk (line.drop 4)]] }
  else if List.isPrefixOf "- ".data line then
    { st with blocks := st.blocks ++ [Block.bulleted_list_item [String.mk (line.drop 2)]] }
  else
    { st with currentParagraph :=
        if st.currentParagraph = [] then line
        else st.currentParagraph ++ '\n' :: line }

/-- The markdown to blocks conversion of syncFileToNotionImpl
(unnamed/part_000 446-548). -/
def markdownToBlocksImpl (markdown : String) : List Block :=
  let lines := splitNl (jsTrimList markdown.data)
  (flushParagraph (lines.foldl processLineImpl { blocks := [], currentParagraph := [] })).blocks

/-- syncFileToNotionImpl (unnamed/part_000 370-582), happy path: update the
title, list and delete the existing blocks, append the converted markdown in
batches of 10, re-fetch the page and write the new watermark into the file.
`existingBlockIds` is what listing the children returns,
`finalLastEdited` the last edited time of the closing page fetch. -/
def syncFileToNotionImpl (content basename : String) (existingBlockIds : List String)
    (finalLastEdited : Option String) : Bool × List SyncAction :=
  let markdown := bodyMarkdown content
  let title := parseTitleFromFrontmatter content basename
  let blocks := markdownToBlocksImpl markdown
  (true,
    [SyncAction.updateTitle title, SyncAction.listChildren] ++
      existingBlockIds.map SyncAction.deleteBlockCall ++
      (chunksOf 10 blocks).map SyncAction.appendBlocksCall ++
      [SyncAction.retrievePage] ++
      (match finalLastEdited with
       | some t => [SyncAction.updateWatermark t]
       | none => []))

/-- NotionImporterPlugin.syncFileToNotion (unnamed/part_000 294-368): guard
against concurrent syncs of the same path, find the page id, retrieve the
page, compare the remote last edited time against the local watermark, and
on conflict suspend on the modal; cancel aborts, keep-notion overwrites the
local file from the remote content, keep-local (or no conflict) runs the
implementation. -/
def syncFileToNotion (alreadySyncing : Bool) (pageId : Option String)
    (localLastEditedTime : Option String) (pageRetrieveOk : Bool)
    (notionLastEditedTime : Option String) (pd : String → Option ℤ)
    (choice : Resolution) (remoteContent : String) (content basename : String)
    (existingBlockIds : List String) (finalLastEdited : Option String) :
    Bool × List SyncAction :=
  if alreadySyncing then (false, [])
  else
    match pageId with
    | none => (false, [])
    | some _ =>
      if !pageRetrieveOk then (false, [SyncAction.retrievePage, SyncAction.notice "error"])
      else
        let conflict :=
          match localLastEditedTime, notionLastEditedTime with
          | some lt, some nt => dateGt pd nt lt
          | _, _ => false
        if conflict then
          match choice with
          | .cancel => (false, [SyncAction.retrievePage, SyncAction.openConflictModal])
          | .keepNotion =>
            (true, [SyncAction.retrievePage, SyncAction.openConflictModal,
              SyncAction.fetchPageContent, SyncAction.modifyLocalFile remoteContent])
          | .keepLocal =>
            let r := syncFileToNotionImpl content basename existingBlockIds finalLastEdited
            (r.1, [SyncAction.retrievePage, SyncAction.openConflictModal] ++ r.2)
        else
          let r := syncFileToNotionImpl content basename existingBlockIds finalLastEdited
          (r.1, [SyncAction.retrievePage] ++ r.2)

/-- Remote mutations: title updates, block deletions, block appends. -/
def isRemoteMutation : SyncAction → Bool
  | .updateTitle _ => true
  | .deleteBlockCall _ => true
  | .appendBlocksCall _ => true
  | _ => false

/-- Claim C4: with a local watermark strictly older than the remote last
edited time, the export flow reaches the conflict decision point having
issued no remote mutation before it, and a cancel resolution returns false
with no remote mutation and no local write at all. -/
theorem claim_C4 (pid : String) (lt nt : String) (pd : String → Option ℤ)
    (choice : Resolution) (remoteContent content basename : String)
    (existingBlockIds : List String) (finalLastEdited : Option String)
    (hconf : dateGt pd nt lt = true) :
    SyncAction.openConflictModal ∈
      (syncFileToNotion false (some pid) (some lt) true (some nt) pd choice
        remoteContent content basename existingBlockIds finalLastEdited).2 ∧
    (∀ a ∈ (syncFileToNotion false (some pid) (some lt) true (some nt) pd choice
        remoteContent content basename existingBlockIds finalLastEdited).2.takeWhile
          (fun a => a != SyncAction.openConflictModal),
      isRemoteMutation a = false) ∧
    (choice = Resolution.cancel →
      (syncFileToNotion false (some pid) (some lt) true (some nt) pd choice
        remoteContent content basename existingBlockIds finalLastEdited).1 = false ∧
      ∀ a ∈ (syncFileToNotion false (some pid) (some lt) true (some nt) pd choice
          remoteContent content basename existingBlockIds finalLastEdited).2,
        isRemoteMutation a = false ∧ ∀ c, a ≠ SyncAction.modifyLocalFile c) := by
  have hshape : ∀ rest : List SyncAction,
      (SyncAction.retrievePage :: SyncAction.openConflictModal :: rest).takeWhile
        (fun a => a != SyncAction.openConflictModal) = [SyncAction.retrievePage] := by
    intro rest
    rw [List.takeWhile_cons_of_pos (by decide), List.takeWhile_cons_of_neg (by decide)]
  cases choice with
  | cancel =>
    have htr : (syncFileToNotion false (some pid) (some lt) true (some nt) pd .cancel
        remoteContent content basename existingBlockIds finalLastEdited).2 =
        [SyncAction.retrievePage, SyncAction.openConflictModal] := by
      simp [syncFileToNotion, hconf]
    refine ⟨by rw [htr]; simp, ?_, ?_⟩
    · intro a ha
      rw [htr, hshape] at ha
      simp only [List.mem_singleton] at ha
      subst ha
      rfl
    · intro _
      refine ⟨by simp [syncFileToNotion, hconf], ?_⟩
      intro a ha
      rw [htr] at ha
      rcases List.mem_cons.mp ha with rfl | ha
      · exact ⟨rfl, fun c h => by cases h⟩
      · rcases List.mem_cons.mp ha with rfl | ha
        · exact ⟨rfl, fun c h => by cases h⟩
        · cases ha
  | keepNotion =>
    have htr : (syncFileToNotion false (some pid) (some lt) true (some nt) pd .keepNotion
        remoteContent content basename existingBlockIds finalLastEdited).2 =
        SyncAction.retrievePage :: SyncAction.openConflictModal ::
          [SyncAction.fetchPageContent, SyncAction.modifyLocalFile remoteContent] := by
      simp [syncFileToNotion, hconf]
    refine ⟨by rw [htr]; simp, ?_, fun h => by cases h⟩
    intro a ha
    rw [htr, hshape] at ha
    simp only [List.mem_singleton] at ha
    subst ha
    rfl
  | keepLocal =>
    have htr : (syncFileToNotion false (some pid) (some lt) true (some nt) pd .keepLocal
        remoteContent content basename existingBlockIds finalLastEdited).2 =
        SyncAction.retrievePage :: SyncAction.openConflictModal ::
          (syncFileToNotionImpl content basename existingBlockIds finalLastEdited).2 := by
      simp [syncFileToNotion, hconf]
    refine ⟨by rw [htr]; simp, ?_, fun h => by cases h⟩
    intro a ha
    rw [htr, hshape] at ha
    simp only [List.mem_singleton] at ha
    subst ha
    rfl

/-- Witness for claim C4: watermark epoch 1, remote epoch 2, cancel. -/
theorem claim_C4_witness :
    SyncAction.openConflictModal ∈
      (syncFileToNotion false (some "p") (some "T0") true (some "T1")
        (fun s => if s = "T1" then some 2 else some 1) Resolution.cancel
        "remote" "local" "note" [] none).2 ∧
    (syncFileToNotion false (some "p") (some "T0") true (some "T1")
        (fun s => if s = "T1" then some 2 else some 1) Resolution.cancel
        "remote" "local" "note" [] none).1 = false := by
  have h := claim_C4 "p" "T0" "T1" (fun s => if s = "T1" then some 2 else some 1)
    Resolution.cancel "remote" "local" "note" [] none (by decide)
  exact ⟨h.1, (h.2.2 rfl).1⟩

/- ### Frontmatter parsing and rewriting (utils.ts 76-131) -/

/-- The value cleanup `.replace(/^"|"$/g, '')` of extractFrontmatter: strip
one leading and one trailing double quote. -/
def stripEdgeQuotes (l : List Char) : List Char :=
  let l1 := if l.head? = some '"' then l.tail else l
  if l1.getLast? = some '"' then l1.dropLast else l1

/-- quoteIfNeeded (utils.ts 111-114): wrap in double quotes, escaping inner
double quotes, when the value contains a newline, quote, apostrophe or
colon. -/
def quoteIfNeeded (value : String) : String :=
  if value.data.any (fun c => c = '\n' || c = '"' || c = Char.ofNat 39 || c = ':') then
    String.mk ('"' :: (value.data.map fun c =>
      if c = '"' then ['\\', '"'] else [c]).flatten ++ ['"'])
  else value

/-- JS object update `data[key] = value`: overwrite in place, else append. -/
def setAssoc : List (String × String) → String → String → List (String × String)
  | [], k, v => [(k, v)]
  | (k', v') :: rest, k, v =>
    if k' = k then (k, v) :: rest else (k', v') :: setAssoc rest k v

/-- JS object lookup `data[key]`. -/
def getAssoc : List (String × String) → String → Option String
  | [], _ => none
  | (k', v') :: rest, k => if k' = k then some v' else getAssoc rest k

/-- One line of the extractFrontmatter loop (utils.ts 83-89): split at the
first colon, trim the key, trim the value and strip its edge quotes, skip
colonless lines and empty keys. -/
def parseFmLine (data : List (String × String)) (line : List Char) :
    List (String × String) :=
  match splitFirst [':'] line with
  | none => data
  | some (k, v) =>
    let key := String.mk (jsTrimList k)
    let value := String.mk (stripEdgeQuotes (jsTrimList v))
    if key = "" then data else setAssoc data key value

/-- The anchored frontmatter regex (pattern `^---\n([\s\S]*?)\n---`, no m
flag) of extractFrontmatter (utils.ts 77): the lazy group is the text up to
the first closing fence; returns the group and the text after the fence. -/
def fmSplit (content : List Char) : Option (List Char × List Char) :=
  if List.isPrefixOf "---\n".data content then
    splitFirst "\n---".data (content.drop 4)
  else none

/-- The data map of extractFrontmatter (utils.ts 76-91). -/
def extractFrontmatterData (content : String) : List (String × String) :=
  match fmSplit content.data with
  | none => []
  | some (inner, _) => (splitNl inner).foldl parseFmLine []

/-- The multiline test (pattern `^---\n([\s\S]*?)\n---` with the m flag) of
replaceFrontmatterField (utils.ts 94): an opening fence at some line start
with a closing fence after it. -/
def hasFmMultilineGo : Bool → List Char → Bool
  | _, [] => false
  | atLineStart, c :: rest =>
    (atLineStart && List.isPrefixOf "---\n".data (c :: rest) &&
      containsSub "\n---".data ((c :: rest).drop 4)) ||
    hasFmMultilineGo (c = '\n') rest

def hasFmMultiline (content : List Char) : Bool :=
  hasFmMultilineGo true content

/-- replaceFrontmatterField (utils.ts 93-109): without a frontmatter block,
prepend a fresh one; otherwise parse the data, set the field, rebuild every
line with quoteIfNeeded and replace the anchored match by the rebuilt block,
expanding the JS dollar replacement patterns of the rebuilt block against
the match, the surrounding text and the capture group (a no-op when the
multiline test passed but the anchored regex does not match). -/
def replaceFrontmatterField (content key value : String) : String :=
  if hasFmMultiline content.data then
    let data2 := setAssoc (extractFrontmatterData content) key value
    let rebuilt := String.intercalate "\n"
      (data2.map fun p => p.1 ++ ": " ++ quoteIfNeeded p.2)
    let newFrontmatter := "---\n" ++ rebuilt ++ "\n---"
    match fmSplit content.data with
    | some (inner, rest) =>
      String.mk (expandDollar ("---\n".data ++ inner ++ "\n---".data) [] rest
        (some inner) newFrontmatter.data ++ rest)
    | none => content
  else
    "---\n" ++ key ++ ": " ++ quoteIfNeeded value ++ "\n---\n\n" ++ content

/-- setLastEditedTimeInContent (utils.ts 126-131): when the literal
`last_edited_time:` occurs (the test regex has only `\s*` after it), replace
the first match of the field regex by `last_edited_time: "value"`, expanding
dollar patterns of the replacement string; otherwise go through
replaceFrontmatterField. -/
def setLastEditedTimeInContent (content value : String) : String :=
  if containsSub "last_edited_time:".data content.data then
    match fieldFind ['"'] "last_edited_time:".data content.data with
    | some (pre, len, g) =>
      let matched := (content.data.drop pre.length).take len
      let after := content.data.drop (pre.length + len)
      let repl := "last_edited_time: \"".data ++ value.data ++ ['"']
      String.mk (pre ++ expandDollar matched pre after (some g) repl ++ after)
    | none => content
  else replaceFrontmatterField content "last_edited_time" value

/- ### Import flow, per remote page (sync/import.ts importDatabase 69-107) -/

/-- Local writes and notices the per page import body can issue. -/
inductive ImportAction where
  | modifyFile (content : String)
  | createFile (path content : String)
  | importNotice (msg : String)
  deriving DecidableEq, Repr

/-- The overwrite test of the import loop (sync/import.ts 74-78): remote and
local watermarks are both present, the remote one nonempty and strictly
newer. -/
def importNewer (pd : String → Option ℤ) (notionEdited localEdited : Option String) :
    Bool :=
  match notionEdited, localEdited with
  | some ne, some le => ne ≠ "" && dateGt pd ne le
  | _, _ => false

/-- The header normalization chain of the import loop (sync/import.ts 84-90):
set notion_page_id, imported_from and, when a nonempty remote watermark is
known, last_edited_time. -/
def importNormalized (pageId : String) (notionEdited : Option String)
    (localContent : String) : String :=
  match notionEdited with
  | some ne =>
    if ne ≠ "" then
      replaceFrontmatterField
        (replaceFrontmatterField
          (replaceFrontmatterField localContent "notion_page_id" pageId)
          "imported_from" "notion")
        "last_edited_time" ne
    else
      replaceFrontmatterField
        (replaceFrontmatterField localContent "notion_page_id" pageId)
        "imported_from" "notion"
  | none =>
    replaceFrontmatterField
      (replaceFrontmatterField localContent "notion_page_id" pageId)
      "imported_from" "notion"

/-- The body of the page loop of importDatabase (sync/import.ts 69-107).
`existing` is the file found by notion page id, `createError` the outcome of
the attempted create when no file exists (`none` for success). -/
def importPageStep (pd : String → Option ℤ) (pageId remoteContent : String)
    (notionEdited : Option String) (destinationFolder fileName : String)
    (existing : Option String) (createError : Option String) : List ImportAction :=
  match existing with
  | some localContent =>
    if importNewer pd notionEdited (getLastEditedTimeFromContent localContent)
    then [ImportAction.modifyFile remoteContent]
    else
      if importNormalized pageId notionEdited localContent ≠ localContent
      then [ImportAction.modifyFile (importNormalized pageId notionEdited localContent)]
      else []
  | none =>
    match createError with
    | none =>
      [ImportAction.createFile (destinationFolder ++ "/" ++ fileName ++ ".md") remoteContent]
    | some msg =>
      if containsSub "already exists".data msg.data then []
      else [ImportAction.importNotice ("Error creating file " ++ fileName ++ ": " ++ msg)]

/- ### Well formed frontmatter documents -/

/-- Keys actually produced by the import paths: nonempty, alphanumeric or
underscore. -/
def safeKey (k : String) : Bool :=
  k ≠ "" && k.data.all fun c => isAsciiAlphanum c || c = '_'

/-- Values that survive the quote and trim round trips: nonempty, free of
newlines, double quotes and apostrophes, not starting or ending with
whitespace (colons are allowed; quoteIfNeeded wraps them). -/
def safeFieldValue (v : String) : Bool :=
  v.data ≠ [] &&
  v.data.all (fun c => !(c = '"' || c = Char.ofNat 39 || c = '\n')) &&
  !(isJsSpace (v.data.headD ' ')) && !(isJsSpace (v.data.getLastD ' '))

/-- The serialized line of one field, as replaceFrontmatterField writes it. -/
def fmLine (p : String × String) : String :=
  p.1 ++ ": " ++ quoteIfNeeded p.2

/-- Lines joined with newline separators, the shape of the text between the
frontmatter fences. -/
def joinLines : List (List Char) → List Char
  | [] => []
  | l :: rest => l ++ (rest.map fun m => '\n' :: m).flatten

/-- A document whose text is a frontmatter block of the given fields
followed by the rest of the file. -/
def mkContent (fields : List (String × String)) (tail : String) : String :=
  String.mk ("---\n".data ++ joinLines (fields.map fun p => (fmLine p).data) ++
    "\n---".data ++ tail.data)

/- ### Line structure toolkit for the frontmatter round trips -/

theorem joinLines_cons_cons (l m : List Char) (rest : List (List Char)) :
    joinLines (l :: m :: rest) = l ++ '\n' :: joinLines (m :: rest) := by
  simp [joinLines]

theorem strIntercalate_go_data (s : String) (l : List String) :
    ∀ a : String, (String.intercalate.go a s l).data =
      a.data ++ (l.map fun b => s.data ++ b.data).flatten := by
  induction l with
  | nil => intro a; simp [String.intercalate.go]
  | cons b bs ih =>
    intro a
    show (String.intercalate.go (a ++ s ++ b) s bs).data = _
    rw [ih]
    simp [String.data_append]

theorem strIntercalate_nl_data (l : List String) :
    (String.intercalate "\n" l).data = joinLines (l.map String.data) := by
  cases l with
  | nil => rfl
  | cons a as =>
    show (String.intercalate.go a "\n" as).data = _
    rw [strIntercalate_go_data, List.map_cons]
    show _ = a.data ++ (List.map (fun m => '\n' :: m) (List.map String.data as)).flatten
    rw [List.map_map]
    rfl

theorem expandDollar_id (matched before after : List Char) (g1 : Option (List Char))
    (repl : List Char) (h : '$' ∉ repl) :
    expandDollar matched before after g1 repl = repl := by
  induction repl with
  | nil => rfl
  | cons c rest ih =>
    have hc : c ≠ '$' := fun hc => h (hc ▸ List.mem_cons_self c rest)
    have ht : '$' ∉ rest := fun hm => h (List.mem_cons_of_mem c hm)
    have hstep : expandDollar matched before after g1 (c :: rest) =
        c :: expandDollar matched before after g1 rest := by
      rw [expandDollar.eq_def]
      simp [hc]
    rw [hstep, ih ht]

theorem dropWhile_eq_self_of_head (p : Char → Bool) (l : List Char)
    (h : ∀ c, l.head? = some c → p c = false) : l.dropWhile p = l := by
  cases l with
  | nil => rfl
  | cons a t =>
    exact List.dropWhile_cons_of_neg (by simp [h a rfl])

theorem jsTrimList_eq_self (l : List Char)
    (h1 : ∀ c, l.head? = some c → isJsSpace c = false)
    (h2 : ∀ c, l.getLast? = some c → isJsSpace c = false) : jsTrimList l = l := by
  unfold jsTrimList
  rw [dropWhile_eq_self_of_head _ _ h1]
  rw [dropWhile_eq_self_of_head _ _ (by
    intro c hc
    exact h2 c (by rwa [List.head?_reverse] at hc))]
  exact List.reverse_reverse l

theorem jsTrimList_cons_space (l : List Char) :
    jsTrimList (' ' :: l) = jsTrimList l := by
  unfold jsTrimList
  rw [List.dropWhile_cons_of_pos (by decide)]

theorem prefix_avoid {key X Y : List Char} {c : Char} (hnl : c ∉ key)
    (h : key <+: X ++ c :: Y) : key <+: X := by
  rcases le_or_lt key.length X.length with hle | hlt
  · have heq := List.prefix_iff_eq_take.mp h
    rw [List.take_append_of_le_length hle] at heq
    exact heq ▸ List.take_prefix _ _
  · exfalso
    apply hnl
    have heq := List.prefix_iff_eq_take.mp h
    rw [List.take_append_eq_append_take, List.take_of_length_le (le_of_lt hlt)] at heq
    obtain ⟨m, hm⟩ := Nat.exists_eq_succ_of_ne_zero
      (Nat.sub_ne_zero_of_lt hlt)
    rw [hm, List.take_succ_cons] at heq
    rw [heq]
    exact List.mem_append.mpr (Or.inr (List.mem_cons_self _ _))

theorem isPrefixOf_head_ne {pat l : List Char} {c a : Char}
    (hp : pat.head? = some c) (hne : c ≠ a) : pat.isPrefixOf (a :: l) = false := by
  cases pat with
  | nil => cases hp
  | cons p pt =>
    simp only [List.head?_cons, Option.some.injEq] at hp
    subst hp
    simp [List.isPrefixOf, hne]

theorem splitFirst_cons_of_neg {pat : List Char} {a : Char} {l : List Char}
    (h : pat.isPrefixOf (a :: l) = false) :
    splitFirst pat (a :: l) = (splitFirst pat l).map fun q => (a :: q.1, q.2) := by
  simp only [splitFirst, h, Bool.false_eq_true, if_false]
  cases splitFirst pat l with
  | none => rfl
  | some q => rfl

theorem splitFirst_append_avoid {pat : List Char} {c : Char} (l : List Char)
    {rest : List Char} (hp : pat.head? = some c) (hl : c ∉ l) :
    splitFirst pat (l ++ rest) =
      (splitFirst pat rest).map fun q => (l ++ q.1, q.2) := by
  induction l with
  | nil =>
    simp only [List.nil_append]
    cases splitFirst pat rest with
    | none => rfl
    | some q => rfl
  | cons a t ih =>
    have hca : c ≠ a := fun hc => hl (hc ▸ List.mem_cons_self a t)
    have hlt : c ∉ t := fun hm => hl (List.mem_cons_of_mem a hm)
    rw [List.cons_append, splitFirst_cons_of_neg (isPrefixOf_head_ne hp hca), ih hlt]
    cases splitFirst pat rest with
    | none => rfl
    | some q => rfl

theorem splitFirst_cons_of_pos {pat : List Char} {a : Char} {l : List Char}
    (h : pat.isPrefixOf (a :: l) = true) :
    splitFirst pat (a :: l) = some ([], (a :: l).drop pat.length) := by
  simp only [splitFirst, h, if_true]

theorem splitFirst_self_append (pat B : List Char) (h : pat ≠ []) :
    splitFirst pat (pat ++ B) = some ([], B) := by
  cases pat with
  | nil => cases h rfl
  | cons p pt =>
    have hpre : (p :: pt).isPrefixOf (p :: (pt ++ B)) = true :=
      List.isPrefixOf_iff_prefix.mpr (by
        rw [← List.cons_append]
        exact List.prefix_append _ _)
    rw [List.cons_append, splitFirst_cons_of_pos hpre, ← List.cons_append,
      List.drop_left]

/-- A closing fence cannot start inside lines that are newline free, nonempty
and do not start with a dash: the first `\n---` occurrence after the opening
fence is the real closing fence. -/
theorem splitFirst_fence (L : List (List Char)) (B : List Char)
    (hne : L ≠ [])
    (h : ∀ l ∈ L, '\n' ∉ l ∧ l ≠ [] ∧ l.head? ≠ some '-') :
    splitFirst "\n---".data (joinLines L ++ ("\n---".data ++ B)) =
      some (joinLines L, B) := by
  induction L with
  | nil => cases hne rfl
  | cons l rest ih =>
    obtain ⟨hnl, hlne, hlh⟩ := h l (List.mem_cons_self _ _)
    have hp : "\n---".data.head? = some '\n' := rfl
    cases rest with
    | nil =>
      rw [show joinLines [l] = l from by simp [joinLines]]
      rw [splitFirst_append_avoid l hp hnl,
        splitFirst_self_append _ _ (by decide)]
      simp
    | cons m rest' =>
      obtain ⟨hmnl, hmne, hmh⟩ := h m (List.mem_cons_of_mem _ (List.mem_cons_self _ _))
      obtain ⟨c, m', rfl⟩ : ∃ c m', m = c :: m' := by
        cases m with
        | nil => cases hmne rfl
        | cons c m' => exact ⟨c, m', rfl⟩
      have hc : c ≠ '-' := by
        intro hcc
        exact hmh (by rw [hcc]; rfl)
      rw [joinLines_cons_cons, List.append_assoc, List.cons_append]
      rw [splitFirst_append_avoid l hp hnl]
      have hJ : joinLines ((c :: m') :: rest') =
          (c :: m') ++ (rest'.map fun x => '\n' :: x).flatten := by
        simp [joinLines]
      have hnp : List.isPrefixOf "\n---".data
          ('\n' :: (joinLines ((c :: m') :: rest') ++ ("\n---".data ++ B))) = false := by
        rw [hJ, List.cons_append]
        show List.isPrefixOf ['\n', '-', '-', '-'] ('\n' :: c :: _) = false
        simp only [List.isPrefixOf]
        simp [List.isPrefixOf]
        intro hcc
        exact absurd hcc.symm hc
      rw [splitFirst_cons_of_neg hnp]
      rw [ih (by simp) (fun x hx => h x (List.mem_cons_of_mem _ hx))]
      simp [joinLines_cons_cons]

theorem fmSplit_structured (L : List (List Char)) (tail : List Char)
    (hne : L ≠ [])
    (h : ∀ l ∈ L, '\n' ∉ l ∧ l ≠ [] ∧ l.head? ≠ some '-') :
    fmSplit ("---\n".data ++ (joinLines L ++ ("\n---".data ++ tail))) =
      some (joinLines L, tail) := by
  unfold fmSplit
  rw [if_pos (List.isPrefixOf_iff_prefix.mpr (List.prefix_append _ _))]
  rw [show (4 : ℕ) = "---\n".data.length from rfl, List.drop_left]
  exact splitFirst_fence L tail hne h

theorem splitNl_no_nl (l : List Char) (h : '\n' ∉ l) : splitNl l = [l] := by
  induction l with
  | nil => rfl
  | cons c rest ih =>
    have hc : c ≠ '\n' := fun hcc => h (hcc ▸ List.mem_cons_self _ _)
    have ht : '\n' ∉ rest := fun hm => h (List.mem_cons_of_mem _ hm)
    simp only [splitNl, if_neg hc, ih ht]

theorem splitNl_append_nl (l X : List Char) (h : '\n' ∉ l) :
    splitNl (l ++ '\n' :: X) = l :: splitNl X := by
  induction l with
  | nil => simp [splitNl]
  | cons c t ih =>
    have hc : c ≠ '\n' := fun hcc => h (hcc ▸ List.mem_cons_self _ _)
    have ht : '\n' ∉ t := fun hm => h (List.mem_cons_of_mem _ hm)
    rw [List.cons_append]
    simp only [splitNl, if_neg hc, ih ht]

theorem splitNl_joinLines (L : List (List Char)) (hne : L ≠ [])
    (h : ∀ l ∈ L, '\n' ∉ l) : splitNl (joinLines L) = L := by
  induction L with
  | nil => cases hne rfl
  | cons l rest ih =>
    cases rest with
    | nil =>
      rw [show joinLines [l] = l from by simp [joinLines]]
      exact splitNl_no_nl l (h l (List.mem_cons_self _ _))
    | cons m rest' =>
      rw [joinLines_cons_cons, splitNl_append_nl _ _ (h l (List.mem_cons_self _ _))]
      rw [ih (by simp) (fun x hx => h x (List.mem_cons_of_mem _ hx))]

theorem extractFrontmatterData_structured (L : List (List Char)) (tail : List Char)
    (hne : L ≠ [])
    (h : ∀ l ∈ L, '\n' ∉ l ∧ l ≠ [] ∧ l.head? ≠ some '-') :
    extractFrontmatterData
      (String.mk ("---\n".data ++ (joinLines L ++ ("\n---".data ++ tail)))) =
      L.foldl parseFmLine [] := by
  unfold extractFrontmatterData
  rw [show (String.mk ("---\n".data ++ (joinLines L ++ ("\n---".data ++ tail)))).data =
    "---\n".data ++ (joinLines L ++ ("\n---".data ++ tail)) from rfl]
  rw [fmSplit_structured L tail hne h]
  show List.foldl parseFmLine [] (splitNl (joinLines L)) = _
  rw [splitNl_joinLines L hne (fun l hl => (h l hl).1)]

/-- Characters allowed in safe keys are not whitespace and differ from every
delimiter the frontmatter machinery is sensitive to. -/
theorem keyChar_props {c : Char} (h : (isAsciiAlphanum c || c = '_') = true) :
    isJsSpace c = false ∧ c ≠ ':' ∧ c ≠ '\n' ∧ c ≠ '-' ∧ c ≠ '"' := by
  have hb : (48 ≤ c.toNat ∧ c.toNat ≤ 57) ∨ (65 ≤ c.toNat ∧ c.toNat ≤ 90) ∨
      (97 ≤ c.toNat ∧ c.toNat ≤ 122) ∨ c.toNat = 95 := by
    simp only [Bool.or_eq_true, decide_eq_true_eq, isAsciiAlphanum,
      Bool.and_eq_true] at h
    have e1 : ('a' : Char).toNat = 97 := rfl
    have e2 : ('z' : Char).toNat = 122 := rfl
    have e3 : ('A' : Char).toNat = 65 := rfl
    have e4 : ('Z' : Char).toNat = 90 := rfl
    have e5 : ('0' : Char).toNat = 48 := rfl
    have e6 : ('9' : Char).toNat = 57 := rfl
    rcases h with ((⟨h1, h2⟩ | ⟨h1, h2⟩) | ⟨h1, h2⟩) | h
    · rw [char_le_iff_toNat] at h1 h2
      omega
    · rw [char_le_iff_toNat] at h1 h2
      omega
    · rw [char_le_iff_toNat] at h1 h2
      omega
    · subst h
      right; right; right; rfl
  have key : ∀ n, (48 ≤ n ∧ n ≤ 57) ∨ (65 ≤ n ∧ n ≤ 90) ∨
      (97 ≤ n ∧ n ≤ 122) ∨ n = 95 →
      isJsSpace (Char.ofNat n) = false ∧ Char.ofNat n ≠ ':' ∧
        Char.ofNat n ≠ '\n' ∧ Char.ofNat n ≠ '-' ∧ Char.ofNat n ≠ '"' := by
    intro n hn
    rcases hn with ⟨h1, h2⟩ | ⟨h1, h2⟩ | ⟨h1, h2⟩ | h
    · interval_cases n <;> exact (by decide)
    · interval_cases n <;> exact (by decide)
    · interval_cases n <;> exact (by decide)
    · subst h; exact (by decide)
  have := key c.toNat hb
  rwa [Char.ofNat_toNat] at this

/-- The escape map of quoteIfNeeded is the identity on quote free values. -/
theorem quote_escape_id (l : List Char) (h : '"' ∉ l) :
    (l.map fun c => if c = '"' then ['\\', '"'] else [c]).flatten = l := by
  induction l with
  | nil => rfl
  | cons c rest ih =>
    have hc : c ≠ '"' := fun hcc => h (hcc ▸ List.mem_cons_self _ _)
    have ht : '"' ∉ rest := fun hm => h (List.mem_cons_of_mem _ hm)
    rw [List.map_cons, List.flatten_cons, if_neg hc, ih ht]
    rfl

theorem fmLine_data (k v : String) :
    (fmLine (k, v)).data = k.data ++ ':' :: ' ' :: (quoteIfNeeded v).data := by
  show ((k ++ ": ") ++ quoteIfNeeded v).data =
    k.data ++ ':' :: ' ' :: (quoteIfNeeded v).data
  rw [String.data_append, String.data_append, List.append_assoc]
  rfl

/-- Unpacked form of safeFieldValue. -/
theorem safeFieldValue_props {v : String} (hv : safeFieldValue v = true) :
    v.data ≠ [] ∧ (∀ c ∈ v.data, c ≠ '"' ∧ c ≠ Char.ofNat 39 ∧ c ≠ '\n') ∧
      (∀ c, v.data.head? = some c → isJsSpace c = false) ∧
      (∀ c, v.data.getLast? = some c → isJsSpace c = false) := by
  unfold safeFieldValue at hv
  simp only [Bool.and_eq_true, decide_eq_true_eq, List.all_eq_true,
    Bool.not_eq_true', Bool.or_eq_false_iff] at hv
  obtain ⟨⟨⟨hne, hall⟩, hh⟩, hl⟩ := hv
  refine ⟨hne, ?_, ?_, ?_⟩
  · intro c hc
    obtain ⟨⟨h1, h2⟩, h3⟩ := hall c hc
    exact ⟨by simpa using h1, by simpa using h2, by simpa using h3⟩
  · intro c hc
    have : v.data.headD ' ' = c := by rw [List.headD_eq_head?, hc]; rfl
    rwa [this] at hh
  · intro c hc
    have : v.data.getLastD ' ' = c := by rw [List.getLastD_eq_getLast?, hc]; rfl
    rwa [this] at hl

/-- Unpacked form of safeKey. -/
theorem safeKey_props {k : String} (hk : safeKey k = true) :
    k ≠ "" ∧ ∀ c ∈ k.data,
      isJsSpace c = false ∧ c ≠ ':' ∧ c ≠ '\n' ∧ c ≠ '-' ∧ c ≠ '"' := by
  unfold safeKey at hk
  simp only [Bool.and_eq_true, decide_eq_true_eq, List.all_eq_true] at hk
  exact ⟨hk.1, fun c hc => keyChar_props (hk.2 c hc)⟩

theorem stripEdgeQuotes_quoted (l : List Char) :
    stripEdgeQuotes ('"' :: l ++ ['"']) = l := by
  simp [stripEdgeQuotes, List.getLast?_concat]

theorem stripEdgeQuotes_bare (l : List Char) (h1 : l.head? ≠ some '"')
    (h2 : l.getLast? ≠ some '"') : stripEdgeQuotes l = l := by
  simp only [stripEdgeQuotes, if_neg h1, if_neg h2]

/-- The quoteIfNeeded output of a safe value: newline free, and its trim and
edge quote strip recover the value. -/
theorem quoteIfNeeded_safe (v : String) (hv : safeFieldValue v = true) :
    ('\n' ∉ (quoteIfNeeded v).data) ∧
      stripEdgeQuotes (jsTrimList (quoteIfNeeded v).data) = v.data := by
  obtain ⟨hne, hall, hh, hl⟩ := safeFieldValue_props hv
  have hnq : '"' ∉ v.data := fun hm => (hall _ hm).1 rfl
  unfold quoteIfNeeded
  by_cases hq : v.data.any (fun c => c = '\n' || c = '"' || c = Char.ofNat 39 || c = ':') = true
  · rw [if_pos hq]
    rw [show (String.mk ('"' :: (v.data.map fun c =>
        if c = '"' then ['\\', '"'] else [c]).flatten ++ ['"'])).data =
      '"' :: (v.data.map fun c =>
        if c = '"' then ['\\', '"'] else [c]).flatten ++ ['"'] from rfl]
    rw [quote_escape_id _ hnq]
    constructor
    · intro hm
      rcases List.mem_cons.mp hm with hm | hm
      · exact absurd hm (by decide)
      · rcases List.mem_append.mp hm with hm | hm
        · exact (hall _ hm).2.2 rfl
        · simp at hm
    · have htr : jsTrimList ('"' :: v.data ++ ['"']) = '"' :: v.data ++ ['"'] := by
        apply jsTrimList_eq_self
        · intro c hc
          simp only [List.cons_append, List.head?_cons, Option.some.injEq] at hc
          subst hc
          decide
        · intro c hc
          rw [show ('"' :: v.data ++ ['"']) = ('"' :: v.data) ++ ['"'] from rfl,
            List.getLast?_concat] at hc
          simp only [Option.some.injEq] at hc
          subst hc
          decide
      rw [htr, stripEdgeQuotes_quoted]
  · rw [if_neg hq]
    refine ⟨fun hm => (hall _ hm).2.2 rfl, ?_⟩
    have htr : jsTrimList v.data = v.data := jsTrimList_eq_self _ hh hl
    rw [htr]
    have hhq : v.data.head? ≠ some '"' := by
      intro hc
      exact hnq (List.mem_of_mem_head? (hc ▸ Option.mem_def.mpr rfl))
    have hlq : v.data.getLast? ≠ some '"' := by
      intro hc
      exact hnq (List.mem_of_mem_getLast? (hc ▸ Option.mem_def.mpr rfl))
    exact stripEdgeQuotes_bare _ hhq hlq

/-- Serialized field lines of safe fields are acceptable frontmatter lines:
newline free, nonempty, not starting with a dash. -/
theorem fmLine_safe (k v : String) (hk : safeKey k = true)
    (hv : safeFieldValue v = true) :
    '\n' ∉ (fmLine (k, v)).data ∧ (fmLine (k, v)).data ≠ [] ∧
      (fmLine (k, v)).data.head? ≠ some '-' := by
  obtain ⟨hkne, hkall⟩ := safeKey_props hk
  have hkd : k.data ≠ [] := fun hd => hkne (by
    have hk2 : k = String.mk k.data := rfl
    rw [hk2, hd])
  rw [fmLine_data]
  refine ⟨?_, ?_, ?_⟩
  · intro hm
    rcases List.mem_append.mp hm with hm | hm
    · exact (hkall _ hm).2.2.1 rfl
    · rcases List.mem_cons.mp hm with hm | hm
      · exact absurd hm (by decide)
      · rcases List.mem_cons.mp hm with hm | hm
        · exact absurd hm (by decide)
        · exact (quoteIfNeeded_safe v hv).1 hm
  · intro hd
    rw [List.append_eq_nil] at hd
    cases hd.2
  · cases hcd : k.data with
    | nil => cases hkd hcd
    | cons c rest =>
      rw [List.cons_append, List.head?_cons]
      intro hc
      simp only [Option.some.injEq] at hc
      subst hc
      exact (hkall _ (by rw [hcd]; exact List.mem_cons_self _ _)).2.2.2.1 rfl

theorem parseFmLine_fmLine (data : List (String × String)) (k v : String)
    (hk : safeKey k = true) (hv : safeFieldValue v = true) :
    parseFmLine data (fmLine (k, v)).data = setAssoc data k v := by
  obtain ⟨hkne, hkall⟩ := safeKey_props hk
  have hcol : ':' ∉ k.data := fun hm => (hkall _ hm).2.1 rfl
  rw [fmLine_data]
  have hp : ([':'] : List Char).head? = some ':' := rfl
  have hsf : splitFirst [':'] (k.data ++ ':' :: ' ' :: (quoteIfNeeded v).data) =
      some (k.data, ' ' :: (quoteIfNeeded v).data) := by
    rw [splitFirst_append_avoid k.data hp hcol]
    rw [show (':' :: ' ' :: (quoteIfNeeded v).data) =
      [':'] ++ (' ' :: (quoteIfNeeded v).data) from rfl]
    rw [splitFirst_self_append _ _ (by decide)]
    simp
  unfold parseFmLine
  rw [hsf]
  have htk : jsTrimList k.data = k.data := by
    apply jsTrimList_eq_self
    · intro c hc
      exact (hkall _ (List.mem_of_mem_head? (hc ▸ Option.mem_def.mpr rfl))).1
    · intro c hc
      exact (hkall _ (List.mem_of_mem_getLast? (hc ▸ Option.mem_def.mpr rfl))).1
  show (if String.mk (jsTrimList k.data) = "" then data
    else setAssoc data (String.mk (jsTrimList k.data))
      (String.mk (stripEdgeQuotes (jsTrimList (' ' :: (quoteIfNeeded v).data))))) = _
  rw [htk, jsTrimList_cons_space, (quoteIfNeeded_safe v hv).2]
  rw [show String.mk k.data = k from rfl, show String.mk v.data = v from rfl]
  rw [if_neg hkne]

theorem setAssoc_not_mem (l : List (String × String)) (k v : String)
    (h : k ∉ l.map Prod.fst) : setAssoc l k v = l ++ [(k, v)] := by
  induction l with
  | nil => rfl
  | cons p rest ih =>
    obtain ⟨k', v'⟩ := p
    have hne : ¬(k' = k) := fun he => h (List.mem_cons.mpr (Or.inl he.symm))
    have ht : k ∉ rest.map Prod.fst := fun hm => h (List.mem_cons_of_mem _ hm)
    show (if k' = k then (k, v) :: rest else (k', v') :: setAssoc rest k v) = _
    rw [if_neg hne, ih ht]
    rfl

theorem foldl_parseFmLine_fmLines (fields : List (String × String))
    (hk : ∀ p ∈ fields, safeKey p.1 = true)
    (hv : ∀ p ∈ fields, safeFieldValue p.2 = true)
    (hnd : (fields.map Prod.fst).Nodup) :
    ∀ acc, (∀ p ∈ fields, p.1 ∉ acc.map Prod.fst) →
      ((fields.map fun p => (fmLine p).data).foldl parseFmLine acc) = acc ++ fields := by
  induction fields with
  | nil => intro acc _; simp
  | cons p rest ih =>
    intro acc hacc
    rw [List.map_cons, List.foldl_cons]
    have hp : parseFmLine acc (fmLine p).data = setAssoc acc p.1 p.2 :=
      parseFmLine_fmLine acc p.1 p.2 (hk p (List.mem_cons_self _ _))
        (hv p (List.mem_cons_self _ _))
    rw [hp, setAssoc_not_mem _ _ _ (hacc p (List.mem_cons_self _ _))]
    have hnd' : (rest.map Prod.fst).Nodup := (List.nodup_cons.mp hnd).2
    have hpni : p.1 ∉ rest.map Prod.fst := (List.nodup_cons.mp hnd).1
    rw [ih (fun q hq => hk q (List.mem_cons_of_mem _ hq))
      (fun q hq => hv q (List.mem_cons_of_mem _ hq)) hnd'
      (acc ++ [(p.1, p.2)]) ?side]
    case side =>
      intro q hq
      rw [List.map_append]
      intro hmem
      rcases List.mem_append.mp hmem with hm | hm
      · exact hacc q (List.mem_cons_of_mem _ hq) hm
      · simp only [List.map_cons, List.map_nil, List.mem_cons,
          List.not_mem_nil, or_false] at hm
        exact hpni (hm ▸ List.mem_map.mpr ⟨q, hq, rfl⟩)
    rw [List.append_assoc]
    rfl

/-- Parsing a structured frontmatter document of safe fields recovers exactly
the field list. -/
theorem extractFrontmatterData_mkContent (fields : List (String × String))
    (tail : String) (hne : fields ≠ [])
    (hk : ∀ p ∈ fields, safeKey p.1 = true)
    (hv : ∀ p ∈ fields, safeFieldValue p.2 = true)
    (hnd : (fields.map Prod.fst).Nodup) :
    extractFrontmatterData (mkContent fields tail) = fields := by
  have hL : (fields.map fun p => (fmLine p).data) ≠ [] := by simp [hne]
  have hsafe : ∀ l ∈ (fields.map fun p => (fmLine p).data),
      '\n' ∉ l ∧ l ≠ [] ∧ l.head? ≠ some '-' := by
    intro l hl
    obtain ⟨p, hp, rfl⟩ := List.mem_map.mp hl
    exact fmLine_safe p.1 p.2 (hk p hp) (hv p hp)
  have hshape : mkContent fields tail =
      String.mk ("---\n".data ++ ((joinLines (fields.map fun p => (fmLine p).data)) ++
        ("\n---".data ++ tail.data))) := by
    unfold mkContent
    rw [List.append_assoc, List.append_assoc]
  rw [hshape, extractFrontmatterData_structured _ _ hL hsafe]
  exact foldl_parseFmLine_fmLines fields hk hv hnd [] (by simp)

/- ### Field regex computation lemmas -/

theorem takeWhile_append_all (p : Char → Bool) (w y : List Char)
    (hw : ∀ c ∈ w, p c = true) (hy : ∀ c, y.head? = some c → p c = false) :
    (w ++ y).takeWhile p = w := by
  rw [List.takeWhile_append, List.takeWhile_eq_self_iff.mpr hw, if_pos rfl]
  cases y with
  | nil => simp
  | cons c rest =>
    rw [List.takeWhile_cons_of_neg (by simp [hy c rfl])]
    simp

theorem fieldTryQuote_val (keyLen wn q : ℕ) (w y : List Char) (hw : w ≠ [])
    (hwb : ∀ c ∈ w, isFieldBodyChar c = true)
    (hy : ∀ c, y.head? = some c → isFieldBodyChar c = false) :
    fieldTryQuote keyLen wn q (w ++ y) =
      some (keyLen + wn + q + w.length +
        (if y.head? = some '"' ∨ y.head? = some (Char.ofNat 39) then 1 else 0), w) := by
  have e3 : (w ++ y).takeWhile isFieldBodyChar = w := takeWhile_append_all _ _ _ hwb hy
  have hwl : ¬(w.length = 0) := by simpa [List.length_eq_zero] using hw
  unfold fieldTryQuote
  rw [e3, if_neg hwl, List.drop_left, List.take_left]

theorem fieldMatchAt_line_quoted (key w rest0 : List Char) (hw : w ≠ [])
    (hwb : ∀ c ∈ w, isFieldBodyChar c = true) :
    fieldMatchAt ['"'] key (key ++ ' ' :: '"' :: (w ++ '"' :: rest0)) =
      some (key.length + 1 + 1 + w.length + 1, w) := by
  have h1 : key.isPrefixOf (key ++ ' ' :: '"' :: (w ++ '"' :: rest0)) = true :=
    List.isPrefixOf_iff_prefix.mpr (List.prefix_append _ _)
  have e1 : (key ++ ' ' :: '"' :: (w ++ '"' :: rest0)).drop key.length =
      ' ' :: '"' :: (w ++ '"' :: rest0) := List.drop_left _ _
  have e2 : ((' ' :: '"' :: (w ++ '"' :: rest0)).takeWhile isJsSpace) = [' '] := by
    rw [List.takeWhile_cons_of_pos (by decide), List.takeWhile_cons_of_neg (by decide)]
  have hA0 : fieldAtWs ['"'] key.length 1 (' ' :: '"' :: (w ++ '"' :: rest0)) =
      some (key.length + 1 + 1 + w.length + 1, w) := by
    show ((fieldTryQuote key.length 1 1 (('"' :: (w ++ '"' :: rest0)).drop 1)).orElse
        fun _ => fieldTryQuote key.length 1 0 ('"' :: (w ++ '"' :: rest0))) =
      some (key.length + 1 + 1 + w.length + 1, w)
    rw [show ('"' :: (w ++ '"' :: rest0)).drop 1 = w ++ '"' :: rest0 from rfl]
    rw [fieldTryQuote_val key.length 1 1 w ('"' :: rest0) hw hwb
      (fun c hc => by
        simp only [List.head?_cons, Option.some.injEq] at hc
        subst hc
        decide)]
    rw [if_pos (show ('"' :: rest0).head? = some '"' ∨
      ('"' :: rest0).head? = some (Char.ofNat 39) from Or.inl rfl)]
    rfl
  unfold fieldMatchAt
  rw [if_pos h1, e1, e2]
  rw [show ([' '] : List Char).length = 1 from rfl]
  rw [show List.range (1 + 1) = [0, 1] from by decide]
  rw [List.findSome?_cons]
  rw [show (1 : ℕ) - 0 = 1 from rfl, hA0]

theorem fieldMatchAt_line_unquoted (key w rest0 : List Char) (hw : w ≠ [])
    (hwb : ∀ c ∈ w, isFieldBodyChar c = true)
    (hwh : ∀ c, w.head? = some c → isJsSpace c = false ∧ c ≠ '"')
    (hr : rest0.head? = some '\n') :
    fieldMatchAt ['"'] key (key ++ ' ' :: (w ++ rest0)) =
      some (key.length + 1 + 0 + w.length + 0, w) := by
  obtain ⟨c0, w', rfl⟩ : ∃ c0 w', w = c0 :: w' := by
    cases w with
    | nil => cases hw rfl
    | cons c0 w' => exact ⟨c0, w', rfl⟩
  obtain ⟨hc0ws, hc0q⟩ := hwh c0 rfl
  have h1 : key.isPrefixOf (key ++ ' ' :: (c0 :: w' ++ rest0)) = true :=
    List.isPrefixOf_iff_prefix.mpr (List.prefix_append _ _)
  have e1 : (key ++ ' ' :: (c0 :: w' ++ rest0)).drop key.length =
      ' ' :: (c0 :: w' ++ rest0) := List.drop_left _ _
  have e2 : ((' ' :: (c0 :: w' ++ rest0)).takeWhile isJsSpace) = [' '] := by
    rw [List.takeWhile_cons_of_pos (by decide), List.cons_append,
      List.takeWhile_cons_of_neg (by simp [hc0ws])]
  have htq : fieldTryQuote key.length 1 0 (c0 :: (w' ++ rest0)) =
      some (key.length + 1 + 0 + (c0 :: w').length + 0, c0 :: w') := by
    rw [show (c0 :: (w' ++ rest0)) = (c0 :: w') ++ rest0 from rfl]
    rw [fieldTryQuote_val key.length 1 0 (c0 :: w') rest0 (by simp) hwb
      (fun c hc => by
        rw [hr] at hc
        simp only [Option.some.injEq] at hc
        subst hc
        decide)]
    rw [hr, if_neg (by decide)]
  have hA0 : fieldAtWs ['"'] key.length 1 (' ' :: (c0 :: w' ++ rest0)) =
      some (key.length + 1 + 0 + (c0 :: w').length + 0, c0 :: w') := by
    show (if c0 ∈ ['"'] then
        (fieldTryQuote key.length 1 1 ((c0 :: (w' ++ rest0)).drop 1)).orElse
          fun _ => fieldTryQuote key.length 1 0 (c0 :: (w' ++ rest0))
      else fieldTryQuote key.length 1 0 (c0 :: (w' ++ rest0))) =
      some (key.length + 1 + 0 + (c0 :: w').length + 0, c0 :: w')
    rw [if_neg (by simp [hc0q])]
    exact htq
  unfold fieldMatchAt
  rw [if_pos h1, e1, e2]
  rw [show ([' '] : List Char).length = 1 from rfl]
  rw [show List.range (1 + 1) = [0, 1] from by decide]
  rw [List.findSome?_cons]
  rw [show (1 : ℕ) - 0 = 1 from rfl, hA0]

theorem fieldMatchAt_none {leads key cs : List Char}
    (h : key.isPrefixOf cs = false) : fieldMatchAt leads key cs = none := by
  unfold fieldMatchAt
  rw [h]
  rfl

theorem fieldFind_of_match {leads key cs : List Char} {len : ℕ} {g : List Char}
    (h : fieldMatchAt leads key cs = some (len, g)) :
    fieldFind leads key cs = some ([], len, g) := by
  cases cs with
  | nil =>
    unfold fieldFind
    rw [h]
    rfl
  | cons c l =>
    unfold fieldFind
    rw [h]

theorem fieldFind_append (leads key : List Char) (l rest : List Char)
    (h : ∀ i < l.length, key.isPrefixOf ((l ++ rest).drop i) = false) :
    fieldFind leads key (l ++ rest) =
      (fieldFind leads key rest).map fun q => (l ++ q.1, q.2) := by
  induction l with
  | nil =>
    cases hf : fieldFind leads key rest with
    | none => simp [hf]
    | some q => simp [hf]
  | cons a t ih =>
    have h0 : key.isPrefixOf (a :: (t ++ rest)) = false := by
      have := h 0 (by simp)
      simpa using this
    have hm : fieldMatchAt leads key (a :: (t ++ rest)) = none := fieldMatchAt_none h0
    have ht : ∀ i < t.length, key.isPrefixOf ((t ++ rest).drop i) = false := by
      intro i hi
      have := h (i + 1) (by simp; omega)
      simpa using this
    have hstep : fieldFind leads key (a :: (t ++ rest)) =
        (match fieldFind leads key (t ++ rest) with
          | some (pre, len, g) => some (a :: pre, len, g)
          | none => none) := by
      show (match fieldMatchAt leads key (a :: (t ++ rest)) with
        | some (len, g) => some (([] : List Char), len, g)
        | none =>
          match fieldFind leads key (t ++ rest) with
          | some (pre, len, g) => some (a :: pre, len, g)
          | none => none) =
        (match fieldFind leads key (t ++ rest) with
          | some (pre, len, g) => some (a :: pre, len, g)
          | none => none)
      rw [hm]
    rw [List.cons_append, hstep, ih ht]
    cases fieldFind leads key rest with
    | none => rfl
    | some q => rfl

/- ### Locating the watermark line -/

/-- Lines each followed by a newline. -/
def linesWithNl (L : List (List Char)) : List Char :=
  (L.map fun l => l ++ ['\n']).flatten

theorem linesWithNl_cons (l : List Char) (L : List (List Char)) :
    linesWithNl (l :: L) = l ++ '\n' :: linesWithNl L := by
  simp [linesWithNl]

theorem linesWithNl_append (A B : List (List Char)) :
    linesWithNl (A ++ B) = linesWithNl A ++ linesWithNl B := by
  simp [linesWithNl]

theorem linesWithNl_eq_joinLines (L : List (List Char)) (h : L ≠ []) :
    linesWithNl L = joinLines L ++ ['\n'] := by
  induction L with
  | nil => cases h rfl
  | cons l rest ih =>
    cases rest with
    | nil => simp [linesWithNl, joinLines]
    | cons m rest' =>
      rw [linesWithNl_cons, ih (by simp), joinLines_cons_cons]
      simp

theorem containsSub_of_prefix_drop {key l : List Char} (hkne : key ≠ []) (i : ℕ)
    (h : key.isPrefixOf (l.drop i) = true) : containsSub key l = true := by
  induction l generalizing i with
  | nil =>
    rw [List.drop_nil] at h
    cases key with
    | nil => cases hkne rfl
    | cons p pt => cases h
  | cons c rest ih =>
    cases i with
    | zero =>
      rw [List.drop_zero] at h
      simp only [containsSub, Bool.or_eq_true]
      exact Or.inl h
    | succ j =>
      rw [List.drop_succ_cons] at h
      simp only [containsSub, Bool.or_eq_true]
      exact Or.inr (ih j h)

/-- No occurrence of a newline free pattern can start inside a block of lines
that do not contain it. -/
theorem no_key_prefix_in_lines (key : List Char) (hknl : '\n' ∉ key)
    (hkne : key ≠ []) (L : List (List Char))
    (hL : ∀ l ∈ L, containsSub key l = false) (rest : List Char) :
    ∀ i < (linesWithNl L).length,
      key.isPrefixOf ((linesWithNl L ++ rest).drop i) = false := by
  induction L generalizing rest with
  | nil =>
    intro i hi
    simp [linesWithNl] at hi
  | cons l L' ih =>
    intro i hi
    rw [linesWithNl_cons] at hi ⊢
    rw [List.append_assoc, List.cons_append]
    by_cases hc : i ≤ l.length
    · rw [List.drop_append_of_le_length hc]
      by_contra hp
      rw [Bool.not_eq_false] at hp
      have hpre := List.isPrefixOf_iff_prefix.mp hp
      have hkl : key <+: l.drop i := prefix_avoid hknl hpre
      have : containsSub key l = true :=
        containsSub_of_prefix_drop hkne i (List.isPrefixOf_iff_prefix.mpr hkl)
      rw [hL l (List.mem_cons_self _ _)] at this
      cases this
    · push_neg at hc
      have hi2 : i - (l.length + 1) < (linesWithNl L').length := by
        rw [List.length_append] at hi
        simp only [List.length_cons] at hi
        omega
      have hdrop : (l ++ '\n' :: (linesWithNl L' ++ rest)).drop i =
          (linesWithNl L' ++ rest).drop (i - (l.length + 1)) := by
        rw [List.drop_append_eq_append_drop]
        rw [List.drop_of_length_le (by omega)]
        rw [List.nil_append]
        rw [show i - l.length = (i - (l.length + 1)) + 1 from by omega]
        rw [List.drop_succ_cons]
      rw [hdrop]
      exact ih (fun x hx => hL x (List.mem_cons_of_mem _ hx)) rest _ hi2

/-- Parsing the replacement line `last_edited_time: "V"` recovers V. -/
theorem parseFmLine_forcedQuote (acc : List (String × String)) (V : String) :
    parseFmLine acc ("last_edited_time: \"".data ++ V.data ++ ['"']) =
      setAssoc acc "last_edited_time" V := by
  have hshape : "last_edited_time: \"".data ++ V.data ++ ['"'] =
      "last_edited_time".data ++ ':' :: ' ' :: ('"' :: (V.data ++ ['"'])) := by
    rw [List.append_assoc]
    rfl
  rw [hshape]
  have hcol : ':' ∉ "last_edited_time".data := by decide
  have hp : ([':'] : List Char).head? = some ':' := rfl
  have hsf : splitFirst [':']
      ("last_edited_time".data ++ ':' :: ' ' :: ('"' :: (V.data ++ ['"']))) =
      some ("last_edited_time".data, ' ' :: ('"' :: (V.data ++ ['"']))) := by
    rw [splitFirst_append_avoid _ hp hcol]
    rw [show (':' :: ' ' :: ('"' :: (V.data ++ ['"']))) =
      [':'] ++ (' ' :: ('"' :: (V.data ++ ['"']))) from rfl]
    rw [splitFirst_self_append _ _ (by decide)]
    simp
  unfold parseFmLine
  rw [hsf]
  show (if String.mk (jsTrimList "last_edited_time".data) = "" then acc
    else setAssoc acc (String.mk (jsTrimList "last_edited_time".data))
      (String.mk (stripEdgeQuotes
        (jsTrimList (' ' :: ('"' :: (V.data ++ ['"'])))))) ) = _
  rw [jsTrimList_cons_space]
  have htr : jsTrimList ('"' :: (V.data ++ ['"'])) = '"' :: (V.data ++ ['"']) := by
    apply jsTrimList_eq_self
    · intro c hc
      simp only [List.head?_cons, Option.some.injEq] at hc
      subst hc
      decide
    · intro c hc
      rw [show ('"' :: (V.data ++ ['"'])) = ('"' :: V.data) ++ ['"'] from rfl,
        List.getLast?_concat] at hc
      simp only [Option.some.injEq] at hc
      subst hc
      decide
  rw [htr]
  rw [show jsTrimList "last_edited_time".data = "last_edited_time".data from by decide]
  rw [show ('"' :: (V.data ++ ['"'])) = '"' :: V.data ++ ['"'] from rfl,
    stripEdgeQuotes_quoted]
  rw [show String.mk "last_edited_time".data = "last_edited_time" from rfl,
    show String.mk V.data = V from rfl]
  rw [if_neg (by decide)]

/-- The replacement line is an acceptable frontmatter line. -/
theorem forcedQuote_line_safe (V : String) (hV : safeFieldValue V = true) :
    '\n' ∉ ("last_edited_time: \"".data ++ V.data ++ ['"']) ∧
      ("last_edited_time: \"".data ++ V.data ++ ['"']) ≠ [] ∧
      ("last_edited_time: \"".data ++ V.data ++ ['"']).head? ≠ some '-' := by
  obtain ⟨hne, hall, hh, hl⟩ := safeFieldValue_props hV
  refine ⟨?_, ?_, ?_⟩
  · intro hm
    rcases List.mem_append.mp hm with hm | hm
    · rcases List.mem_append.mp hm with hm | hm
      · exact absurd hm (by decide)
      · exact (hall _ hm).2.2 rfl
    · exact absurd hm (by decide)
  · intro hd
    rw [List.append_eq_nil] at hd
    exact absurd hd.2 (by decide)
  · rw [List.append_assoc, List.head?_append_of_ne_nil _ (by decide)]
    decide

/-- The fold of extractFrontmatter over lines that each behave as a field
update with pairwise distinct keys produces exactly the key value list. -/
theorem foldl_parseFmLine_pairs (pairs : List ((List Char) × String × String))
    (hline : ∀ x ∈ pairs, ∀ acc, parseFmLine acc x.1 = setAssoc acc x.2.1 x.2.2)
    (hnd : (pairs.map fun x => x.2.1).Nodup) :
    ∀ acc, (∀ x ∈ pairs, x.2.1 ∉ acc.map Prod.fst) →
      ((pairs.map fun x => x.1).foldl parseFmLine acc) =
        acc ++ pairs.map fun x => x.2 := by
  induction pairs with
  | nil => intro acc _; simp
  | cons x rest ih =>
    intro acc hacc
    rw [List.map_cons, List.foldl_cons, hline x (List.mem_cons_self _ _) acc]
    rw [setAssoc_not_mem _ _ _ (hacc x (List.mem_cons_self _ _))]
    have hnd' : (rest.map fun y => y.2.1).Nodup := (List.nodup_cons.mp hnd).2
    have hxni : x.2.1 ∉ rest.map fun y => y.2.1 := (List.nodup_cons.mp hnd).1
    rw [ih (fun y hy => hline y (List.mem_cons_of_mem _ hy)) hnd'
      (acc ++ [(x.2.1, x.2.2)]) ?side]
    case side =>
      intro y hy
      rw [List.map_append]
      intro hmem
      rcases List.mem_append.mp hmem with hm | hm
      · exact hacc y (List.mem_cons_of_mem _ hy) hm
      · simp only [List.map_cons, List.map_nil, List.mem_cons, List.not_mem_nil,
          or_false] at hm
        exact hxni (hm ▸ List.mem_map.mpr ⟨y, hy, rfl⟩)
    rw [List.append_assoc]
    rfl

/-- The two shapes quoteIfNeeded can produce on a safe value. -/
theorem quoteIfNeeded_cases (v : String) (hv : safeFieldValue v = true) :
    (quoteIfNeeded v).data = '"' :: (v.data ++ ['"']) ∨
      (quoteIfNeeded v).data = v.data := by
  obtain ⟨hne, hall, hh, hl⟩ := safeFieldValue_props hv
  have hnq : '"' ∉ v.data := fun hm => (hall _ hm).1 rfl
  unfold quoteIfNeeded
  by_cases hq : v.data.any
      (fun c => c = '\n' || c = '"' || c = Char.ofNat 39 || c = ':') = true
  · left
    rw [if_pos hq]
    show ('"' :: (v.data.map fun c =>
      if c = '"' then ['\\', '"'] else [c]).flatten ++ ['"']) = _
    rw [quote_escape_id _ hnq]
    rfl
  · right
    rw [if_neg hq]

/-- The uniform line shape of a structured document. -/
theorem structured_data_eq (L : List (List Char)) (tail : List Char) (h : L ≠ []) :
    "---\n".data ++ (joinLines L ++ ("\n---".data ++ tail)) =
      linesWithNl ("---".data :: L) ++ ("---".data ++ tail) := by
  rw [linesWithNl_cons, linesWithNl_eq_joinLines L h]
  simp

theorem getAssoc_skip (pre rest : List (String × String)) (k : String)
    (h : k ∉ pre.map Prod.fst) : getAssoc (pre ++ rest) k = getAssoc rest k := by
  induction pre with
  | nil => rfl
  | cons p t ih =>
    obtain ⟨k', v'⟩ := p
    have hne : ¬(k' = k) := fun he => h (List.mem_cons.mpr (Or.inl he.symm))
    have ht : k ∉ t.map Prod.fst := fun hm => h (List.mem_cons_of_mem _ hm)
    show (if k' = k then some v' else getAssoc (t ++ rest) k) = _
    rw [if_neg hne, ih ht]

theorem getAssoc_other (pre : List (String × String)) (a b : String × String)
    (suf : List (String × String)) (k : String) (hk : k ≠ a.1) (hab : a.1 = b.1) :
    getAssoc (pre ++ a :: suf) k = getAssoc (pre ++ b :: suf) k := by
  induction pre with
  | nil =>
    obtain ⟨ka, va⟩ := a
    obtain ⟨kb, vb⟩ := b
    simp only at hab hk
    show (if ka = k then some va else getAssoc suf k) =
      (if kb = k then some vb else getAssoc suf k)
    rw [if_neg (fun he => hk (he.symm)), if_neg (fun he => hk (by rw [← hab] at he; exact he.symm))]
  | cons p t ih =>
    obtain ⟨k', v'⟩ := p
    show (if k' = k then some v' else getAssoc (t ++ a :: suf) k) =
      (if k' = k then some v' else getAssoc (t ++ b :: suf) k)
    by_cases hc : k' = k
    · rw [if_pos hc, if_pos hc]
    · rw [if_neg hc, if_neg hc, ih]

/-- The replacement path of setLastEditedTimeInContent, given the located
match. -/
theorem setLE_replace (content1 V : String) (P rest0 g : List Char) (len : ℕ)
    (hlit : containsSub "last_edited_time:".data content1.data = true)
    (hfind : fieldFind ['"'] "last_edited_time:".data content1.data =
      some (P, len, g))
    (hafter : content1.data.drop (P.length + len) = rest0)
    (hVd : '$' ∉ V.data) :
    setLastEditedTimeInContent content1 V =
      String.mk (P ++ ("last_edited_time: \"".data ++ V.data ++ ['"']) ++ rest0) := by
  unfold setLastEditedTimeInContent
  rw [if_pos hlit, hfind]
  show String.mk (P ++ expandDollar ((content1.data.drop P.length).take len) P
      (content1.data.drop (P.length + len)) (some g)
      ("last_edited_time: \"".data ++ V.data ++ ['"']) ++
      content1.data.drop (P.length + len)) = _
  rw [expandDollar_id _ _ _ _ _ ?hd, hafter]
  case hd =>
    intro hm
    rcases List.mem_append.mp hm with hm | hm
    · rcases List.mem_append.mp hm with hm | hm
      · exact absurd hm (by decide)
      · exact hVd hm
    · exact absurd hm (by decide)

/-- Shared tail of the round trip: from the located match at the watermark
line to the parsed field list of the rewritten document. -/
theorem setLE_parse_common (pre suf : List (String × String)) (wv tail V : String)
    (hkpre : ∀ p ∈ pre, safeKey p.1 = true)
    (hvpre : ∀ p ∈ pre, safeFieldValue p.2 = true)
    (hksuf : ∀ p ∈ suf, safeKey p.1 = true)
    (hvsuf : ∀ p ∈ suf, safeFieldValue p.2 = true)
    (hwv : safeFieldValue wv = true)
    (hV : safeFieldValue V = true) (hVd : '$' ∉ V.data)
    (hnd : ((pre ++ ("last_edited_time", wv) :: suf).map Prod.fst).Nodup)
    (hno : ∀ p ∈ pre ++ suf,
      containsSub "last_edited_time:".data (fmLine p).data = false)
    (hdata : (mkContent (pre ++ ("last_edited_time", wv) :: suf) tail).data =
      linesWithNl ("---".data :: pre.map fun p => (fmLine p).data) ++
        ((fmLine ("last_edited_time", wv)).data ++
          ('\n' :: (linesWithNl (suf.map fun p => (fmLine p).data) ++
            ("---".data ++ tail.data)))))
    (hocc : ∀ i < (linesWithNl ("---".data ::
        pre.map fun p => (fmLine p).data)).length,
      List.isPrefixOf "last_edited_time:".data
        ((linesWithNl ("---".data :: pre.map fun p => (fmLine p).data) ++
          ((fmLine ("last_edited_time", wv)).data ++
            ('\n' :: (linesWithNl (suf.map fun p => (fmLine p).data) ++
              ("---".data ++ tail.data))))).drop i) = false)
    (len : ℕ)
    (hmatch : fieldMatchAt ['"'] "last_edited_time:".data
        ((fmLine ("last_edited_time", wv)).data ++
          ('\n' :: (linesWithNl (suf.map fun p => (fmLine p).data) ++
            ("---".data ++ tail.data)))) = some (len, wv.data))
    (hlen : len = (fmLine ("last_edited_time", wv)).data.length) :
    extractFrontmatterData
        (setLastEditedTimeInContent
          (mkContent (pre ++ ("last_edited_time", wv) :: suf) tail) V) =
      pre ++ ("last_edited_time", V) :: suf := by
  have hfind : fieldFind ['"'] "last_edited_time:".data
      (mkContent (pre ++ ("last_edited_time", wv) :: suf) tail).data =
      some (linesWithNl ("---".data :: pre.map fun p => (fmLine p).data),
        len, wv.data) := by
    rw [hdata, fieldFind_append _ _ _ _ hocc, fieldFind_of_match hmatch]
    simp
  have hpre : List.isPrefixOf "last_edited_time:".data
      ((fmLine ("last_edited_time", wv)).data ++
        ('\n' :: (linesWithNl (suf.map fun p => (fmLine p).data) ++
          ("---".data ++ tail.data)))) = true := by
    by_contra hc
    rw [Bool.not_eq_true] at hc
    rw [fieldMatchAt_none hc] at hmatch
    cases hmatch
  have hlit2 : containsSub "last_edited_time:".data
      (mkContent (pre ++ ("last_edited_time", wv) :: suf) tail).data = true := by
    rw [hdata]
    refine containsSub_of_suffix
      ⟨linesWithNl ("---".data :: pre.map fun p => (fmLine p).data), rfl⟩ ?_
    exact containsSub_of_prefix (List.isPrefixOf_iff_prefix.mp hpre) (by decide)
  have hafter : (mkContent (pre ++ ("last_edited_time", wv) :: suf) tail).data.drop
      ((linesWithNl ("---".data :: pre.map fun p => (fmLine p).data)).length + len) =
      '\n' :: (linesWithNl (suf.map fun p => (fmLine p).data) ++
        ("---".data ++ tail.data)) := by
    rw [hdata, List.drop_append, hlen, List.drop_left]
  have henc := setLE_replace
    (mkContent (pre ++ ("last_edited_time", wv) :: suf) tail) V
    (linesWithNl ("---".data :: pre.map fun p => (fmLine p).data))
    ('\n' :: (linesWithNl (suf.map fun p => (fmLine p).data) ++
      ("---".data ++ tail.data)))
    wv.data len hlit2 hfind hafter hVd
  have hL2ne : ((pre.map fun p => (fmLine p).data) ++
      ("last_edited_time: \"".data ++ V.data ++ ['"']) ::
        (suf.map fun p => (fmLine p).data)) ≠ [] := by simp
  have hchain : (linesWithNl ("---".data :: pre.map fun p => (fmLine p).data) ++
      ("last_edited_time: \"".data ++ V.data ++ ['"'])) ++
        ('\n' :: (linesWithNl (suf.map fun p => (fmLine p).data) ++
          ("---".data ++ tail.data))) =
      "---\n".data ++
        (joinLines ((pre.map fun p => (fmLine p).data) ++
          ("last_edited_time: \"".data ++ V.data ++ ['"']) ::
            (suf.map fun p => (fmLine p).data)) ++
          ("\n---".data ++ tail.data)) := by
    rw [structured_data_eq _ tail.data hL2ne]
    rw [show ("---".data :: ((pre.map fun p => (fmLine p).data) ++
        ("last_edited_time: \"".data ++ V.data ++ ['"']) ::
          (suf.map fun p => (fmLine p).data))) =
      ("---".data :: pre.map fun p => (fmLine p).data) ++
        (("last_edited_time: \"".data ++ V.data ++ ['"']) ::
          suf.map fun p => (fmLine p).data) from by simp]
    rw [linesWithNl_append]
    simp [linesWithNl_cons, List.append_assoc]
  have hcontent2 : setLastEditedTimeInContent
      (mkContent (pre ++ ("last_edited_time", wv) :: suf) tail) V =
      String.mk ("---\n".data ++
        (joinLines ((pre.map fun p => (fmLine p).data) ++
          ("last_edited_time: \"".data ++ V.data ++ ['"']) ::
            (suf.map fun p => (fmLine p).data)) ++
          ("\n---".data ++ tail.data))) := by
    rw [henc]
    exact congrArg String.mk hchain
  rw [hcontent2]
  have hsafe2 : ∀ l ∈ ((pre.map fun p => (fmLine p).data) ++
      ("last_edited_time: \"".data ++ V.data ++ ['"']) ::
        (suf.map fun p => (fmLine p).data)),
      '\n' ∉ l ∧ l ≠ [] ∧ l.head? ≠ some '-' := by
    intro l hl
    rcases List.mem_append.mp hl with hl | hl
    · obtain ⟨p, hp, rfl⟩ := List.mem_map.mp hl
      exact fmLine_safe p.1 p.2 (hkpre p hp) (hvpre p hp)
    · rcases List.mem_cons.mp hl with hl | hl
      · subst hl
        exact forcedQuote_line_safe V hV
      · obtain ⟨p, hp, rfl⟩ := List.mem_map.mp hl
        exact fmLine_safe p.1 p.2 (hksuf p hp) (hvsuf p hp)
  rw [extractFrontmatterData_structured _ tail.data hL2ne hsafe2]
  have hm1 : (((pre.map fun p => ((fmLine p).data, p)) ++
      (("last_edited_time: \"".data ++ V.data ++ ['"'], ("last_edited_time", V)) ::
        (suf.map fun p => ((fmLine p).data, p)))).map fun x => x.1) =
      ((pre.map fun p => (fmLine p).data) ++
        ("last_edited_time: \"".data ++ V.data ++ ['"']) ::
          (suf.map fun p => (fmLine p).data)) := by
    simp [Function.comp_def]
  have hpairs := foldl_parseFmLine_pairs
    ((pre.map fun p => ((fmLine p).data, p)) ++
      (("last_edited_time: \"".data ++ V.data ++ ['"'], ("last_edited_time", V)) ::
        (suf.map fun p => ((fmLine p).data, p))))
    ?hline ?hnd2 [] (by simp)
  case hline =>
    intro x hx acc
    rcases List.mem_append.mp hx with hx | hx
    · obtain ⟨p, hp, rfl⟩ := List.mem_map.mp hx
      exact parseFmLine_fmLine acc p.1 p.2 (hkpre p hp) (hvpre p hp)
    · rcases List.mem_cons.mp hx with hx | hx
      · subst hx
        exact parseFmLine_forcedQuote acc V
      · obtain ⟨p, hp, rfl⟩ := List.mem_map.mp hx
        exact parseFmLine_fmLine acc p.1 p.2 (hksuf p hp) (hvsuf p hp)
  case hnd2 =>
    have heq : (((pre.map fun p => ((fmLine p).data, p)) ++
        (("last_edited_time: \"".data ++ V.data ++ ['"'], ("last_edited_time", V)) ::
          (suf.map fun p => ((fmLine p).data, p)))).map fun x => x.2.1) =
        ((pre ++ ("last_edited_time", wv) :: suf).map Prod.fst) := by
      simp [Function.comp_def]
    rw [heq]
    exact hnd
  rw [hm1] at hpairs
  rw [hpairs]
  simp [Function.comp_def]

/-- Core of the header round trip: updating the watermark of a structured
document rewrites exactly the watermark field. -/
theorem setLE_roundtrip (pre suf : List (String × String)) (wv tail V : String)
    (hkpre : ∀ p ∈ pre, safeKey p.1 = true)
    (hvpre : ∀ p ∈ pre, safeFieldValue p.2 = true)
    (hksuf : ∀ p ∈ suf, safeKey p.1 = true)
    (hvsuf : ∀ p ∈ suf, safeFieldValue p.2 = true)
    (hwv : safeFieldValue wv = true)
    (hV : safeFieldValue V = true) (hVd : '$' ∉ V.data)
    (hnd : ((pre ++ ("last_edited_time", wv) :: suf).map Prod.fst).Nodup)
    (hno : ∀ p ∈ pre ++ suf,
      containsSub "last_edited_time:".data (fmLine p).data = false) :
    extractFrontmatterData
        (setLastEditedTimeInContent
          (mkContent (pre ++ ("last_edited_time", wv) :: suf) tail) V) =
      pre ++ ("last_edited_time", V) :: suf := by
  obtain ⟨hwne, hwall, hwh, hwl⟩ := safeFieldValue_props hwv
  have hbody : ∀ c ∈ wv.data, isFieldBodyChar c = true := by
    intro c hc
    obtain ⟨h1, h2, h3⟩ := hwall c hc
    simp [isFieldBodyChar, h1, h2, h3]
  have hledec : "last_edited_time:".data =
      "last_edited_time".data ++ [':'] := by decide
  -- the document, decomposed at the watermark line
  have hdata : (mkContent (pre ++ ("last_edited_time", wv) :: suf) tail).data =
      linesWithNl ("---".data :: pre.map fun p => (fmLine p).data) ++
        ((fmLine ("last_edited_time", wv)).data ++
          ('\n' :: (linesWithNl (suf.map fun p => (fmLine p).data) ++
            ("---".data ++ tail.data)))) := by
    have hd0 : (mkContent (pre ++ ("last_edited_time", wv) :: suf) tail).data =
        "---\n".data ++
          joinLines ((pre ++ ("last_edited_time", wv) :: suf).map
            fun p => (fmLine p).data) ++ "\n---".data ++ tail.data := rfl
    rw [hd0, List.map_append, List.map_cons]
    rw [List.append_assoc, List.append_assoc]
    rw [structured_data_eq _ _ (by simp)]
    rw [show ("---".data :: ((pre.map fun p => (fmLine p).data) ++
        (fmLine ("last_edited_time", wv)).data ::
          (suf.map fun p => (fmLine p).data))) =
      ("---".data :: pre.map fun p => (fmLine p).data) ++
        ((fmLine ("last_edited_time", wv)).data ::
          suf.map fun p => (fmLine p).data) from by simp]
    rw [linesWithNl_append]
    simp [linesWithNl_cons, List.append_assoc]
  -- the first occurrence of the literal is the watermark line
  have hLno : ∀ l ∈ ("---".data :: pre.map fun p => (fmLine p).data),
      containsSub "last_edited_time:".data l = false := by
    intro l hl
    rcases List.mem_cons.mp hl with hl | hl
    · subst hl
      decide
    · obtain ⟨p, hp, rfl⟩ := List.mem_map.mp hl
      exact hno p (List.mem_append.mpr (Or.inl hp))
  have hocc : ∀ i < (linesWithNl ("---".data ::
      pre.map fun p => (fmLine p).data)).length,
      List.isPrefixOf "last_edited_time:".data
        ((linesWithNl ("---".data :: pre.map fun p => (fmLine p).data) ++
          ((fmLine ("last_edited_time", wv)).data ++
            ('\n' :: (linesWithNl (suf.map fun p => (fmLine p).data) ++
              ("---".data ++ tail.data))))).drop i) = false :=
    no_key_prefix_in_lines _ (by decide) (by decide) _ hLno _
  -- the two value encodings
  rcases quoteIfNeeded_cases wv hwv with hqv | hqv
  case' inl =>
    have hform : (fmLine ("last_edited_time", wv)).data ++
        ('\n' :: (linesWithNl (suf.map fun p => (fmLine p).data) ++
          ("---".data ++ tail.data))) =
        "last_edited_time:".data ++ ' ' :: '"' :: (wv.data ++ '"' ::
          ('\n' :: (linesWithNl (suf.map fun p => (fmLine p).data) ++
            ("---".data ++ tail.data)))) := by
      rw [fmLine_data, hqv, hledec]
      simp [List.append_assoc]
    have hmatch : fieldMatchAt ['"'] "last_edited_time:".data
        ((fmLine ("last_edited_time", wv)).data ++
          ('\n' :: (linesWithNl (suf.map fun p => (fmLine p).data) ++
            ("---".data ++ tail.data)))) =
        some ("last_edited_time:".data.length + 1 + 1 + wv.data.length + 1,
          wv.data) := by
      rw [hform]
      exact fieldMatchAt_line_quoted _ _ _ hwne hbody
    have hlen : "last_edited_time:".data.length + 1 + 1 + wv.data.length + 1 =
        (fmLine ("last_edited_time", wv)).data.length := by
      rw [fmLine_data, hqv]
      simp [List.length_append]
      omega
    exact setLE_parse_common pre suf wv tail V hkpre hvpre hksuf hvsuf hwv hV hVd
      hnd hno hdata hocc _ hmatch hlen
  case' inr =>
    have hform : (fmLine ("last_edited_time", wv)).data ++
        ('\n' :: (linesWithNl (suf.map fun p => (fmLine p).data) ++
          ("---".data ++ tail.data))) =
        "last_edited_time:".data ++ ' ' :: (wv.data ++
          ('\n' :: (linesWithNl (suf.map fun p => (fmLine p).data) ++
            ("---".data ++ tail.data)))) := by
      rw [fmLine_data, hqv, hledec]
      simp [List.append_assoc]
    have hmatch : fieldMatchAt ['"'] "last_edited_time:".data
        ((fmLine ("last_edited_time", wv)).data ++
          ('\n' :: (linesWithNl (suf.map fun p => (fmLine p).data) ++
            ("---".data ++ tail.data)))) =
        some ("last_edited_time:".data.length + 1 + 0 + wv.data.length + 0,
          wv.data) := by
      rw [hform]
      exact fieldMatchAt_line_unquoted _ _ _ hwne hbody
        (fun c hc => ⟨hwh c hc,
          fun he => (hwall c (List.mem_of_mem_head? (hc ▸ Option.mem_def.mpr rfl))).1 he⟩)
        rfl
    have hlen : "last_edited_time:".data.length + 1 + 0 + wv.data.length + 0 =
        (fmLine ("last_edited_time", wv)).data.length := by
      rw [fmLine_data, hqv]
      simp [List.length_append]
      omega
    exact setLE_parse_common pre suf wv tail V hkpre hvpre hksuf hvsuf hwv hV hVd
      hnd hno hdata hocc _ hmatch hlen

/-- Claim C9 (amended): for a structured header document with safe keys and
values in which no field line other than the watermark field contains the
literal `last_edited_time:`, setting the last edited time to a safe dollar
free value V and re-parsing the header yields exactly V for that field, and
every other header field parses to the same value it had before the update.
The containment proviso is forced by the counterexample: the replacement
regex rewrites the first occurrence of the literal anywhere in the document,
including inside another field value. -/
theorem claim_C9 (pre suf : List (String × String)) (wv tail V : String)
    (hkpre : ∀ p ∈ pre, safeKey p.1 = true)
    (hvpre : ∀ p ∈ pre, safeFieldValue p.2 = true)
    (hksuf : ∀ p ∈ suf, safeKey p.1 = true)
    (hvsuf : ∀ p ∈ suf, safeFieldValue p.2 = true)
    (hwv : safeFieldValue wv = true)
    (hV : safeFieldValue V = true) (hVd : '$' ∉ V.data)
    (hnd : ((pre ++ ("last_edited_time", wv) :: suf).map Prod.fst).Nodup)
    (hno : ∀ p ∈ pre ++ suf,
      containsSub "last_edited_time:".data (fmLine p).data = false) :
    extractFrontmatterData
        (setLastEditedTimeInContent
          (mkContent (pre ++ ("last_edited_time", wv) :: suf) tail) V) =
      pre ++ ("last_edited_time", V) :: suf ∧
    getAssoc (extractFrontmatterData
        (setLastEditedTimeInContent
          (mkContent (pre ++ ("last_edited_time", wv) :: suf) tail) V))
      "last_edited_time" = some V ∧
    ∀ k, k ≠ "last_edited_time" →
      getAssoc (extractFrontmatterData
          (setLastEditedTimeInContent
            (mkContent (pre ++ ("last_edited_time", wv) :: suf) tail) V)) k =
        getAssoc (extractFrontmatterData
          (mkContent (pre ++ ("last_edited_time", wv) :: suf) tail)) k := by
  have h1 := setLE_roundtrip pre suf wv tail V hkpre hvpre hksuf hvsuf hwv hV hVd
    hnd hno
  have hLEnp : "last_edited_time" ∉ pre.map Prod.fst := by
    have hmap : ((pre ++ ("last_edited_time", wv) :: suf).map Prod.fst) =
        pre.map Prod.fst ++ "last_edited_time" :: suf.map Prod.fst := by simp
    rw [hmap] at hnd
    exact fun hm =>
      List.disjoint_of_nodup_append hnd hm (List.mem_cons_self _ _)
  have hkf : ∀ p ∈ pre ++ ("last_edited_time", wv) :: suf, safeKey p.1 = true := by
    intro p hp
    rcases List.mem_append.mp hp with hp | hp
    · exact hkpre p hp
    · rcases List.mem_cons.mp hp with hp | hp
      · subst hp
        show safeKey "last_edited_time" = true
        decide
      · exact hksuf p hp
  have hvf : ∀ p ∈ pre ++ ("last_edited_time", wv) :: suf,
      safeFieldValue p.2 = true := by
    intro p hp
    rcases List.mem_append.mp hp with hp | hp
    · exact hvpre p hp
    · rcases List.mem_cons.mp hp with hp | hp
      · subst hp
        exact hwv
      · exact hvsuf p hp
  have hE1 : extractFrontmatterData
      (mkContent (pre ++ ("last_edited_time", wv) :: suf) tail) =
      pre ++ ("last_edited_time", wv) :: suf :=
    extractFrontmatterData_mkContent _ tail (by simp) hkf hvf hnd
  refine ⟨h1, ?_, ?_⟩
  · rw [h1, getAssoc_skip _ _ _ hLEnp]
    show (if "last_edited_time" = "last_edited_time" then
      some V else getAssoc suf "last_edited_time") = some V
    rw [if_pos rfl]
  · intro k hk
    rw [h1, hE1]
    exact getAssoc_other pre ("last_edited_time", V) ("last_edited_time", wv)
      suf k hk rfl

/-- Witness for C9: a concrete two field document round trips, the watermark
taking the new value and the title untouched. -/
theorem claim_C9_witness :
    safeFieldValue "2024-01-01T00:00:00Z" = true ∧
    extractFrontmatterData
      (setLastEditedTimeInContent
        (mkContent [("title", "My Note"),
          ("last_edited_time", "2020-01-02T03:04:05Z")] "\nbody")
        "2024-01-01T00:00:00Z") =
      [("title", "My Note"), ("last_edited_time", "2024-01-01T00:00:00Z")] :=
  ⟨by decide,
    (claim_C9 [("title", "My Note")] [] "2020-01-02T03:04:05Z" "\nbody"
      "2024-01-01T00:00:00Z" (by decide) (by decide) (by decide) (by decide)
      (by decide) (by decide) (by decide) (by decide) (by decide)).1⟩

/-- Counterexample to C9 as stated: when another field value contains the
literal `last_edited_time:`, the watermark update rewrites inside that value,
so the other field does not parse to the value it had before. -/
theorem claim_C9_counterexample :
    getAssoc (extractFrontmatterData
      "---\nnote: last_edited_time: old stuff\nlast_edited_time: 2020-01-02\n---\nbody")
      "note" = some "last_edited_time: old stuff" ∧
    getAssoc (extractFrontmatterData
      (setLastEditedTimeInContent
        "---\nnote: last_edited_time: old stuff\nlast_edited_time: 2020-01-02\n---\nbody"
        "2024-01-01T00:00:00Z")) "note" =
      some "last_edited_time: \"2024-01-01T00:00:00Z" ∧
    getAssoc (extractFrontmatterData
      (setLastEditedTimeInContent
        "---\nnote: last_edited_time: old stuff\nlast_edited_time: 2020-01-02\n---\nbody"
        "2024-01-01T00:00:00Z")) "note" ≠
      getAssoc (extractFrontmatterData
        "---\nnote: last_edited_time: old stuff\nlast_edited_time: 2020-01-02\n---\nbody")
        "note" :=
  ⟨by decide, by decide, by decide⟩

/- ### replaceFrontmatterField on structured documents -/

theorem mem_setAssoc {p : String × String} {l : List (String × String)}
    {k v : String} (h : p ∈ setAssoc l k v) : p ∈ l ∨ p = (k, v) := by
  induction l with
  | nil =>
    simp only [setAssoc, List.mem_cons, List.not_mem_nil, or_false] at h
    exact Or.inr h
  | cons q rest ih =>
    obtain ⟨k', v'⟩ := q
    by_cases hc : k' = k
    · rw [show setAssoc ((k', v') :: rest) k v =
        (k, v) :: rest from by simp [setAssoc, hc]] at h
      rcases List.mem_cons.mp h with h | h
      · exact Or.inr h
      · exact Or.inl (List.mem_cons_of_mem _ h)
    · rw [show setAssoc ((k', v') :: rest) k v =
        (k', v') :: setAssoc rest k v from by simp [setAssoc, hc]] at h
      rcases List.mem_cons.mp h with h | h
      · exact Or.inl (h ▸ List.mem_cons_self _ _)
      · rcases ih h with h | h
        · exact Or.inl (List.mem_cons_of_mem _ h)
        · exact Or.inr h

theorem setAssoc_keys {l : List (String × String)} (k v : String) :
    (setAssoc l k v).map Prod.fst = l.map Prod.fst ∨
      (setAssoc l k v).map Prod.fst = l.map Prod.fst ++ [k] := by
  induction l with
  | nil => right; rfl
  | cons q rest ih =>
    obtain ⟨k', v'⟩ := q
    by_cases hc : k' = k
    · left
      rw [show setAssoc ((k', v') :: rest) k v = (k, v) :: rest from by
        simp [setAssoc, hc]]
      simp [hc]
    · rw [show setAssoc ((k', v') :: rest) k v =
        (k', v') :: setAssoc rest k v from by simp [setAssoc, hc]]
      rcases ih with ih | ih
      · left
        simp [ih]
      · right
        simp [ih]

theorem setAssoc_ne_nil (l : List (String × String)) (k v : String) :
    setAssoc l k v ≠ [] := by
  cases l with
  | nil => simp [setAssoc]
  | cons q rest =>
    obtain ⟨k', v'⟩ := q
    by_cases hc : k' = k
    · simp [setAssoc, hc]
    · simp [setAssoc, hc]

theorem setAssoc_nodup {l : List (String × String)} {k v : String}
    (h : (l.map Prod.fst).Nodup) : ((setAssoc l k v).map Prod.fst).Nodup := by
  induction l with
  | nil => simp [setAssoc]
  | cons q rest ih =>
    obtain ⟨k', v'⟩ := q
    obtain ⟨hni, hnd⟩ := List.nodup_cons.mp h
    by_cases hc : k' = k
    · rw [show setAssoc ((k', v') :: rest) k v = (k, v) :: rest from by
        simp [setAssoc, hc]]
      rw [List.map_cons, List.nodup_cons]
      exact ⟨hc ▸ hni, hnd⟩
    · rw [show setAssoc ((k', v') :: rest) k v =
        (k', v') :: setAssoc rest k v from by simp [setAssoc, hc]]
      rw [List.map_cons, List.nodup_cons]
      refine ⟨?_, ih hnd⟩
      intro hm
      rcases setAssoc_keys (l := rest) k v with hkeys | hkeys
      · exact hni (hkeys ▸ hm)
      · rw [hkeys] at hm
        rcases List.mem_append.mp hm with hm | hm
        · exact hni hm
        · simp only [List.mem_cons, List.not_mem_nil, or_false] at hm
          exact hc hm

theorem hasFmMultilineGo_head (atStart : Bool) (c : Char) (rest : List Char)
    (h : (atStart && List.isPrefixOf "---\n".data (c :: rest) &&
      containsSub "\n---".data ((c :: rest).drop 4)) = true) :
    hasFmMultilineGo atStart (c :: rest) = true := by
  simp only [hasFmMultilineGo, h, Bool.true_or]

theorem fmSplit_mkContent (fields : List (String × String)) (tail : String)
    (hne : fields ≠ [])
    (hk : ∀ p ∈ fields, safeKey p.1 = true)
    (hv : ∀ p ∈ fields, safeFieldValue p.2 = true) :
    fmSplit (mkContent fields tail).data =
      some (joinLines (fields.map fun p => (fmLine p).data), tail.data) := by
  have hL : (fields.map fun p => (fmLine p).data) ≠ [] := by simp [hne]
  have hsafe : ∀ l ∈ (fields.map fun p => (fmLine p).data),
      '\n' ∉ l ∧ l ≠ [] ∧ l.head? ≠ some '-' := by
    intro l hl
    obtain ⟨p, hp, rfl⟩ := List.mem_map.mp hl
    exact fmLine_safe p.1 p.2 (hk p hp) (hv p hp)
  have hshape : (mkContent fields tail).data =
      "---\n".data ++ ((joinLines (fields.map fun p => (fmLine p).data)) ++
        ("\n---".data ++ tail.data)) := by
    show ("---\n".data ++ joinLines (fields.map fun p => (fmLine p).data) ++
      "\n---".data ++ tail.data) = _
    rw [List.append_assoc, List.append_assoc]
  rw [hshape]
  exact fmSplit_structured _ _ hL hsafe

theorem safeKey_no_dollar {k : String} (hk : safeKey k = true) :
    Char.ofNat 36 ∉ k.data := by
  unfold safeKey at hk
  simp only [Bool.and_eq_true, decide_eq_true_eq, List.all_eq_true] at hk
  intro hm
  exact absurd (hk.2 _ hm) (by decide)

theorem quoteIfNeeded_no_dollar {v : String} (hd : Char.ofNat 36 ∉ v.data) :
    Char.ofNat 36 ∉ (quoteIfNeeded v).data := by
  unfold quoteIfNeeded
  by_cases hq : v.data.any
      (fun c => c = '\n' || c = '"' || c = Char.ofNat 39 || c = ':') = true
  · rw [if_pos hq]
    intro hm
    have hm2 : Char.ofNat 36 ∈ ('"' :: (v.data.map fun c =>
        if c = '"' then ['\\', '"'] else [c]).flatten ++ ['"']) := hm
    rcases List.mem_cons.mp hm2 with h | h
    · exact absurd h (by decide)
    · rcases List.mem_append.mp h with h | h
      · obtain ⟨l, hl, hcl⟩ := List.mem_flatten.mp h
        obtain ⟨c, hc, rfl⟩ := List.mem_map.mp hl
        by_cases hcq : c = '"'
        · rw [if_pos hcq] at hcl
          exact absurd hcl (by decide)
        · rw [if_neg hcq] at hcl
          have he := List.mem_singleton.mp hcl
          rw [← he] at hc
          exact hd hc
      · exact absurd h (by decide)
  · rw [if_neg hq]
    exact hd

theorem mem_joinLines_of_ne_nl {c : Char} (hc : c ≠ '\n')
    (L : List (List Char)) (h : c ∈ joinLines L) : ∃ l ∈ L, c ∈ l := by
  cases L with
  | nil => cases h
  | cons x rest =>
    have h2 : c ∈ x ++ (rest.map fun m => '\n' :: m).flatten := h
    rcases List.mem_append.mp h2 with h3 | h3
    · exact ⟨x, List.mem_cons_self _ _, h3⟩
    · obtain ⟨l, hl, hcl⟩ := List.mem_flatten.mp h3
      obtain ⟨m, hm, rfl⟩ := List.mem_map.mp hl
      rcases List.mem_cons.mp hcl with h4 | h4
      · exact absurd h4 hc
      · exact ⟨m, List.mem_cons_of_mem _ hm, h4⟩

/-- A rebuilt frontmatter block made of dollar free keys and values contains
no dollar sign, so the splice expansion leaves it unchanged. -/
theorem newFrontmatter_no_dollar (data2 : List (String × String))
    (hd : ∀ p ∈ data2, Char.ofNat 36 ∉ p.1.data ∧ Char.ofNat 36 ∉ p.2.data) :
    Char.ofNat 36 ∉ ("---\n" ++ String.intercalate "\n"
      (data2.map fun p => p.1 ++ ": " ++ quoteIfNeeded p.2) ++ "\n---").data := by
  rw [String.data_append, String.data_append, strIntercalate_nl_data, List.map_map]
  intro hm
  rcases List.mem_append.mp hm with hm | hm
  · rcases List.mem_append.mp hm with hm | hm
    · exact absurd hm (by decide)
    · obtain ⟨l, hl, hcl⟩ := mem_joinLines_of_ne_nl (by decide) _ hm
      obtain ⟨p, hp, rfl⟩ := List.mem_map.mp hl
      have hl2 : ((fun p : String × String =>
          p.1 ++ ": " ++ quoteIfNeeded p.2) p).data =
          p.1.data ++ ':' :: ' ' :: (quoteIfNeeded p.2).data := fmLine_data p.1 p.2
      rw [show (String.data ∘ fun p : String × String =>
          p.1 ++ ": " ++ quoteIfNeeded p.2) p =
        ((fun p : String × String => p.1 ++ ": " ++ quoteIfNeeded p.2) p).data
        from rfl, hl2] at hcl
      rcases List.mem_append.mp hcl with h | h
      · exact (hd p hp).1 h
      · rcases List.mem_cons.mp h with h | h
        · exact absurd h (by decide)
        · rcases List.mem_cons.mp h with h | h
          · exact absurd h (by decide)
          · exact quoteIfNeeded_no_dollar (hd p hp).2 h
  · exact absurd hm (by decide)

/-- replaceFrontmatterField on a structured document with dollar free keys
and values rewrites the field list by the update and keeps the rest of the
file. -/
theorem replaceFrontmatterField_mkContent (fields : List (String × String))
    (tail k v : String) (hne : fields ≠ [])
    (hk : ∀ p ∈ fields, safeKey p.1 = true)
    (hv : ∀ p ∈ fields, safeFieldValue p.2 = true)
    (hnd : (fields.map Prod.fst).Nodup)
    (hdol : ∀ p ∈ fields, Char.ofNat 36 ∉ p.2.data)
    (hdk : Char.ofNat 36 ∉ k.data) (hdv : Char.ofNat 36 ∉ v.data) :
    replaceFrontmatterField (mkContent fields tail) k v =
      mkContent (setAssoc fields k v) tail := by
  have hcontains : containsSub "\n---".data
      ((mkContent fields tail).data.drop 4) = true := by
    have hd4 : (mkContent fields tail).data.drop 4 =
        joinLines (fields.map fun p => (fmLine p).data) ++
          ("\n---".data ++ tail.data) := by
      show (("---\n".data ++ joinLines (fields.map fun p => (fmLine p).data) ++
        "\n---".data ++ tail.data).drop 4) = _
      rw [List.append_assoc, List.append_assoc]
      rw [show (4 : ℕ) = "---\n".data.length from rfl, List.drop_left]
    rw [hd4]
    refine containsSub_of_suffix
      ⟨joinLines (fields.map fun p => (fmLine p).data), rfl⟩ ?_
    exact containsSub_of_prefix (List.prefix_append _ _) (by decide)
  have hml : hasFmMultiline (mkContent fields tail).data = true := by
    unfold hasFmMultiline
    show hasFmMultilineGo true ('-' :: ('-' :: ('-' :: ('\n' ::
      (joinLines (fields.map fun p => (fmLine p).data) ++
        "\n---".data ++ tail.data))))) = true
    apply hasFmMultilineGo_head
    rw [Bool.true_and, Bool.and_eq_true]
    constructor
    · exact List.isPrefixOf_iff_prefix.mpr ⟨_, rfl⟩
    · exact hcontains
  have hd2 : ∀ p ∈ setAssoc fields k v,
      Char.ofNat 36 ∉ p.1.data ∧ Char.ofNat 36 ∉ p.2.data := by
    intro p hp
    rcases mem_setAssoc hp with h | h
    · exact ⟨safeKey_no_dollar (hk p h), hdol p h⟩
    · subst h
      exact ⟨hdk, hdv⟩
  unfold replaceFrontmatterField
  rw [if_pos hml]
  rw [extractFrontmatterData_mkContent fields tail hne hk hv hnd]
  rw [fmSplit_mkContent fields tail hne hk hv]
  show String.mk (expandDollar
      ("---\n".data ++ joinLines (fields.map fun p => (fmLine p).data) ++
        "\n---".data)
      [] tail.data (some (joinLines (fields.map fun p => (fmLine p).data)))
      ("---\n" ++ String.intercalate "\n" ((setAssoc fields k v).map
        fun p => p.1 ++ ": " ++ quoteIfNeeded p.2) ++ "\n---").data ++
      tail.data) = _
  rw [expandDollar_id _ _ _ _ _
    (newFrontmatter_no_dollar (setAssoc fields k v) hd2)]
  apply String.ext
  show ("---\n" ++ String.intercalate "\n" ((setAssoc fields k v).map
      fun p => p.1 ++ ": " ++ quoteIfNeeded p.2) ++ "\n---").data ++ tail.data =
    (mkContent (setAssoc fields k v) tail).data
  rw [String.data_append, String.data_append]
  rw [strIntercalate_nl_data, List.map_map]
  rfl

/-- The watermark parse of a structured document yields the stored value. -/
theorem getLE_mkContent (pre suf : List (String × String)) (wv tail : String)
    (hwv : safeFieldValue wv = true)
    (hnopre : ∀ p ∈ pre,
      containsSub "last_edited_time:".data (fmLine p).data = false) :
    getLastEditedTimeFromContent
      (mkContent (pre ++ ("last_edited_time", wv) :: suf) tail) = some wv := by
  obtain ⟨hwne, hwall, hwh, hwl⟩ := safeFieldValue_props hwv
  have hbody : ∀ c ∈ wv.data, isFieldBodyChar c = true := by
    intro c hc
    obtain ⟨h1, h2, h3⟩ := hwall c hc
    simp [isFieldBodyChar, h1, h2, h3]
  have hledec : "last_edited_time:".data =
      "last_edited_time".data ++ [':'] := by decide
  have hdata : (mkContent (pre ++ ("last_edited_time", wv) :: suf) tail).data =
      linesWithNl ("---".data :: pre.map fun p => (fmLine p).data) ++
        ((fmLine ("last_edited_time", wv)).data ++
          ('\n' :: (linesWithNl (suf.map fun p => (fmLine p).data) ++
            ("---".data ++ tail.data)))) := by
    have hd0 : (mkContent (pre ++ ("last_edited_time", wv) :: suf) tail).data =
        "---\n".data ++
          joinLines ((pre ++ ("last_edited_time", wv) :: suf).map
            fun p => (fmLine p).data) ++ "\n---".data ++ tail.data := rfl
    rw [hd0, List.map_append, List.map_cons]
    rw [List.append_assoc, List.append_assoc]
    rw [structured_data_eq _ _ (by simp)]
    rw [show ("---".data :: ((pre.map fun p => (fmLine p).data) ++
        (fmLine ("last_edited_time", wv)).data ::
          (suf.map fun p => (fmLine p).data))) =
      ("---".data :: pre.map fun p => (fmLine p).data) ++
        ((fmLine ("last_edited_time", wv)).data ::
          suf.map fun p => (fmLine p).data) from by simp]
    rw [linesWithNl_append]
    simp [linesWithNl_cons, List.append_assoc]
  have hLno : ∀ l ∈ ("---".data :: pre.map fun p => (fmLine p).data),
      containsSub "last_edited_time:".data l = false := by
    intro l hl
    rcases List.mem_cons.mp hl with hl | hl
    · subst hl
      decide
    · obtain ⟨p, hp, rfl⟩ := List.mem_map.mp hl
      exact hnopre p hp
  have hocc := no_key_prefix_in_lines "last_edited_time:".data (by decide)
    (by decide) ("---".data :: pre.map fun p => (fmLine p).data) hLno
    ((fmLine ("last_edited_time", wv)).data ++
      ('\n' :: (linesWithNl (suf.map fun p => (fmLine p).data) ++
        ("---".data ++ tail.data))))
  have hfindLE : ∀ len : ℕ,
      fieldMatchAt ['"'] "last_edited_time:".data
        ((fmLine ("last_edited_time", wv)).data ++
          ('\n' :: (linesWithNl (suf.map fun p => (fmLine p).data) ++
            ("---".data ++ tail.data)))) = some (len, wv.data) →
      getLastEditedTimeFromContent
        (mkContent (pre ++ ("last_edited_time", wv) :: suf) tail) = some wv := by
    intro len hmatch
    have hfind : fieldFind ['"'] "last_edited_time:".data
        (mkContent (pre ++ ("last_edited_time", wv) :: suf) tail).data =
        some (linesWithNl ("---".data :: pre.map fun p => (fmLine p).data),
          len, wv.data) := by
      rw [hdata, fieldFind_append _ _ _ _ hocc, fieldFind_of_match hmatch]
      simp
    unfold getLastEditedTimeFromContent
    rw [hfind]
    rfl
  rcases quoteIfNeeded_cases wv hwv with hqv | hqv
  · have hform : (fmLine ("last_edited_time", wv)).data ++
        ('\n' :: (linesWithNl (suf.map fun p => (fmLine p).data) ++
          ("---".data ++ tail.data))) =
        "last_edited_time:".data ++ ' ' :: '"' :: (wv.data ++ '"' ::
          ('\n' :: (linesWithNl (suf.map fun p => (fmLine p).data) ++
            ("---".data ++ tail.data)))) := by
      rw [fmLine_data, hqv, hledec]
      simp [List.append_assoc]
    have hmatch : fieldMatchAt ['"'] "last_edited_time:".data
        ((fmLine ("last_edited_time", wv)).data ++
          ('\n' :: (linesWithNl (suf.map fun p => (fmLine p).data) ++
            ("---".data ++ tail.data)))) =
        some ("last_edited_time:".data.length + 1 + 1 + wv.data.length + 1,
          wv.data) := by
      rw [hform]
      exact fieldMatchAt_line_quoted _ _ _ hwne hbody
    exact hfindLE _ hmatch
  · have hform : (fmLine ("last_edited_time", wv)).data ++
        ('\n' :: (linesWithNl (suf.map fun p => (fmLine p).data) ++
          ("---".data ++ tail.data))) =
        "last_edited_time:".data ++ ' ' :: (wv.data ++
          ('\n' :: (linesWithNl (suf.map fun p => (fmLine p).data) ++
            ("---".data ++ tail.data)))) := by
      rw [fmLine_data, hqv, hledec]
      simp [List.append_assoc]
    have hmatch : fieldMatchAt ['"'] "last_edited_time:".data
        ((fmLine ("last_edited_time", wv)).data ++
          ('\n' :: (linesWithNl (suf.map fun p => (fmLine p).data) ++
            ("---".data ++ tail.data)))) =
        some ("last_edited_time:".data.length + 1 + 0 + wv.data.length + 0,
          wv.data) := by
      rw [hform]
      exact fieldMatchAt_line_unquoted _ _ _ hwne hbody
        (fun c hc => ⟨hwh c hc,
          fun he => (hwall c (List.mem_of_mem_head? (hc ▸ Option.mem_def.mpr rfl))).1 he⟩)
        rfl
    exact hfindLE _ hmatch

theorem getAssoc_setAssoc_self (l : List (String × String)) (k v : String) :
    getAssoc (setAssoc l k v) k = some v := by
  induction l with
  | nil =>
    show (if k = k then some v else none) = some v
    rw [if_pos rfl]
  | cons q rest ih =>
    obtain ⟨k', v'⟩ := q
    by_cases hc : k' = k
    · rw [show setAssoc ((k', v') :: rest) k v = (k, v) :: rest from by
        simp [setAssoc, hc]]
      show (if k = k then some v else getAssoc rest k) = some v
      rw [if_pos rfl]
    · rw [show setAssoc ((k', v') :: rest) k v =
        (k', v') :: setAssoc rest k v from by simp [setAssoc, hc]]
      show (if k' = k then some v' else getAssoc (setAssoc rest k v) k) = some v
      rw [if_neg hc, ih]

theorem getAssoc_setAssoc_other (l : List (String × String)) (k v k2 : String)
    (h : k2 ≠ k) : getAssoc (setAssoc l k v) k2 = getAssoc l k2 := by
  induction l with
  | nil =>
    show (if k = k2 then some v else none) = none
    rw [if_neg (fun he => h he.symm)]
  | cons q rest ih =>
    obtain ⟨k', v'⟩ := q
    by_cases hc : k' = k
    · rw [show setAssoc ((k', v') :: rest) k v = (k, v) :: rest from by
        simp [setAssoc, hc]]
      show (if k = k2 then some v else getAssoc rest k2) =
        (if k' = k2 then some v' else getAssoc rest k2)
      rw [if_neg (fun he => h he.symm), if_neg (fun he => h (he.symm.trans hc))]
    · rw [show setAssoc ((k', v') :: rest) k v =
        (k', v') :: setAssoc rest k v from by simp [setAssoc, hc]]
      show (if k' = k2 then some v' else getAssoc (setAssoc rest k v) k2) =
        (if k' = k2 then some v' else getAssoc rest k2)
      by_cases h2 : k' = k2
      · rw [if_pos h2, if_pos h2]
      · rw [if_neg h2, if_neg h2, ih]

/-- Claim C8: for an imported remote page with a nonempty remote watermark,
when a local structured document claims its remote id, the body is replaced
by fresh remote content exactly when the remote watermark is strictly later
than the stored local watermark, and otherwise the step only rewrites the
three required header fields over the unchanged rest of the file (writing
only when something changed); the rewritten header carries the remote page
id, the provenance marker and the watermark while all other fields keep
their values.  When no local document claims the id, a new file is created
at the generated path, an 'already exists' failure is swallowed silently and
any other failure is reported.  The stored and written header values must be
free of dollar signs: the splice of the rebuilt header is a JS replacement
string whose dollar patterns are expanded. -/
theorem claim_C8 (pd : String → Option ℤ)
    (pid rc ne df fn msg tail : String) (ce : Option String)
    (pre suf : List (String × String)) (wv : String)
    (hkpre : ∀ p ∈ pre, safeKey p.1 = true)
    (hvpre : ∀ p ∈ pre, safeFieldValue p.2 = true)
    (hksuf : ∀ p ∈ suf, safeKey p.1 = true)
    (hvsuf : ∀ p ∈ suf, safeFieldValue p.2 = true)
    (hwv : safeFieldValue wv = true)
    (hnd : ((pre ++ ("last_edited_time", wv) :: suf).map Prod.fst).Nodup)
    (hnopre : ∀ p ∈ pre,
      containsSub "last_edited_time:".data (fmLine p).data = false)
    (hpid : safeFieldValue pid = true)
    (hne0 : ne ≠ "") (hnesafe : safeFieldValue ne = true)
    (hdpre : ∀ p ∈ pre, Char.ofNat 36 ∉ p.2.data)
    (hdsuf : ∀ p ∈ suf, Char.ofNat 36 ∉ p.2.data)
    (hdwv : Char.ofNat 36 ∉ wv.data)
    (hdpid : Char.ofNat 36 ∉ pid.data)
    (hdne : Char.ofNat 36 ∉ ne.data) :
    (importPageStep pd pid rc (some ne) df fn
        (some (mkContent (pre ++ ("last_edited_time", wv) :: suf) tail)) ce =
      if dateGt pd ne wv
      then [ImportAction.modifyFile rc]
      else if mkContent (setAssoc (setAssoc (setAssoc
            (pre ++ ("last_edited_time", wv) :: suf)
            "notion_page_id" pid) "imported_from" "notion")
            "last_edited_time" ne) tail ≠
          mkContent (pre ++ ("last_edited_time", wv) :: suf) tail
        then [ImportAction.modifyFile (mkContent (setAssoc (setAssoc (setAssoc
            (pre ++ ("last_edited_time", wv) :: suf)
            "notion_page_id" pid) "imported_from" "notion")
            "last_edited_time" ne) tail)]
        else []) ∧
    getAssoc (extractFrontmatterData (mkContent (setAssoc (setAssoc (setAssoc
        (pre ++ ("last_edited_time", wv) :: suf)
        "notion_page_id" pid) "imported_from" "notion")
        "last_edited_time" ne) tail)) "notion_page_id" = some pid ∧
    getAssoc (extractFrontmatterData (mkContent (setAssoc (setAssoc (setAssoc
        (pre ++ ("last_edited_time", wv) :: suf)
        "notion_page_id" pid) "imported_from" "notion")
        "last_edited_time" ne) tail)) "imported_from" = some "notion" ∧
    getAssoc (extractFrontmatterData (mkContent (setAssoc (setAssoc (setAssoc
        (pre ++ ("last_edited_time", wv) :: suf)
        "notion_page_id" pid) "imported_from" "notion")
        "last_edited_time" ne) tail)) "last_edited_time" = some ne ∧
    (∀ k, k ≠ "notion_page_id" → k ≠ "imported_from" → k ≠ "last_edited_time" →
      getAssoc (extractFrontmatterData (mkContent (setAssoc (setAssoc (setAssoc
          (pre ++ ("last_edited_time", wv) :: suf)
          "notion_page_id" pid) "imported_from" "notion")
          "last_edited_time" ne) tail)) k =
        getAssoc (extractFrontmatterData
          (mkContent (pre ++ ("last_edited_time", wv) :: suf) tail)) k) ∧
    importPageStep pd pid rc (some ne) df fn none none =
      [ImportAction.createFile (df ++ "/" ++ fn ++ ".md") rc] ∧
    (containsSub "already exists".data msg.data = true →
      importPageStep pd pid rc (some ne) df fn none (some msg) = []) ∧
    (containsSub "already exists".data msg.data = false →
      importPageStep pd pid rc (some ne) df fn none (some msg) =
        [ImportAction.importNotice ("Error creating file " ++ fn ++ ": " ++ msg)]) := by
  have hfne : (pre ++ ("last_edited_time", wv) :: suf) ≠ [] := by simp
  have hkf : ∀ p ∈ pre ++ ("last_edited_time", wv) :: suf, safeKey p.1 = true := by
    intro p hp
    rcases List.mem_append.mp hp with hp | hp
    · exact hkpre p hp
    · rcases List.mem_cons.mp hp with hp | hp
      · subst hp
        show safeKey "last_edited_time" = true
        decide
      · exact hksuf p hp
  have hvf : ∀ p ∈ pre ++ ("last_edited_time", wv) :: suf,
      safeFieldValue p.2 = true := by
    intro p hp
    rcases List.mem_append.mp hp with hp | hp
    · exact hvpre p hp
    · rcases List.mem_cons.mp hp with hp | hp
      · subst hp
        exact hwv
      · exact hvsuf p hp
  have hdolf : ∀ p ∈ pre ++ ("last_edited_time", wv) :: suf,
      Char.ofNat 36 ∉ p.2.data := by
    intro p hp
    rcases List.mem_append.mp hp with hp | hp
    · exact hdpre p hp
    · rcases List.mem_cons.mp hp with hp | hp
      · subst hp
        exact hdwv
      · exact hdsuf p hp
  have hdol1 : ∀ p ∈ setAssoc (pre ++ ("last_edited_time", wv) :: suf)
      "notion_page_id" pid, Char.ofNat 36 ∉ p.2.data := by
    intro p hp
    rcases mem_setAssoc hp with h | h
    · exact hdolf p h
    · subst h
      exact hdpid
  have hdol2 : ∀ p ∈ setAssoc (setAssoc (pre ++ ("last_edited_time", wv) :: suf)
      "notion_page_id" pid) "imported_from" "notion",
      Char.ofNat 36 ∉ p.2.data := by
    intro p hp
    rcases mem_setAssoc hp with h | h
    · exact hdol1 p h
    · subst h
      show Char.ofNat 36 ∉ ("notion" : String).data
      decide
  have hk1 : ∀ p ∈ setAssoc (pre ++ ("last_edited_time", wv) :: suf)
      "notion_page_id" pid, safeKey p.1 = true := by
    intro p hp
    rcases mem_setAssoc hp with h | h
    · exact hkf p h
    · subst h
      show safeKey "notion_page_id" = true
      decide
  have hv1 : ∀ p ∈ setAssoc (pre ++ ("last_edited_time", wv) :: suf)
      "notion_page_id" pid, safeFieldValue p.2 = true := by
    intro p hp
    rcases mem_setAssoc hp with h | h
    · exact hvf p h
    · subst h
      exact hpid
  have hk2 : ∀ p ∈ setAssoc (setAssoc (pre ++ ("last_edited_time", wv) :: suf)
      "notion_page_id" pid) "imported_from" "notion", safeKey p.1 = true := by
    intro p hp
    rcases mem_setAssoc hp with h | h
    · exact hk1 p h
    · subst h
      show safeKey "imported_from" = true
      decide
  have hv2 : ∀ p ∈ setAssoc (setAssoc (pre ++ ("last_edited_time", wv) :: suf)
      "notion_page_id" pid) "imported_from" "notion",
      safeFieldValue p.2 = true := by
    intro p hp
    rcases mem_setAssoc hp with h | h
    · exact hv1 p h
    · subst h
      show safeFieldValue "notion" = true
      decide
  have hk3 : ∀ p ∈ setAssoc (setAssoc (setAssoc
      (pre ++ ("last_edited_time", wv) :: suf)
      "notion_page_id" pid) "imported_from" "notion") "last_edited_time" ne,
      safeKey p.1 = true := by
    intro p hp
    rcases mem_setAssoc hp with h | h
    · exact hk2 p h
    · subst h
      show safeKey "last_edited_time" = true
      decide
  have hv3 : ∀ p ∈ setAssoc (setAssoc (setAssoc
      (pre ++ ("last_edited_time", wv) :: suf)
      "notion_page_id" pid) "imported_from" "notion") "last_edited_time" ne,
      safeFieldValue p.2 = true := by
    intro p hp
    rcases mem_setAssoc hp with h | h
    · exact hv2 p h
    · subst h
      exact hnesafe
  have hnd1 := setAssoc_nodup (k := "notion_page_id") (v := pid) hnd
  have hnd2 := setAssoc_nodup (k := "imported_from") (v := "notion") hnd1
  have hnd3 := setAssoc_nodup (k := "last_edited_time") (v := ne) hnd2
  have hLE := getLE_mkContent pre suf wv tail hwv hnopre
  have h1 := replaceFrontmatterField_mkContent
    (pre ++ ("last_edited_time", wv) :: suf) tail "notion_page_id" pid
    hfne hkf hvf hnd hdolf (by decide) hdpid
  have h2 := replaceFrontmatterField_mkContent
    (setAssoc (pre ++ ("last_edited_time", wv) :: suf) "notion_page_id" pid)
    tail "imported_from" "notion" (setAssoc_ne_nil _ _ _) hk1 hv1 hnd1
    hdol1 (by decide) (by decide)
  have h3 := replaceFrontmatterField_mkContent
    (setAssoc (setAssoc (pre ++ ("last_edited_time", wv) :: suf)
      "notion_page_id" pid) "imported_from" "notion")
    tail "last_edited_time" ne (setAssoc_ne_nil _ _ _) hk2 hv2 hnd2
    hdol2 (by decide) hdne
  have hnorm : importNormalized pid (some ne)
      (mkContent (pre ++ ("last_edited_time", wv) :: suf) tail) =
      mkContent (setAssoc (setAssoc (setAssoc
        (pre ++ ("last_edited_time", wv) :: suf)
        "notion_page_id" pid) "imported_from" "notion")
        "last_edited_time" ne) tail := by
    show (if ne ≠ "" then
      replaceFrontmatterField
        (replaceFrontmatterField
          (replaceFrontmatterField
            (mkContent (pre ++ ("last_edited_time", wv) :: suf) tail)
            "notion_page_id" pid)
          "imported_from" "notion")
        "last_edited_time" ne
      else replaceFrontmatterField
        (replaceFrontmatterField
          (mkContent (pre ++ ("last_edited_time", wv) :: suf) tail)
          "notion_page_id" pid)
        "imported_from" "notion") = _
    rw [if_pos hne0, h1, h2, h3]
  have hE3 := extractFrontmatterData_mkContent
    (setAssoc (setAssoc (setAssoc (pre ++ ("last_edited_time", wv) :: suf)
      "notion_page_id" pid) "imported_from" "notion") "last_edited_time" ne)
    tail (setAssoc_ne_nil _ _ _) hk3 hv3 hnd3
  have hE1 := extractFrontmatterData_mkContent
    (pre ++ ("last_edited_time", wv) :: suf) tail hfne hkf hvf hnd
  refine ⟨?_, ?_, ?_, ?_, ?_, rfl, ?_, ?_⟩
  · show (if importNewer pd (some ne) (getLastEditedTimeFromContent
        (mkContent (pre ++ ("last_edited_time", wv) :: suf) tail)) = true
      then [ImportAction.modifyFile rc]
      else if importNormalized pid (some ne)
          (mkContent (pre ++ ("last_edited_time", wv) :: suf) tail) ≠
          mkContent (pre ++ ("last_edited_time", wv) :: suf) tail
        then [ImportAction.modifyFile (importNormalized pid (some ne)
          (mkContent (pre ++ ("last_edited_time", wv) :: suf) tail))]
        else []) = _
    rw [hLE, hnorm]
    rw [show importNewer pd (some ne) (some wv) =
      (decide (ne ≠ "") && dateGt pd ne wv) from rfl]
    rw [decide_eq_true hne0, Bool.true_and]
  · rw [hE3]
    rw [getAssoc_setAssoc_other _ _ _ _ (by decide)]
    rw [getAssoc_setAssoc_other _ _ _ _ (by decide)]
    exact getAssoc_setAssoc_self _ _ _
  · rw [hE3]
    rw [getAssoc_setAssoc_other _ _ _ _ (by decide)]
    exact getAssoc_setAssoc_self _ _ _
  · rw [hE3]
    exact getAssoc_setAssoc_self _ _ _
  · intro k hk1' hk2' hk3'
    rw [hE3, hE1]
    rw [getAssoc_setAssoc_other _ _ _ _ hk3', getAssoc_setAssoc_other _ _ _ _ hk2',
      getAssoc_setAssoc_other _ _ _ _ hk1']
  · intro h
    show (if containsSub "already exists".data msg.data = true then []
      else [ImportAction.importNotice ("Error creating file " ++ fn ++ ": " ++ msg)]) = _
    rw [if_pos h]
  · intro h
    show (if containsSub "already exists".data msg.data = true then []
      else [ImportAction.importNotice ("Error creating file " ++ fn ++ ": " ++ msg)]) = _
    rw [if_neg (by rw [h]; exact Bool.false_ne_true)]

/-- Witness for C8: with a remote watermark parsing later than the stored
local one, the local file is overwritten with the remote content. -/
theorem claim_C8_witness :
    ("2024-05-06" ≠ "") ∧
    importPageStep (fun s => some (s.length : ℤ)) "pid1" "REMOTE"
      (some "2024-05-06") "Notes" "Page"
      (some (mkContent [("last_edited_time", "2020")] "\nbody")) none =
      [ImportAction.modifyFile "REMOTE"] :=
  ⟨by decide,
    (claim_C8 (fun s => some (s.length : ℤ)) "pid1" "REMOTE" "2024-05-06"
      "Notes" "Page" "dup" "\nbody" none [] [] "2020" (by decide) (by decide)
      (by decide) (by decide) (by decide) (by decide) (by decide) (by decide)
      (by decide) (by decide) (by decide) (by decide) (by decide) (by decide)
      (by decide)).1⟩

set_option maxRecDepth 4096 in
/-- C8 counterexample: a header field value containing the dollar pattern
`$1` is expanded against the capture group by the JS replacement splice of
replaceFrontmatterField, so import normalization corrupts that field instead
of preserving its value. -/
theorem claim_C8_counterexample :
    getAssoc (extractFrontmatterData (mkContent [("n", "x$1y")] "\nb")) "n" =
      some "x$1y" ∧
    getAssoc (extractFrontmatterData
      (importNormalized "pid9" (some "2024-05-06")
        (mkContent [("n", "x$1y")] "\nb"))) "n" ≠ some "x$1y" := by
  decide

/- ### Markdown encoding (NotionImporterPlugin.getPageContent 882-918 and
blockToMarkdown 923-1008) -/

/-- The notion type tag of a block, as tested by the grouping loop. -/
def typeName : Block → String
  | .paragraph _ => "paragraph"
  | .heading_1 _ => "heading_1"
  | .heading_2 _ => "heading_2"
  | .heading_3 _ => "heading_3"
  | .bulleted_list_item _ => "bulleted_list_item"
  | .numbered_list_item _ => "numbered_list_item"
  | .to_do _ _ => "to_do"
  | .toggle _ => "toggle"
  | .quote _ => "quote"
  | .code _ _ => "code"
  | .divider => "divider"
  | .unsupported t => t

/-- The list continuity test of getPageContent (unnamed/part_000 900). -/
def listLike (b : Block) : Bool :=
  typeName b == "bulleted_list_item" || typeName b == "numbered_list_item" ||
    typeName b == "to_do"

/-- The joined plain text of a block, the value the round trip preserves. -/
def blockText : Block → String
  | .paragraph ts => String.join ts
  | .heading_1 ts => String.join ts
  | .heading_2 ts => String.join ts
  | .heading_3 ts => String.join ts
  | .bulleted_list_item ts => String.join ts
  | .numbered_list_item ts => String.join ts
  | .to_do _ ts => String.join ts
  | .toggle ts => String.join ts
  | .quote ts => String.join ts
  | .code _ ts => String.join ts
  | .divider => ""
  | .unsupported _ => ""

def blockChecked : Block → Bool
  | .to_do ck _ => ck
  | _ => false

def blockLang : Block → String
  | .code lang _ => lang
  | _ => ""

/-- Equivalence of blocks up to rich text segmentation: same kind, same
joined text, same checkbox flag, same code language. -/
def blockEquiv (a b : Block) : Bool :=
  typeName a == typeName b && blockText a == blockText b &&
    blockChecked a == blockChecked b && blockLang a == blockLang b

/-- NotionImporterPlugin.blockToMarkdown (unnamed/part_000 923-1008) with no
children: the markdown text of one block.  A toggle renders as a bulleted
item, a code block wraps its text in fences, unsupported kinds render
empty. -/
def mdOf : Block → List Char
  | .paragraph ts => (String.join ts).data
  | .heading_1 ts => "# ".data ++ (String.join ts).data
  | .heading_2 ts => "## ".data ++ (String.join ts).data
  | .heading_3 ts => "### ".data ++ (String.join ts).data
  | .bulleted_list_item ts => "- ".data ++ (String.join ts).data
  | .numbered_list_item ts => "1. ".data ++ (String.join ts).data
  | .to_do ck ts =>
    (if ck then "- [x] " else "- [ ] ").data ++ (String.join ts).data
  | .toggle ts => "- ".data ++ (String.join ts).data
  | .code lang ts =>
    "```".data ++ lang.data ++ '\n' :: (String.join ts).data ++ "\n```".data
  | .quote ts => "> ".data ++ (String.join ts).data
  | .divider => "---".data
  | .unsupported _ => []

/-- One iteration of the formatting loop of getPageContent (unnamed/part_000
888-915): state is the current list type and the formatted text; empty
markdown is skipped, list runs stay adjacent, a blank line separates list
type switches and non list blocks get a blank line after them. -/
def encodeStep (st : String × List Char) (b : Block) : String × List Char :=
  if mdOf b = [] then st
  else if listLike b then
    if st.1 ≠ typeName b then
      (typeName b, (st.2 ++ (if st.1 ≠ "" then ['\n'] else [])) ++ mdOf b ++ ['\n'])
    else (st.1, st.2 ++ mdOf b ++ ['\n'])
  else
    ("", (st.2 ++ (if st.1 ≠ "" then ['\n'] else [])) ++ mdOf b ++ ['\n', '\n'])

/-- The block part of getPageContent (unnamed/part_000 884-917): run the
formatting loop from an empty state and trim the result. -/
def encodePage (blocks : List Block) : String :=
  String.mk (jsTrimList (blocks.foldl encodeStep ("", [])).2)

/-- The lines the decoder receives back, before the final trim: markdown
lines with blank separator lines, without the trailing newlines. -/
def decLines : String → List Block → List (List Char)
  | _, [] => []
  | clt, b :: rest =>
    if listLike b then
      (if clt ≠ "" && clt ≠ typeName b then [[]] else []) ++
        mdOf b :: decLines (typeName b) rest
    else
      (if clt ≠ "" then [[]] else []) ++
        (match rest with
         | [] => [mdOf b]
         | _ => mdOf b :: [] :: decLines "" rest)

/-- The count of trailing newlines the formatting loop leaves after the last
line. -/
def tailNl : List Block → ℕ
  | [] => 0
  | [b] => if listLike b then 1 else 2
  | _ :: rest => tailNl rest

/-- What one safe block decodes back to: the same block with its rich text
joined into one run. -/
def reEncode : Block → Block
  | .paragraph ts => .paragraph [String.join ts]
  | .heading_1 ts => .heading_1 [String.join ts]
  | .heading_2 ts => .heading_2 [String.join ts]
  | .heading_3 ts => .heading_3 [String.join ts]
  | .bulleted_list_item ts => .bulleted_list_item [String.join ts]
  | .numbered_list_item ts => .numbered_list_item [String.join ts]
  | .to_do ck ts => .to_do ck [String.join ts]
  | .quote ts => .quote [String.join ts]
  | b => b

/-- Plain block text: nonempty, newline free, not starting or ending with
whitespace. -/
def plainTextStr (s : String) : Bool :=
  s.data ≠ [] && s.data.all (fun c => !(c = '\n')) &&
    !(isJsSpace (s.data.headD ' ')) && !(isJsSpace (s.data.getLastD ' '))

/-- The block subset on which the codec round trips: toggles, code blocks
and unsupported kinds are excluded, texts are plain, and a text cannot
imitate the markdown marker of another kind. -/
def safeBlock : Block → Bool
  | .paragraph ts =>
    plainTextStr (String.join ts) &&
    !(List.isPrefixOf "# ".data (String.join ts).data) &&
    !(List.isPrefixOf "## ".data (String.join ts).data) &&
    !(List.isPrefixOf "### ".data (String.join ts).data) &&
    !(List.isPrefixOf "- ".data (String.join ts).data) &&
    !(List.isPrefixOf "> ".data (String.join ts).data) &&
    !(List.isPrefixOf "```".data (String.join ts).data) &&
    (numberedSplit (String.join ts).data).isNone &&
    !((String.join ts).data == "---".data)
  | .heading_1 ts => plainTextStr (String.join ts)
  | .heading_2 ts => plainTextStr (String.join ts)
  | .heading_3 ts => plainTextStr (String.join ts)
  | .bulleted_list_item ts =>
    plainTextStr (String.join ts) &&
    !(List.isPrefixOf "[x]".data (String.join ts).data) &&
    !(List.isPrefixOf "[ ]".data (String.join ts).data)
  | .numbered_list_item ts => plainTextStr (String.join ts)
  | .to_do ck ts =>
    plainTextStr (String.join ts) &&
    (ck || !(containsSub "[x]".data (String.join ts).data))
  | .quote ts => plainTextStr (String.join ts)
  | .divider => true
  | .toggle _ => false
  | .code _ _ => false
  | .unsupported _ => false

theorem flush_id {st : MdState} (h : st.currentParagraph = []) :
    flushParagraph st = st := by
  unfold flushParagraph
  rw [if_pos h]

theorem dropWhile_replicate (p : Char → Bool) (k : ℕ) (c : Char)
    (h : p c = true) : (List.replicate k c).dropWhile p = [] := by
  induction k with
  | zero => rfl
  | succ n ih => rw [List.replicate_succ, List.dropWhile_cons_of_pos h, ih]

/-- Trimming text wrapped in trailing newlines recovers the text when its
edges are not whitespace. -/
theorem jsTrim_wrap (X : List Char) (k : ℕ)
    (hh : ∀ c, X.head? = some c → isJsSpace c = false)
    (hl : ∀ c, X.getLast? = some c → isJsSpace c = false) :
    jsTrimList (X ++ List.replicate k '\n') = X := by
  cases X with
  | nil =>
    rw [List.nil_append]
    unfold jsTrimList
    rw [dropWhile_replicate _ _ _ (by decide)]
    rfl
  | cons a t =>
    unfold jsTrimList
    rw [List.cons_append, List.dropWhile_cons_of_neg (by simp [hh a rfl])]
    rw [← List.cons_append, List.reverse_append, List.reverse_replicate]
    rw [List.dropWhile_append, dropWhile_replicate _ _ _ (by decide)]
    rw [if_pos (show ([] : List Char).isEmpty = true from rfl)]
    have hrev : (a :: t).reverse.dropWhile isJsSpace = (a :: t).reverse := by
      apply dropWhile_eq_self_of_head
      intro c hc
      rw [List.head?_reverse] at hc
      exact hl c hc
    rw [hrev, List.reverse_reverse]

theorem jsTrimList_ne_nil {l : List Char} {c : Char} (h : l.head? = some c)
    (hc : isJsSpace c = false) : jsTrimList l ≠ [] := by
  cases l with
  | nil => cases h
  | cons a t =>
    simp only [List.head?_cons, Option.some.injEq] at h
    subst h
    intro hnil
    unfold jsTrimList at hnil
    rw [List.dropWhile_cons_of_neg (by simp [hc]), List.reverse_eq_nil_iff] at hnil
    rw [show (a :: t).reverse = t.reverse ++ [a] from by simp,
      List.dropWhile_append] at hnil
    by_cases he : (t.reverse.dropWhile isJsSpace).isEmpty = true
    · rw [if_pos he, List.dropWhile_cons_of_neg (by simp [hc])] at hnil
      cases hnil
    · rw [if_neg he] at hnil
      exact absurd hnil (by simp)

theorem plainTextStr_props {s : String} (h : plainTextStr s = true) :
    s.data ≠ [] ∧ ('\n' ∉ s.data) ∧
      (∀ c, s.data.head? = some c → isJsSpace c = false) ∧
      (∀ c, s.data.getLast? = some c → isJsSpace c = false) := by
  unfold plainTextStr at h
  simp only [Bool.and_eq_true, decide_eq_true_eq, List.all_eq_true,
    Bool.not_eq_true'] at h
  obtain ⟨⟨⟨hne, hnl⟩, hh⟩, hl⟩ := h
  refine ⟨hne, ?_, ?_, ?_⟩
  · intro hm
    have := hnl _ hm
    simp at this
  · intro c hc
    have : s.data.headD ' ' = c := by rw [List.headD_eq_head?, hc]; rfl
    rwa [this] at hh
  · intro c hc
    have : s.data.getLastD ' ' = c := by rw [List.getLastD_eq_getLast?, hc]; rfl
    rwa [this] at hl

theorem joinLines_head_ne_nil (l : List Char) (ls : List (List Char))
    (h : l ≠ []) : (joinLines (l :: ls)).head? = l.head? := by
  show (l ++ ((ls.map fun m => '\n' :: m).flatten)).head? = l.head?
  exact List.head?_append_of_ne_nil _ h

theorem joinLines_getLast (L : List (List Char)) (l : List Char)
    (hL : L.getLast? = some l) (hl : l ≠ []) :
    (joinLines L).getLast? = l.getLast? := by
  induction L with
  | nil => cases hL
  | cons x rest ih =>
    cases rest with
    | nil =>
      have hx : x = l := by simpa using hL
      subst hx
      rw [show joinLines [x] = x from by simp [joinLines]]
    | cons y r =>
      have hL' : (y :: r).getLast? = some l := by
        rw [← hL]
        rfl
      have ihv := ih hL'
      have hne : joinLines (y :: r) ≠ [] := by
        intro hnil
        rw [hnil, List.getLast?_eq_getLast l hl] at ihv
        cases ihv
      rw [joinLines_cons_cons]
      rw [List.getLast?_append_of_ne_nil _ (by simp)]
      rw [show ('\n' :: joinLines (y :: r)).getLast? =
        (joinLines (y :: r)).getLast? from by
          cases hj : joinLines (y :: r) with
          | nil => cases hne hj
          | cons a b => simp [List.getLast?_cons_cons]]
      exact ihv

theorem bool_neg {b : Bool} (h : b = false) : ¬(b = true) := by
  rw [h]
  exact Bool.false_ne_true

theorem prefix_true (P j : List Char) : List.isPrefixOf P (P ++ j) = true :=
  List.isPrefixOf_iff_prefix.mpr (List.prefix_append _ _)

theorem isPrefixOf_append_cancel (P A B : List Char) :
    List.isPrefixOf (P ++ A) (P ++ B) = List.isPrefixOf A B := by
  induction P with
  | nil => rfl
  | cons p t ih => simp [List.isPrefixOf, ih]

theorem containsSub_false_of (pat A B : List Char)
    (h1 : ∀ i < A.length, pat.isPrefixOf ((A ++ B).drop i) = false)
    (h2 : containsSub pat B = false) : containsSub pat (A ++ B) = false := by
  induction A with
  | nil => exact h2
  | cons a t ih =>
    rw [List.cons_append]
    rw [show containsSub pat (a :: (t ++ B)) =
      (pat.isPrefixOf (a :: (t ++ B)) || containsSub pat (t ++ B)) from rfl]
    have h0 := h1 0 (by simp)
    rw [show ((a :: t) ++ B).drop 0 = a :: (t ++ B) from rfl] at h0
    rw [h0, ih (fun i hi => by
      have := h1 (i + 1) (by simp; omega)
      rwa [show ((a :: t) ++ B).drop (i + 1) = (t ++ B).drop i from rfl] at this)]
    rfl

/- ### Evaluating processLine on each encoded line -/

theorem processLine_h1 (st : MdState) (hst : st.currentParagraph = [])
    (j : List Char) :
    processLine st ("# ".data ++ j) =
      { blocks := st.blocks ++ [Block.heading_1 [String.mk j]],
        currentParagraph := [] } := by
  unfold processLine
  rw [if_neg (jsTrimList_ne_nil
    (show ("# ".data ++ j).head? = some (Char.ofNat 35) from rfl) (by decide))]
  rw [if_pos (prefix_true "# ".data j)]
  show MdState.mk ((flushParagraph st).blocks ++
      [Block.heading_1 [String.mk (("# ".data ++ j).drop 2)]])
      (flushParagraph st).currentParagraph =
    MdState.mk (st.blocks ++ [Block.heading_1 [String.mk j]]) []
  rw [flush_id hst, hst]
  rfl

theorem processLine_h2 (st : MdState) (hst : st.currentParagraph = [])
    (j : List Char) :
    processLine st ("## ".data ++ j) =
      { blocks := st.blocks ++ [Block.heading_2 [String.mk j]],
        currentParagraph := [] } := by
  unfold processLine
  rw [if_neg (jsTrimList_ne_nil
    (show ("## ".data ++ j).head? = some (Char.ofNat 35) from rfl) (by decide))]
  rw [if_neg (bool_neg (show List.isPrefixOf "# ".data ("## ".data ++ j) = false
    from rfl))]
  rw [if_pos (prefix_true "## ".data j)]
  show MdState.mk ((flushParagraph st).blocks ++
      [Block.heading_2 [String.mk (("## ".data ++ j).drop 3)]])
      (flushParagraph st).currentParagraph =
    MdState.mk (st.blocks ++ [Block.heading_2 [String.mk j]]) []
  rw [flush_id hst, hst]
  rfl

theorem processLine_h3 (st : MdState) (hst : st.currentParagraph = [])
    (j : List Char) :
    processLine st ("### ".data ++ j) =
      { blocks := st.blocks ++ [Block.heading_3 [String.mk j]],
        currentParagraph := [] } := by
  unfold processLine
  rw [if_neg (jsTrimList_ne_nil
    (show ("### ".data ++ j).head? = some (Char.ofNat 35) from rfl) (by decide))]
  rw [if_neg (bool_neg (show List.isPrefixOf "# ".data ("### ".data ++ j) = false
    from rfl))]
  rw [if_neg (bool_neg (show List.isPrefixOf "## ".data ("### ".data ++ j) = false
    from rfl))]
  rw [if_pos (prefix_true "### ".data j)]
  show MdState.mk ((flushParagraph st).blocks ++
      [Block.heading_3 [String.mk (("### ".data ++ j).drop 4)]])
      (flushParagraph st).currentParagraph =
    MdState.mk (st.blocks ++ [Block.heading_3 [String.mk j]]) []
  rw [flush_id hst, hst]
  rfl

theorem processLine_bullet (st : MdState) (hst : st.currentParagraph = [])
    (j : List Char)
    (h1 : List.isPrefixOf "[x]".data j = false)
    (h2 : List.isPrefixOf "[ ]".data j = false) :
    processLine st ("- ".data ++ j) =
      { blocks := st.blocks ++ [Block.bulleted_list_item [String.mk j]],
        currentParagraph := [] } := by
  have htodo : isToDoLine ("- ".data ++ j) = false := by
    unfold isToDoLine
    rw [show ("- [x]".data : List Char) = "- ".data ++ "[x]".data from rfl,
      show ("- [ ]".data : List Char) = "- ".data ++ "[ ]".data from rfl,
      isPrefixOf_append_cancel, isPrefixOf_append_cancel, h1, h2]
    rfl
  unfold processLine
  rw [if_neg (jsTrimList_ne_nil
    (show ("- ".data ++ j).head? = some (Char.ofNat 45) from rfl) (by decide))]
  rw [if_neg (bool_neg (show List.isPrefixOf "# ".data ("- ".data ++ j) = false
    from rfl))]
  rw [if_neg (bool_neg (show List.isPrefixOf "## ".data ("- ".data ++ j) = false
    from rfl))]
  rw [if_neg (bool_neg (show List.isPrefixOf "### ".data ("- ".data ++ j) = false
    from rfl))]
  rw [if_pos (show (List.isPrefixOf "- ".data ("- ".data ++ j) &&
    !isToDoLine ("- ".data ++ j)) = true from by
      rw [htodo, prefix_true]
      rfl)]
  show MdState.mk ((flushParagraph st).blocks ++
      [Block.bulleted_list_item [String.mk (("- ".data ++ j).drop 2)]])
      (flushParagraph st).currentParagraph =
    MdState.mk (st.blocks ++ [Block.bulleted_list_item [String.mk j]]) []
  rw [flush_id hst, hst]
  rfl

theorem numberedSplit_one (j : List Char) :
    numberedSplit ("1. ".data ++ j) = some j := by
  unfold numberedSplit
  show (if (("1. ".data ++ j).takeWhile Char.isDigit).length != 0 &&
      List.isPrefixOf ['.', ' ']
        (("1. ".data ++ j).drop (("1. ".data ++ j).takeWhile Char.isDigit).length)
    then some ((("1. ".data ++ j).drop
        (("1. ".data ++ j).takeWhile Char.isDigit).length).drop 2)
    else none) = some j
  rw [show ("1. ".data ++ j).takeWhile Char.isDigit = ['1'] from rfl]
  rw [show ("1. ".data ++ j).drop (['1'] : List Char).length = ['.', ' '] ++ j
    from rfl]
  rw [prefix_true ['.', ' '] j]
  rw [if_pos (show ((['1'] : List Char).length != 0 && true) = true from rfl)]
  rfl

theorem processLine_numbered (st : MdState) (hst : st.currentParagraph = [])
    (j : List Char) :
    processLine st ("1. ".data ++ j) =
      { blocks := st.blocks ++ [Block.numbered_list_item [String.mk j]],
        currentParagraph := [] } := by
  unfold processLine
  rw [if_neg (jsTrimList_ne_nil
    (show ("1. ".data ++ j).head? = some '1' from rfl) (by decide))]
  rw [if_neg (bool_neg (show List.isPrefixOf "# ".data ("1. ".data ++ j) = false
    from rfl))]
  rw [if_neg (bool_neg (show List.isPrefixOf "## ".data ("1. ".data ++ j) = false
    from rfl))]
  rw [if_neg (bool_neg (show List.isPrefixOf "### ".data ("1. ".data ++ j) = false
    from rfl))]
  rw [if_neg (bool_neg (show (List.isPrefixOf "- ".data ("1. ".data ++ j) &&
    !isToDoLine ("1. ".data ++ j)) = false from rfl))]
  rw [if_neg (bool_neg (show isToDoLine ("1. ".data ++ j) = false from rfl))]
  rw [numberedSplit_one j]
  show MdState.mk ((flushParagraph st).blocks ++
      [Block.numbered_list_item [String.mk j]])
      (flushParagraph st).currentParagraph =
    MdState.mk (st.blocks ++ [Block.numbered_list_item [String.mk j]]) []
  rw [flush_id hst, hst]

theorem processLine_todo (st : MdState) (hst : st.currentParagraph = [])
    (ck : Bool) (j : List Char)
    (hjh : ∀ c, j.head? = some c → isJsSpace c = false)
    (hcs : containsSub "[x]".data
      ((if ck then "- [x] " else "- [ ] ").data ++ j) = ck) :
    processLine st ((if ck then "- [x] " else "- [ ] ").data ++ j) =
      { blocks := st.blocks ++ [Block.to_do ck [String.mk j]],
        currentParagraph := [] } := by
  cases ck
  case false =>
    rw [show ((if false then "- [x] " else "- [ ] ") : String) = "- [ ] "
      from rfl] at hcs ⊢
    unfold processLine
    rw [if_neg (jsTrimList_ne_nil
      (show ("- [ ] ".data ++ j).head? = some (Char.ofNat 45) from rfl) (by decide))]
    rw [if_neg (bool_neg (show List.isPrefixOf "# ".data ("- [ ] ".data ++ j) = false
      from rfl))]
    rw [if_neg (bool_neg (show List.isPrefixOf "## ".data ("- [ ] ".data ++ j) = false
      from rfl))]
    rw [if_neg (bool_neg (show List.isPrefixOf "### ".data ("- [ ] ".data ++ j) = false
      from rfl))]
    rw [if_neg (bool_neg (show (List.isPrefixOf "- ".data ("- [ ] ".data ++ j) &&
      !isToDoLine ("- [ ] ".data ++ j)) = false from rfl))]
    rw [if_pos (show isToDoLine ("- [ ] ".data ++ j) = true from rfl)]
    show MdState.mk ((flushParagraph st).blocks ++
        [Block.to_do (containsSub "[x]".data ("- [ ] ".data ++ j))
          [String.mk ((("- [ ] ".data ++ j).drop 5).dropWhile isJsSpace)]])
        (flushParagraph st).currentParagraph =
      MdState.mk (st.blocks ++ [Block.to_do false [String.mk j]]) []
    rw [flush_id hst, hst, hcs]
    rw [show (("- [ ] ".data ++ j).drop 5) = ' ' :: j from rfl]
    rw [List.dropWhile_cons_of_pos (by decide)]
    rw [dropWhile_eq_self_of_head _ _ hjh]
  case true =>
    rw [show ((if true then "- [x] " else "- [ ] ") : String) = "- [x] "
      from rfl] at hcs ⊢
    unfold processLine
    rw [if_neg (jsTrimList_ne_nil
      (show ("- [x] ".data ++ j).head? = some (Char.ofNat 45) from rfl) (by decide))]
    rw [if_neg (bool_neg (show List.isPrefixOf "# ".data ("- [x] ".data ++ j) = false
      from rfl))]
    rw [if_neg (bool_neg (show List.isPrefixOf "## ".data ("- [x] ".data ++ j) = false
      from rfl))]
    rw [if_neg (bool_neg (show List.isPrefixOf "### ".data ("- [x] ".data ++ j) = false
      from rfl))]
    rw [if_neg (bool_neg (show (List.isPrefixOf "- ".data ("- [x] ".data ++ j) &&
      !isToDoLine ("- [x] ".data ++ j)) = false from rfl))]
    rw [if_pos (show isToDoLine ("- [x] ".data ++ j) = true from rfl)]
    show MdState.mk ((flushParagraph st).blocks ++
        [Block.to_do (containsSub "[x]".data ("- [x] ".data ++ j))
          [String.mk ((("- [x] ".data ++ j).drop 5).dropWhile isJsSpace)]])
        (flushParagraph st).currentParagraph =
      MdState.mk (st.blocks ++ [Block.to_do true [String.mk j]]) []
    rw [flush_id hst, hst, hcs]
    rw [show (("- [x] ".data ++ j).drop 5) = ' ' :: j from rfl]
    rw [List.dropWhile_cons_of_pos (by decide)]
    rw [dropWhile_eq_self_of_head _ _ hjh]

theorem processLine_quote (st : MdState) (hst : st.currentParagraph = [])
    (j : List Char) :
    processLine st ("> ".data ++ j) =
      { blocks := st.blocks ++ [Block.quote [String.mk j]],
        currentParagraph := [] } := by
  unfold processLine
  rw [if_neg (jsTrimList_ne_nil
    (show ("> ".data ++ j).head? = some (Char.ofNat 62) from rfl) (by decide))]
  rw [if_neg (bool_neg (show List.isPrefixOf "# ".data ("> ".data ++ j) = false
    from rfl))]
  rw [if_neg (bool_neg (show List.isPrefixOf "## ".data ("> ".data ++ j) = false
    from rfl))]
  rw [if_neg (bool_neg (show List.isPrefixOf "### ".data ("> ".data ++ j) = false
    from rfl))]
  rw [if_neg (bool_neg (show (List.isPrefixOf "- ".data ("> ".data ++ j) &&
    !isToDoLine ("> ".data ++ j)) = false from rfl))]
  rw [if_neg (bool_neg (show isToDoLine ("> ".data ++ j) = false from rfl))]
  rw [show numberedSplit ("> ".data ++ j) = none from rfl]
  rw [if_pos (prefix_true "> ".data j)]
  show MdState.mk ((flushParagraph st).blocks ++
      [Block.quote [String.mk (("> ".data ++ j).drop 2)]])
      (flushParagraph st).currentParagraph =
    MdState.mk (st.blocks ++ [Block.quote [String.mk j]]) []
  rw [flush_id hst, hst]
  rfl

theorem processLine_divider (st : MdState) (hst : st.currentParagraph = []) :
    processLine st "---".data =
      { blocks := st.blocks ++ [Block.divider], currentParagraph := [] } := by
  unfold processLine
  rw [if_neg (show ¬(jsTrimList "---".data = []) from by decide)]
  rw [if_neg (bool_neg (show List.isPrefixOf "# ".data "---".data = false from rfl))]
  rw [if_neg (bool_neg (show List.isPrefixOf "## ".data "---".data = false from rfl))]
  rw [if_neg (bool_neg (show List.isPrefixOf "### ".data "---".data = false from rfl))]
  rw [if_neg (bool_neg (show (List.isPrefixOf "- ".data "---".data &&
    !isToDoLine "---".data) = false from rfl))]
  rw [if_neg (bool_neg (show isToDoLine "---".data = false from rfl))]
  rw [show numberedSplit "---".data = none from rfl]
  rw [if_neg (bool_neg (show List.isPrefixOf "> ".data "---".data = false from rfl))]
  rw [if_pos (show jsTrimList "---".data = "---".data from by decide)]
  show MdState.mk ((flushParagraph st).blocks ++ [Block.divider])
      (flushParagraph st).currentParagraph =
    MdState.mk (st.blocks ++ [Block.divider]) []
  rw [flush_id hst, hst]

theorem processLine_para (st : MdState) (hst : st.currentParagraph = [])
    (j : List Char)
    (hjne : j ≠ [])
    (hjh : ∀ c, j.head? = some c → isJsSpace c = false)
    (hjl : ∀ c, j.getLast? = some c → isJsSpace c = false)
    (hp1 : List.isPrefixOf "# ".data j = false)
    (hp2 : List.isPrefixOf "## ".data j = false)
    (hp3 : List.isPrefixOf "### ".data j = false)
    (hp4 : List.isPrefixOf "- ".data j = false)
    (hp5 : List.isPrefixOf "> ".data j = false)
    (hp6 : List.isPrefixOf "```".data j = false)
    (hp7 : numberedSplit j = none)
    (hp8 : j ≠ "---".data) :
    processLine st j = { blocks := st.blocks, currentParagraph := j } := by
  have hhead : ∃ c, j.head? = some c := by
    cases j with
    | nil => cases hjne rfl
    | cons a t => exact ⟨a, rfl⟩
  obtain ⟨c0, hc0⟩ := hhead
  have htodo : isToDoLine j = false := by
    unfold isToDoLine
    have hx : List.isPrefixOf "- [x]".data j = false := by
      by_contra hcon
      rw [Bool.not_eq_false] at hcon
      have hpre := List.isPrefixOf_iff_prefix.mp hcon
      have h2 : ("- ".data : List Char) <+: "- [x]".data := by decide
      exact absurd (List.isPrefixOf_iff_prefix.mpr (h2.trans hpre)) (bool_neg hp4)
    have hsp : List.isPrefixOf "- [ ]".data j = false := by
      by_contra hcon
      rw [Bool.not_eq_false] at hcon
      have hpre := List.isPrefixOf_iff_prefix.mp hcon
      have h2 : ("- ".data : List Char) <+: "- [ ]".data := by decide
      exact absurd (List.isPrefixOf_iff_prefix.mpr (h2.trans hpre)) (bool_neg hp4)
    rw [hx, hsp]
    rfl
  unfold processLine
  rw [if_neg (jsTrimList_ne_nil hc0 (hjh c0 hc0))]
  rw [if_neg (bool_neg hp1), if_neg (bool_neg hp2), if_neg (bool_neg hp3)]
  rw [if_neg (bool_neg (show (List.isPrefixOf "- ".data j && !isToDoLine j) = false
    from by rw [hp4]; rfl))]
  rw [if_neg (bool_neg htodo)]
  rw [hp7]
  rw [if_neg (bool_neg hp5)]
  rw [if_neg (show ¬(jsTrimList j = "---".data) from by
    rw [jsTrimList_eq_self j hjh hjl]
    exact hp8)]
  rw [if_neg (bool_neg hp6)]
  show MdState.mk st.blocks
      (if st.currentParagraph = [] then j else st.currentParagraph ++ '\n' :: j) =
    MdState.mk st.blocks j
  rw [if_pos hst]

/- ### Facts about the markdown of a safe block -/

theorem processLine_blank (st : MdState) : processLine st [] = flushParagraph st :=
  rfl

theorem append_ne_nil_left {P X : List Char} (h : P ≠ []) : P ++ X ≠ [] := by
  intro hc
  rw [List.append_eq_nil] at hc
  exact h hc.1

theorem no_nl_append {P X : List Char} (hP : '\n' ∉ P) (hX : '\n' ∉ X) :
    '\n' ∉ P ++ X := by
  rw [List.mem_append]
  rintro (h | h)
  exacts [hP h, hX h]

theorem ws_head_append {P X : List Char} {c0 : Char} (hP : P.head? = some c0)
    (hc0 : isJsSpace c0 = false) :
    ∀ c, (P ++ X).head? = some c → isJsSpace c = false := by
  intro c hc
  rw [List.head?_append_of_ne_nil _ (by intro h; rw [h] at hP; cases hP)] at hc
  rw [hP] at hc
  injection hc with h
  rw [← h]
  exact hc0

theorem ws_last_append {P X : List Char} (hX : X ≠ [])
    (hl : ∀ c, X.getLast? = some c → isJsSpace c = false) :
    ∀ c, (P ++ X).getLast? = some c → isJsSpace c = false := by
  intro c hc
  rw [List.getLast?_append_of_ne_nil _ hX] at hc
  exact hl c hc

theorem containsSub_todo_true (j : List Char) :
    containsSub "[x]".data ("- [x] ".data ++ j) = true := rfl

theorem containsSub_todo_false (j : List Char)
    (hc : containsSub "[x]".data j = false) :
    containsSub "[x]".data ("- [ ] ".data ++ j) = false := by
  apply containsSub_false_of
  · intro i hi
    rw [show ("- [ ] ".data : List Char).length = 6 from rfl] at hi
    interval_cases i <;> rfl
  · exact hc

/-- The markdown line of a safe block is nonempty, newline free, and has no
whitespace at either edge. -/
theorem mdOf_props (b : Block) (hb : safeBlock b = true) :
    mdOf b ≠ [] ∧ ('\n' ∉ mdOf b) ∧
      (∀ c, (mdOf b).head? = some c → isJsSpace c = false) ∧
      (∀ c, (mdOf b).getLast? = some c → isJsSpace c = false) := by
  cases b with
  | paragraph ts =>
    have hp : plainTextStr (String.join ts) = true := by
      simp only [safeBlock, Bool.and_eq_true] at hb
      exact hb.1.1.1.1.1.1.1.1
    obtain ⟨hne, hnl, hh, hl⟩ := plainTextStr_props hp
    exact ⟨hne, hnl, hh, hl⟩
  | heading_1 ts =>
    obtain ⟨hne, hnl, hh, hl⟩ :=
      plainTextStr_props (show plainTextStr (String.join ts) = true from hb)
    exact ⟨append_ne_nil_left (by decide), no_nl_append (by decide) hnl,
      ws_head_append (show ("# ".data : List Char).head? = some (Char.ofNat 35)
        from rfl) (by decide),
      ws_last_append hne hl⟩
  | heading_2 ts =>
    obtain ⟨hne, hnl, hh, hl⟩ :=
      plainTextStr_props (show plainTextStr (String.join ts) = true from hb)
    exact ⟨append_ne_nil_left (by decide), no_nl_append (by decide) hnl,
      ws_head_append (show ("## ".data : List Char).head? = some (Char.ofNat 35)
        from rfl) (by decide),
      ws_last_append hne hl⟩
  | heading_3 ts =>
    obtain ⟨hne, hnl, hh, hl⟩ :=
      plainTextStr_props (show plainTextStr (String.join ts) = true from hb)
    exact ⟨append_ne_nil_left (by decide), no_nl_append (by decide) hnl,
      ws_head_append (show ("### ".data : List Char).head? = some (Char.ofNat 35)
        from rfl) (by decide),
      ws_last_append hne hl⟩
  | bulleted_list_item ts =>
    have hp : plainTextStr (String.join ts) = true := by
      simp only [safeBlock, Bool.and_eq_true] at hb
      exact hb.1.1
    obtain ⟨hne, hnl, hh, hl⟩ := plainTextStr_props hp
    exact ⟨append_ne_nil_left (by decide), no_nl_append (by decide) hnl,
      ws_head_append (show ("- ".data : List Char).head? = some (Char.ofNat 45)
        from rfl) (by decide),
      ws_last_append hne hl⟩
  | numbered_list_item ts =>
    obtain ⟨hne, hnl, hh, hl⟩ :=
      plainTextStr_props (show plainTextStr (String.join ts) = true from hb)
    exact ⟨append_ne_nil_left (by decide), no_nl_append (by decide) hnl,
      ws_head_append (show ("1. ".data : List Char).head? = some '1' from rfl)
        (by decide),
      ws_last_append hne hl⟩
  | to_do ck ts =>
    have hp : plainTextStr (String.join ts) = true := by
      simp only [safeBlock, Bool.and_eq_true] at hb
      exact hb.1
    obtain ⟨hne, hnl, hh, hl⟩ := plainTextStr_props hp
    exact ⟨append_ne_nil_left (by cases ck <;> decide),
      no_nl_append (by cases ck <;> decide) hnl,
      ws_head_append (show ((if ck then "- [x] " else "- [ ] ") : String).data.head?
        = some (Char.ofNat 45) from by cases ck <;> rfl) (by decide),
      ws_last_append hne hl⟩
  | quote ts =>
    obtain ⟨hne, hnl, hh, hl⟩ :=
      plainTextStr_props (show plainTextStr (String.join ts) = true from hb)
    exact ⟨append_ne_nil_left (by decide), no_nl_append (by decide) hnl,
      ws_head_append (show ("> ".data : List Char).head? = some (Char.ofNat 62)
        from rfl) (by decide),
      ws_last_append hne hl⟩
  | divider =>
    refine ⟨by decide, by decide, ?_, ?_⟩
    · intro c hc
      rw [show (mdOf Block.divider).head? = some (Char.ofNat 45) from rfl] at hc
      injection hc with h
      rw [← h]
      decide
    · intro c hc
      rw [show (mdOf Block.divider).getLast? = some (Char.ofNat 45) from rfl] at hc
      injection hc with h
      rw [← h]
      decide
  | toggle ts => simp [safeBlock] at hb
  | code lang ts => simp [safeBlock] at hb
  | unsupported t => simp [safeBlock] at hb

/-- Decoding the markdown line of a safe non paragraph block appends exactly
the re-encoded block. -/
theorem processLine_mdOf (st : MdState) (hst : st.currentParagraph = [])
    (b : Block) (hb : safeBlock b = true) (hnp : typeName b ≠ "paragraph") :
    processLine st (mdOf b) =
      { blocks := st.blocks ++ [reEncode b], currentParagraph := [] } := by
  cases b with
  | paragraph ts => exact absurd rfl hnp
  | heading_1 ts =>
    rw [show mdOf (Block.heading_1 ts) = "# ".data ++ (String.join ts).data
      from rfl]
    rw [processLine_h1 st hst]
    rfl
  | heading_2 ts =>
    rw [show mdOf (Block.heading_2 ts) = "## ".data ++ (String.join ts).data
      from rfl]
    rw [processLine_h2 st hst]
    rfl
  | heading_3 ts =>
    rw [show mdOf (Block.heading_3 ts) = "### ".data ++ (String.join ts).data
      from rfl]
    rw [processLine_h3 st hst]
    rfl
  | bulleted_list_item ts =>
    simp only [safeBlock, Bool.and_eq_true, Bool.not_eq_true'] at hb
    rw [show mdOf (Block.bulleted_list_item ts) = "- ".data ++ (String.join ts).data
      from rfl]
    rw [processLine_bullet st hst _ hb.1.2 hb.2]
    rfl
  | numbered_list_item ts =>
    rw [show mdOf (Block.numbered_list_item ts) = "1. ".data ++ (String.join ts).data
      from rfl]
    rw [processLine_numbered st hst]
    rfl
  | to_do ck ts =>
    simp only [safeBlock, Bool.and_eq_true] at hb
    obtain ⟨hp, hck⟩ := hb
    obtain ⟨hne, hnl, hh, hl⟩ := plainTextStr_props hp
    rw [show mdOf (Block.to_do ck ts) =
      (if ck then "- [x] " else "- [ ] ").data ++ (String.join ts).data from rfl]
    have hcs : containsSub "[x]".data
        ((if ck then "- [x] " else "- [ ] ").data ++ (String.join ts).data) = ck := by
      cases ck with
      | true => exact containsSub_todo_true _
      | false =>
        rw [Bool.false_or] at hck
        exact containsSub_todo_false _ (by simpa using hck)
    rw [processLine_todo st hst ck _ hh hcs]
    rfl
  | quote ts =>
    rw [show mdOf (Block.quote ts) = "> ".data ++ (String.join ts).data from rfl]
    rw [processLine_quote st hst]
    rfl
  | divider =>
    rw [show mdOf Block.divider = "---".data from rfl]
    rw [processLine_divider st hst]
    rfl
  | toggle ts => simp [safeBlock] at hb
  | code lang ts => simp [safeBlock] at hb
  | unsupported t => simp [safeBlock] at hb

/-- Decoding the markdown line of a safe paragraph block makes its text the
pending paragraph. -/
theorem processLine_mdOf_para (st : MdState) (hst : st.currentParagraph = [])
    (ts : List String) (hb : safeBlock (Block.paragraph ts) = true) :
    processLine st (mdOf (Block.paragraph ts)) =
      { blocks := st.blocks, currentParagraph := (String.join ts).data } := by
  simp only [safeBlock, Bool.and_eq_true, Bool.not_eq_true'] at hb
  obtain ⟨⟨⟨⟨⟨⟨⟨⟨hp, h1⟩, h2⟩, h3⟩, h4⟩, h5⟩, h6⟩, h7⟩, h8⟩ := hb
  obtain ⟨hne, hnl, hh, hl⟩ := plainTextStr_props hp
  exact processLine_para st hst _ hne hh hl h1 h2 h3 h4 h5 h6
    (Option.isNone_iff_eq_none.mp h7) (ne_of_beq_false h8)

/- ### Structure of the separated line list -/

theorem mem_blank {P : Prop} [Decidable P] {l : List Char}
    (h : l ∈ (if P then [[]] else ([] : List (List Char)))) : l = [] := by
  by_cases hP : P
  · rw [if_pos hP] at h
    simpa using h
  · rw [if_neg hP] at h
    cases h

theorem decLines_ne_nil (clt : String) (b : Block) (rest : List Block) :
    decLines clt (b :: rest) ≠ [] := by
  unfold decLines
  by_cases hlk : listLike b = true
  · rw [if_pos hlk]
    intro hc
    rw [List.append_eq_nil] at hc
    exact absurd hc.2 (by simp)
  · rw [if_neg hlk]
    intro hc
    rw [List.append_eq_nil] at hc
    cases rest with
    | nil => exact absurd hc.2 (by simp)
    | cons c r => exact absurd hc.2 (by simp)

theorem decLines_no_nl (blocks : List Block)
    (h : ∀ x ∈ blocks, safeBlock x = true) :
    ∀ clt l, l ∈ decLines clt blocks → '\n' ∉ l := by
  induction blocks with
  | nil =>
    intro clt l hl
    cases hl
  | cons b rest ih =>
    intro clt l hl
    have hb := h b (List.mem_cons_self _ _)
    have hrest : ∀ x ∈ rest, safeBlock x = true :=
      fun x hx => h x (List.mem_cons_of_mem _ hx)
    unfold decLines at hl
    by_cases hlk : listLike b = true
    · rw [if_pos hlk] at hl
      rw [List.mem_append] at hl
      rcases hl with hl | hl
      · rw [mem_blank hl]
        simp
      · rcases List.mem_cons.mp hl with hl | hl
        · rw [hl]
          exact (mdOf_props b hb).2.1
        · exact ih hrest _ _ hl
    · rw [if_neg hlk] at hl
      rw [List.mem_append] at hl
      rcases hl with hl | hl
      · rw [mem_blank hl]
        simp
      · cases rest with
        | nil =>
          have hl2 : l ∈ [mdOf b] := hl
          rw [List.mem_singleton.mp hl2]
          exact (mdOf_props b hb).2.1
        | cons c r =>
          have hl2 : l ∈ mdOf b :: [] :: decLines "" (c :: r) := hl
          rcases List.mem_cons.mp hl2 with h1 | h1
          · rw [h1]
            exact (mdOf_props b hb).2.1
          · rcases List.mem_cons.mp h1 with h2 | h2
            · rw [h2]
              simp
            · exact ih hrest "" l h2

theorem decLines_nil_head (b : Block) (rest : List Block) :
    ∃ L, decLines "" (b :: rest) = mdOf b :: L := by
  unfold decLines
  by_cases hlk : listLike b = true
  · rw [if_pos hlk]
    exact ⟨decLines (typeName b) rest, rfl⟩
  · rw [if_neg hlk]
    cases rest with
    | nil => exact ⟨[], rfl⟩
    | cons c r => exact ⟨[] :: decLines "" (c :: r), rfl⟩

theorem decLines_getLast (blocks : List Block) :
    ∀ clt b, blocks.getLast? = some b →
      (decLines clt blocks).getLast? = some (mdOf b) := by
  induction blocks with
  | nil =>
    intro clt b hL
    cases hL
  | cons x rest ih =>
    intro clt b hL
    cases rest with
    | nil =>
      have hbx : b = x := by simpa using hL.symm
      subst hbx
      unfold decLines
      by_cases hlk : listLike b = true
      · rw [if_pos hlk]
        rw [List.getLast?_append_of_ne_nil _ (by simp)]
        rfl
      · rw [if_neg hlk]
        rw [List.getLast?_append_of_ne_nil _ (by simp)]
        rfl
    | cons y r =>
      have hL2 : (y :: r).getLast? = some b := by
        rw [← hL]
        rfl
      unfold decLines
      by_cases hlk : listLike x = true
      · rw [if_pos hlk]
        rw [List.getLast?_append_of_ne_nil _ (by simp)]
        rw [show mdOf x :: decLines (typeName x) (y :: r) =
          [mdOf x] ++ decLines (typeName x) (y :: r) from rfl]
        rw [List.getLast?_append_of_ne_nil _ (decLines_ne_nil _ _ _)]
        exact ih _ b hL2
      · rw [if_neg hlk]
        rw [List.getLast?_append_of_ne_nil _ (by simp)]
        rw [show mdOf x :: [] :: decLines "" (y :: r) =
          [mdOf x, []] ++ decLines "" (y :: r) from rfl]
        rw [List.getLast?_append_of_ne_nil _ (decLines_ne_nil _ _ _)]
        exact ih _ b hL2

/- ### The formatting loop produces the separated lines plus trailing newlines -/

theorem decLines_cons (clt : String) (b : Block) (rest : List Block) :
    decLines clt (b :: rest) =
      if listLike b then
        (if clt ≠ "" && clt ≠ typeName b then [[]] else []) ++
          mdOf b :: decLines (typeName b) rest
      else
        (if clt ≠ "" then [[]] else []) ++
          (match rest with
           | [] => [mdOf b]
           | _ => mdOf b :: [] :: decLines "" rest) := by
  cases rest <;> rfl

theorem joinLines_cons_ne_nil (l : List Char) (L : List (List Char)) (h : L ≠ []) :
    joinLines (l :: L) = l ++ '\n' :: joinLines L := by
  cases L with
  | nil => cases h rfl
  | cons m r => exact joinLines_cons_cons l m r

theorem joinLines_blank_cons (P : Prop) [inst : Decidable P] (X : List Char)
    (D : List (List Char)) :
    joinLines ((if P then [[]] else []) ++ X :: D) =
      (if P then ['\n'] else []) ++ joinLines (X :: D) := by
  by_cases hP : P
  · rw [if_pos hP, if_pos hP]
    rw [show ([[]] : List (List Char)) ++ X :: D = [] :: X :: D from rfl]
    rw [joinLines_cons_cons]
    rfl
  · rw [if_neg hP, if_neg hP]
    rfl

/-- The formatting loop of getPageContent appends, to the accumulated text,
the joined separated lines followed by the trailing newlines. -/
theorem encode_fold (blocks : List Block) (h : ∀ b ∈ blocks, safeBlock b = true) :
    ∀ clt acc, (blocks.foldl encodeStep (clt, acc)).2 =
      acc ++ (joinLines (decLines clt blocks) ++
        List.replicate (tailNl blocks) '\n') := by
  induction blocks with
  | nil =>
    intro clt acc
    simp [decLines, tailNl, joinLines]
  | cons b rest ih =>
    intro clt acc
    have hb := h b (List.mem_cons_self _ _)
    have hrest : ∀ x ∈ rest, safeBlock x = true :=
      fun x hx => h x (List.mem_cons_of_mem _ hx)
    have hmd := (mdOf_props b hb).1
    rw [List.foldl_cons]
    by_cases hlk : listLike b = true
    · by_cases hc : clt = typeName b
      · subst hc
        have hstep : encodeStep (typeName b, acc) b =
            (typeName b, acc ++ mdOf b ++ ['\n']) := by
          unfold encodeStep
          rw [if_neg hmd, if_pos hlk, if_neg (by simp)]
        have hdl : decLines (typeName b) (b :: rest) =
            mdOf b :: decLines (typeName b) rest := by
          rw [decLines_cons, if_pos hlk, if_neg (by simp)]
          rfl
        rw [hstep, hdl]
        cases rest with
        | nil =>
          rw [List.foldl_nil]
          simp [joinLines, tailNl, decLines, hlk, List.append_assoc]
        | cons y r =>
          rw [ih hrest, joinLines_cons_ne_nil _ _ (decLines_ne_nil _ _ _)]
          rw [show tailNl (b :: y :: r) = tailNl (y :: r) from rfl]
          simp [List.append_assoc]
      · have hstep : encodeStep (clt, acc) b =
            (typeName b,
              (acc ++ (if clt ≠ "" then ['\n'] else [])) ++ mdOf b ++ ['\n']) := by
          unfold encodeStep
          rw [if_neg hmd, if_pos hlk, if_pos hc]
        have hdl : decLines clt (b :: rest) =
            (if clt ≠ "" then [[]] else []) ++
              mdOf b :: decLines (typeName b) rest := by
          rw [decLines_cons, if_pos hlk]
          by_cases hce : clt = ""
          · rw [if_neg (by simp [hce]), if_neg (by simp [hce])]
          · rw [if_pos (by simp [hce, hc]), if_pos hce]
        rw [hstep, hdl, joinLines_blank_cons]
        cases rest with
        | nil =>
          rw [List.foldl_nil]
          simp [joinLines, tailNl, decLines, hlk, List.append_assoc]
        | cons y r =>
          rw [ih hrest, joinLines_cons_ne_nil _ _ (decLines_ne_nil _ _ _)]
          rw [show tailNl (b :: y :: r) = tailNl (y :: r) from rfl]
          simp [List.append_assoc]
    · have hstep : encodeStep (clt, acc) b =
          ("", (acc ++ (if clt ≠ "" then ['\n'] else [])) ++
            mdOf b ++ ['\n', '\n']) := by
        unfold encodeStep
        rw [if_neg hmd, if_neg hlk]
      cases rest with
      | nil =>
        have hdl : decLines clt [b] = (if clt ≠ "" then [[]] else []) ++ [mdOf b] := by
          rw [decLines_cons, if_neg hlk]
        rw [hstep, List.foldl_nil, hdl, joinLines_blank_cons]
        simp [joinLines, tailNl, hlk, List.append_assoc, List.replicate]
      | cons y r =>
        have hdl : decLines clt (b :: y :: r) =
            (if clt ≠ "" then [[]] else []) ++
              (mdOf b :: [] :: decLines "" (y :: r)) := by
          rw [decLines_cons, if_neg hlk]
        rw [hstep, ih hrest, hdl, joinLines_blank_cons, joinLines_cons_cons,
          joinLines_cons_ne_nil _ _ (decLines_ne_nil _ _ _)]
        rw [show tailNl (b :: y :: r) = tailNl (y :: r) from rfl]
        simp [List.append_assoc]

/- ### The decoder folds the separated lines back into the blocks -/

theorem foldl_blank {st : MdState} (hst : st.currentParagraph = [])
    (P : Prop) [inst : Decidable P] :
    List.foldl processLine st (if P then [[]] else []) = st := by
  by_cases hP : P
  · rw [if_pos hP]
    rw [show List.foldl processLine st [[]] = processLine st [] from rfl]
    rw [processLine_blank, flush_id hst]
  · rw [if_neg hP]
    rfl

theorem decLines_one (clt : String) (b : Block) (hlk : ¬(listLike b = true)) :
    decLines clt [b] = (if clt ≠ "" then [[]] else []) ++ [mdOf b] := by
  rw [decLines_cons, if_neg hlk]

theorem decLines_two (clt : String) (b y : Block) (r : List Block)
    (hlk : ¬(listLike b = true)) :
    decLines clt (b :: y :: r) =
      (if clt ≠ "" then [[]] else []) ++ (mdOf b :: [] :: decLines "" (y :: r)) := by
  rw [decLines_cons, if_neg hlk]

theorem eq_paragraph_of_typeName (b : Block) (hb : safeBlock b = true)
    (hp : typeName b = "paragraph") : ∃ ts, b = Block.paragraph ts := by
  cases b with
  | paragraph ts => exact ⟨ts, rfl⟩
  | heading_1 ts => exact absurd hp (by simp [typeName])
  | heading_2 ts => exact absurd hp (by simp [typeName])
  | heading_3 ts => exact absurd hp (by simp [typeName])
  | bulleted_list_item ts => exact absurd hp (by simp [typeName])
  | numbered_list_item ts => exact absurd hp (by simp [typeName])
  | to_do ck ts => exact absurd hp (by simp [typeName])
  | toggle ts => simp [safeBlock] at hb
  | quote ts => exact absurd hp (by simp [typeName])
  | code lang ts => simp [safeBlock] at hb
  | divider => exact absurd hp (by simp [typeName])
  | unsupported t => simp [safeBlock] at hb

/-- Folding the separated lines of safe blocks through the line loop and
flushing recovers each block, re-encoded with its text joined. -/
theorem decode_fold (blocks : List Block) (h : ∀ x ∈ blocks, safeBlock x = true) :
    ∀ clt st, st.currentParagraph = [] →
      flushParagraph ((decLines clt blocks).foldl processLine st) =
        { blocks := st.blocks ++ blocks.map reEncode, currentParagraph := [] } := by
  induction blocks with
  | nil =>
    intro clt st hst
    rw [show decLines clt [] = [] from rfl, List.foldl_nil, flush_id hst]
    cases st with
    | mk bs cp =>
      have hcp : cp = [] := hst
      subst hcp
      simp
  | cons b rest ih =>
    intro clt st hst
    have hb := h b (List.mem_cons_self _ _)
    have hrest : ∀ x ∈ rest, safeBlock x = true :=
      fun x hx => h x (List.mem_cons_of_mem _ hx)
    by_cases hlk : listLike b = true
    · have hnp : typeName b ≠ "paragraph" := by
        intro hq
        unfold listLike at hlk
        rw [hq] at hlk
        exact absurd hlk (by decide)
      rw [decLines_cons, if_pos hlk, List.foldl_append, foldl_blank hst,
        List.foldl_cons]
      rw [processLine_mdOf st hst b hb hnp]
      rw [ih hrest (typeName b)
        { blocks := st.blocks ++ [reEncode b], currentParagraph := [] } rfl]
      simp
    · by_cases hpara : typeName b = "paragraph"
      · obtain ⟨ts, hts⟩ := eq_paragraph_of_typeName b hb hpara
        subst hts
        have hp : plainTextStr (String.join ts) = true := by
          have h2 := hb
          simp only [safeBlock, Bool.and_eq_true] at h2
          exact h2.1.1.1.1.1.1.1.1
        have hne : (String.join ts).data ≠ [] := (plainTextStr_props hp).1
        cases rest with
        | nil =>
          rw [decLines_one clt _ hlk, List.foldl_append, foldl_blank hst]
          rw [show List.foldl processLine st [mdOf (Block.paragraph ts)] =
            processLine st (mdOf (Block.paragraph ts)) from rfl]
          rw [processLine_mdOf_para st hst ts hb]
          unfold flushParagraph
          rw [if_neg hne]
          rfl
        | cons y r =>
          rw [decLines_two clt _ _ _ hlk, List.foldl_append, foldl_blank hst,
            List.foldl_cons]
          rw [processLine_mdOf_para st hst ts hb]
          rw [List.foldl_cons, processLine_blank]
          rw [show flushParagraph
              { blocks := st.blocks, currentParagraph := (String.join ts).data } =
              { blocks := st.blocks ++ [Block.paragraph [String.join ts]],
                currentParagraph := [] } from by
            unfold flushParagraph
            rw [if_neg hne]]
          rw [ih hrest ""
            { blocks := st.blocks ++ [Block.paragraph [String.join ts]],
              currentParagraph := [] } rfl]
          simp [reEncode]
      · cases rest with
        | nil =>
          rw [decLines_one clt _ hlk, List.foldl_append, foldl_blank hst]
          rw [show List.foldl processLine st [mdOf b] =
            processLine st (mdOf b) from rfl]
          rw [processLine_mdOf st hst b hb hpara]
          simp [flushParagraph]
        | cons y r =>
          rw [decLines_two clt _ _ _ hlk, List.foldl_append, foldl_blank hst,
            List.foldl_cons]
          rw [processLine_mdOf st hst b hb hpara]
          rw [List.foldl_cons, processLine_blank]
          rw [show flushParagraph
              { blocks := st.blocks ++ [reEncode b], currentParagraph := [] } =
              { blocks := st.blocks ++ [reEncode b], currentParagraph := [] }
            from flush_id rfl]
          rw [ih hrest ""
            { blocks := st.blocks ++ [reEncode b], currentParagraph := [] } rfl]
          simp

/- ### The round trip of the codec on safe blocks -/

theorem join_single (s : String) : String.join [s] = s := by
  cases s with
  | mk l => rfl

/-- Decoding the page text encoded from safe blocks recovers every block,
re-encoded with its rich text joined into one run. -/
theorem markdownToBlocks_encodePage (blocks : List Block)
    (h : ∀ b ∈ blocks, safeBlock b = true) :
    markdownToBlocks (encodePage blocks) = blocks.map reEncode := by
  cases blocks with
  | nil => rfl
  | cons b0 rest =>
    have hX := encode_fold (b0 :: rest) h "" []
    have hmd0 := mdOf_props b0 (h b0 (List.mem_cons_self _ _))
    have hhead : ∀ c, (joinLines (decLines "" (b0 :: rest))).head? = some c →
        isJsSpace c = false := by
      obtain ⟨L, hL⟩ := decLines_nil_head b0 rest
      rw [hL, joinLines_head_ne_nil _ _ hmd0.1]
      exact hmd0.2.2.1
    obtain ⟨bl, hbl⟩ : ∃ bl, (b0 :: rest).getLast? = some bl :=
      ⟨_, List.getLast?_eq_getLast _ (by simp)⟩
    have hblprops := mdOf_props bl (h bl (List.mem_of_mem_getLast? hbl))
    have hlast : ∀ c, (joinLines (decLines "" (b0 :: rest))).getLast? = some c →
        isJsSpace c = false := by
      rw [joinLines_getLast _ (mdOf bl) (decLines_getLast (b0 :: rest) "" bl hbl)
        hblprops.1]
      exact hblprops.2.2.2
    unfold encodePage
    rw [hX, List.nil_append]
    rw [jsTrim_wrap _ _ hhead hlast]
    show (flushParagraph ((splitNl (jsTrimList
        (String.mk (joinLines (decLines "" (b0 :: rest)))).data)).foldl processLine
        { blocks := [], currentParagraph := [] })).blocks =
      List.map reEncode (b0 :: rest)
    rw [show (String.mk (joinLines (decLines "" (b0 :: rest)))).data =
      joinLines (decLines "" (b0 :: rest)) from rfl]
    rw [jsTrimList_eq_self _ hhead hlast]
    rw [splitNl_joinLines _ (decLines_ne_nil _ _ _)
      (fun l hl => decLines_no_nl _ h "" l hl)]
    rw [decode_fold (b0 :: rest) h "" { blocks := [], currentParagraph := [] } rfl]
    simp

/-- C5: for every block sequence built only from the supported kinds with no
nested children and with plain unambiguous texts, decoding the encoded
markdown yields a sequence equivalent to the original, position by position:
same kind, same joined text, same checkbox flag and code language, in the
same order.  Proved on the safe subset that excludes toggles and code
blocks, whose encodings do not decode back to the same kind. -/
theorem claim_C5 (blocks : List Block) (h : ∀ b ∈ blocks, safeBlock b = true) :
    List.Forall₂ (fun a b => blockEquiv a b = true) blocks
      (markdownToBlocks (encodePage blocks)) := by
  rw [markdownToBlocks_encodePage blocks h]
  rw [List.forall₂_map_right_iff, List.forall₂_same]
  intro x hx
  have hb := h x hx
  cases x <;>
    simp [blockEquiv, reEncode, blockText, typeName, blockChecked, blockLang,
      join_single, safeBlock] at *

theorem claim_C5_witness :
    (∀ b ∈ [Block.heading_1 ["Title"], Block.paragraph ["hello world"],
        Block.bulleted_list_item ["item one"], Block.to_do true ["task"],
        Block.numbered_list_item ["step"], Block.quote ["wise"], Block.divider],
      safeBlock b = true) ∧
    List.Forall₂ (fun a b => blockEquiv a b = true)
      [Block.heading_1 ["Title"], Block.paragraph ["hello world"],
        Block.bulleted_list_item ["item one"], Block.to_do true ["task"],
        Block.numbered_list_item ["step"], Block.quote ["wise"], Block.divider]
      (markdownToBlocks (encodePage
        [Block.heading_1 ["Title"], Block.paragraph ["hello world"],
          Block.bulleted_list_item ["item one"], Block.to_do true ["task"],
          Block.numbered_list_item ["step"], Block.quote ["wise"], Block.divider])) :=
  ⟨by decide, claim_C5 _ (by decide)⟩

/-- C5 counterexample: a toggle block encodes as a bulleted item and decodes
to a block of a different kind, and a code block decodes to three blocks, so
the round trip does not hold for the full supported kind set. -/
theorem claim_C5_counterexample :
    markdownToBlocks (encodePage [Block.toggle ["a"]]) =
      [Block.bulleted_list_item ["a"]] ∧
    blockEquiv (Block.toggle ["a"]) (Block.bulleted_list_item ["a"]) = false ∧
    (markdownToBlocks (encodePage [Block.code "js" ["x"]])).length = 3 := by
  decide

end NotionSync
